import Mathlib

/-!
# IMP restraints and keys

A shallow embedding of the selection restraints of
`new_imp/IMP/Complexes_Restraints.cpp` (`RSR_Connectivity`, `RSR_Pair_Connectivity`,
`RSR_Exclusion_Volume`, `RSR_Proximity`), of its restraints on one particle
(`RSR_Coordinate`, `RSR_Torus`) and of `RSR_EM_Coarse`, of the keys of
`modules/librmf/include/Key.h` and of the key tables of `modules/kernel/src/Key.cpp`, of
the parameter lookups of `modules/atom/include/CHARMMParameters.h`, of the predicate
restraints of `modules/container/include`, of
`Representation::get_representation` of `modules/atom/src/Representation.cpp`, of
`DerivativesFromRefined::apply` of `modules/core/src/DerivativesFromRefined.cpp`, of
`RestraintData` of `modules/domino/include/internal/restraint_evaluator.h` and of
`loopy_filter_edge` of `modules/domino2/src/internal/loopy_inference.cpp`. The
definitions come first, the theorems about them after.

Conventions of the embedding.

* A particle of a restraint is named by its position in the restraint's `particles_`
  vector. The distance restraint built for the particles at positions `i` and `j` is
  named by the pair `(i, j)`; a null `rsr_` pointer is `none`.
* `Float` scores are exact integers in the selection restraints: the theorems are about
  which restraints are selected and how their scores are added, not about rounding.
  Where the code divides or takes a square root (`RSR_Coordinate`, `RSR_Torus`,
  `Representation`) a `Float` or `double` is an exact rational, and a division by zero
  is a result of its own.
* A C++ `int` that counts particles, restraints or edges is an unbounded `Int`. The
  constructors whose names end in `32` follow the slot counts of `set_up` in 32 bits:
  they are the constructors with unbounded integers as long as the counts fit, and a
  restraint that they return is the one that the constructor with unbounded integers
  returns.
* Behaviour that C++ leaves undefined (dereferencing a null `rsr_`, indexing a vector out
  of range) is the result `none`.
* A member list that `evaluate` sorts in place is part of the state that `evaluate`
  returns, so that consecutive calls can be followed.
* An exception thrown is the `error` of an `Except`.
-/

namespace Imp

/-- Modelled from the spec: `IMP_failure` (a macro of `log.h`, which is not part of the
sources at hand) reports a fatal failure by raising the exception it is given. The only
exception raised by the code embedded here is `std::out_of_range`. -/
inductive Failure where
  | out_of_range (what : String)
deriving DecidableEq, Repr

/-- Row-major enumeration of the index pairs visited by
`for (i = 0; i < n - 1; i++) for (j = i + 1; j < n; j++)`. -/
def index_pairs (n : Nat) : List (Nat × Nat) :=
  (List.range (n - 1)).flatMap fun i =>
    (List.range' (i + 1) (n - (i + 1))).map fun j => (i, j)

/-- Row-major enumeration of the index pairs visited by
`for (i = 0; i < n1; i++) for (j = n1; j < n1 + n2; j++)`. -/
def cross_pairs (n1 n2 : Nat) : List (Nat × Nat) :=
  (List.range n1).flatMap fun i => (List.range' n1 n2).map fun j => (i, j)

/-- The index pair `p` comes before `q` in row-major order. -/
def row_major (p q : Nat × Nat) : Prop :=
  p.1 < q.1 ∨ (p.1 = q.1 ∧ p.2 < q.2)

/-! ## RSR_Connectivity -/

namespace RSR_Connectivity

/-- Modelled from the spec: `RSR_Connectivity::Restraint_Score` (declared in
`Complexes_Restraints.h`, which is not part of the sources at hand): a candidate distance
restraint `rsr_` with the types of its two particles and its last computed score
`score_`. A default-constructed entry has a null `rsr_`. -/
structure Restraint_Score where
  part1_type_ : Int
  part2_type_ : Int
  rsr_ : Option (Nat × Nat)
  score_ : Int
deriving DecidableEq, Repr

/-- The entry created by `rsr_scores_.resize`. -/
def Restraint_Score.empty : Restraint_Score :=
  { part1_type_ := 0, part2_type_ := 0, rsr_ := none, score_ := 0 }

/-- Modelled from the spec: `Restraint_Score::evaluate` stores in `score_` the current
score of the distance restraint `rsr_`; `sc` gives the current score of every distance
restraint. -/
def Restraint_Score.evaluate (sc : Nat × Nat → Int) (rs : Restraint_Score) :
    Option Restraint_Score :=
  match rs.rsr_ with
  | none => none
  | some p => some { rs with score_ := sc p }

/-- Modelled from the spec: `Restraint_Score::operator<` compares the scores, so that
`rsr_scores_.sort()` puts the list in ascending score order. `std::list::sort` is stable;
so is this insertion sort, and a stable sort has only one possible result. -/
def sort (l : List Restraint_Score) : List Restraint_Score :=
  l.insertionSort fun a b => a.score_ ≤ b.score_

/-- The fields of the restraint that the constructors and `evaluate` use. -/
structure State where
  num_particles_ : Int
  particle_type_ : List Int
  max_type_ : Int
  num_types_ : Int
  num_restraints_ : Int
  tree_id_ : List Int
  rsr_scores_ : List Restraint_Score
deriving DecidableEq, Repr

/-- The variables of the first loop of `set_up`: the types seen so far are the assigned
entries of `particle_type_`. -/
structure TypeScan where
  max_type_ : Int
  num_types_ : Int
  particle_type_ : List Int
deriving DecidableEq, Repr

/-- One iteration of the loop `for (int i = 0; i < num_particles_; i++)` of `set_up`, for a
particle whose type attribute holds `next_type`. -/
def scan_step (s : TypeScan) (next_type : Int) : TypeScan :=
  { max_type_ := if s.max_type_ < next_type then next_type else s.max_type_
    num_types_ :=
      if next_type ∈ s.particle_type_ then s.num_types_ + 1 - 1 else s.num_types_ + 1
    particle_type_ := s.particle_type_ ++ [next_type] }

/-- The loop of `set_up` that starts from `num_particles_ * (num_particles_ - 1) / 2` and
takes one off for each pair of particles of the same type. -/
def count_restraints (particle_type_ : List Int) (pairs : List (Nat × Nat)) (start : Int) :
    Int :=
  pairs.foldl
    (fun num_restraints_ p =>
      if particle_type_.getD p.2 0 = particle_type_.getD p.1 0 then num_restraints_ - 1
      else num_restraints_)
    start

/-- `RSR_Connectivity::set_up`, given the value of the type attribute of each particle.
An `int` is an unbounded integer here; `RSR_Connectivity.new32` below follows
`num_restraints_` in 32 bits. -/
def set_up (types : List Int) : State :=
  let num_particles_ : Int := types.length
  let scan := types.foldl scan_step { max_type_ := 0, num_types_ := 0, particle_type_ := [] }
  let max_type_ := scan.max_type_ + 1
  let num_restraints_ :=
    count_restraints scan.particle_type_ (index_pairs types.length)
      (Int.tdiv (num_particles_ * (num_particles_ - 1)) 2)
  { num_particles_ := num_particles_
    particle_type_ := scan.particle_type_
    max_type_ := max_type_
    num_types_ := scan.num_types_
    num_restraints_ := num_restraints_
    tree_id_ := List.replicate max_type_.toNat 0
    rsr_scores_ := List.replicate num_restraints_.toNat Restraint_Score.empty }

/-- The restraint-creating loop of the constructors: `pairs` are the index pairs still to
visit and `slots` is the part of `rsr_scores_` from `rs_iter` on. The result is that part
of the list after the loop. -/
def fill (particle_type_ : List Int) :
    List (Nat × Nat) → List Restraint_Score → Except Failure (List Restraint_Score)
  | [], slots => .ok slots
  | (i, j) :: pairs, slots =>
    if particle_type_.getD j 0 ≠ particle_type_.getD i 0 then
      match slots with
      | [] => .error (.out_of_range "Over ran the calculated number of restraints")
      | slot :: rest =>
        (fill particle_type_ pairs rest).map fun l =>
          { slot with
            part1_type_ := particle_type_.getD i 0
            part2_type_ := particle_type_.getD j 0
            rsr_ := some (i, j) } :: l
    else fill particle_type_ pairs slots

/-- The constructors `RSR_Connectivity::RSR_Connectivity`. The two differ only in the mean
distance given to each distance restraint, which is not part of the embedding. -/
def new (types : List Int) : Except Failure State :=
  let st := set_up types
  (fill st.particle_type_ (index_pairs st.num_particles_.toNat) st.rsr_scores_).map fun l =>
    { st with rsr_scores_ := l }

/-- The first loop of `evaluate`: every entry of `rsr_scores_` is evaluated. -/
def score_all (sc : Nat × Nat → Int) : List Restraint_Score → Option (List Restraint_Score)
  | [] => some []
  | rs :: rest =>
    match rs.evaluate sc, score_all sc rest with
    | some rs1, some rest1 => some (rs1 :: rest1)
    | _, _ => none

/-- The variables of the spanning-tree loop of `evaluate`. `applied` is not a variable of
the program: it records, in order, the entries whose restraint the loop has applied. -/
structure Tree where
  tree_id_ : List Int
  max_tree_id : Int
  num_edges : Int
  score : Int
  applied : List Restraint_Score
deriving DecidableEq, Repr

/-- The read `tree_id_[t]`. -/
def tree_id_at (tree_id_ : List Int) (t : Int) : Option Int :=
  if 0 ≤ t then tree_id_[t.toNat]? else none

/-- The update of the loop variables when the restraint of `rs` is applied: `num_edges++`
and `score += rs_iter->rsr_->evaluate(calc_deriv)`. -/
def apply_edge (sc : Nat × Nat → Int) (s : Tree) (rs : Restraint_Score)
    (tree_id_ : List Int) (max_tree_id : Int) : Option Tree :=
  match rs.rsr_ with
  | none => none
  | some p =>
    some { tree_id_ := tree_id_
           max_tree_id := max_tree_id
           num_edges := s.num_edges + 1
           score := s.score + sc p
           applied := s.applied ++ [rs] }

/-- The body of the spanning-tree loop of `evaluate` for the entry `rs`. The relabelling
loop `for (j = 0; j < max_type_; j++)` runs over all of `tree_id_`, which `set_up` has
given `max_type_` entries. -/
def tree_step (sc : Nat × Nat → Int) (s : Tree) (rs : Restraint_Score) : Option Tree :=
  let type1 := rs.part1_type_
  let type2 := rs.part2_type_
  match tree_id_at s.tree_id_ type1, tree_id_at s.tree_id_ type2 with
  | some id1, some id2 =>
    if id1 = 0 ∧ id2 = 0 then
      let max_tree_id := s.max_tree_id + 1
      apply_edge sc s rs
        ((s.tree_id_.set type1.toNat max_tree_id).set type2.toNat max_tree_id) max_tree_id
    else if id1 = 0 ∨ id2 = 0 then
      if id1 ≠ 0 then
        apply_edge sc s rs (s.tree_id_.set type2.toNat id1) s.max_tree_id
      else
        apply_edge sc s rs (s.tree_id_.set type1.toNat id2) s.max_tree_id
    else if id1 ≠ id2 then
      let old_tree_num := id1
      let new_tree_num := id2
      apply_edge sc s rs
        (s.tree_id_.map fun t => if t = old_tree_num then new_tree_num else t) s.max_tree_id
    else some s
  | _, _ => none

/-- The spanning-tree loop of `evaluate`:
`for (rs_iter = begin; rs_iter != end && num_edges < num_types_ - 1; ++rs_iter)`. -/
def tree_loop (sc : Nat × Nat → Int) (num_types_ : Int) :
    List Restraint_Score → Tree → Option Tree
  | [], s => some s
  | rs :: rest, s =>
    if s.num_edges < num_types_ - 1 then
      match tree_step sc s rs with
      | none => none
      | some s1 => tree_loop sc num_types_ rest s1
    else some s

/-- `RSR_Connectivity::evaluate` with all its loop variables: the final variables of the
spanning-tree loop and the restraint after the call. The derivatives that
`calc_deriv` asks for are not part of the embedding. -/
def evaluate_run (st : State) (sc : Nat × Nat → Int) : Option (Tree × State) :=
  match score_all sc st.rsr_scores_ with
  | none => none
  | some scored =>
    let sorted := sort scored
    let tree_id_ := st.tree_id_.map fun _ => (0 : Int)
    match tree_loop sc st.num_types_ sorted
        { tree_id_ := tree_id_, max_tree_id := 0, num_edges := 0, score := 0, applied := [] } with
    | none => none
    | some r => some (r, { st with tree_id_ := r.tree_id_, rsr_scores_ := sorted })

/-- `RSR_Connectivity::evaluate`: the returned score and the restraint after the call. -/
def evaluate (st : State) (sc : Nat × Nat → Int) : Option (Int × State) :=
  (evaluate_run st sc).map fun r => (r.1.score, r.2)

/-- The restraints of a list of consecutive calls to `evaluate`, one score assignment per
call: the restraint after the last call. -/
def evaluate_passes : State → List (Nat × Nat → Int) → Option State
  | st, [] => some st
  | st, sc :: rest =>
    match evaluate st sc with
    | none => none
    | some r => evaluate_passes r.2 rest

/-! ### The graph of types

The notions the statements about `evaluate` are written in: nodes are type values, an
entry of `rsr_scores_` is an edge between its two types, weighted by its score. -/

/-- The index pairs of the particles of different type, in row-major order. -/
def candidate_pairs (types : List Int) : List (Nat × Nat) :=
  (index_pairs types.length).filter fun p => types.getD p.2 0 ≠ types.getD p.1 0

/-- The candidate edges of a list of particle types under a score assignment: one edge
for each pair of particles of different type, weighted by the score of the pair. -/
def candidate_edges (types : List Int) (sc : Nat × Nat → Int) : List Restraint_Score :=
  (candidate_pairs types).map fun p =>
    { part1_type_ := types.getD p.1 0, part2_type_ := types.getD p.2 0, rsr_ := some p,
      score_ := sc p }

/-- Two nodes are connected by a list of edges when a chain of its edges, taken in either
direction, leads from one to the other. -/
def Connected (S : List Restraint_Score) : Int → Int → Prop :=
  Relation.EqvGen fun x y => ∃ e ∈ S, e.part1_type_ = x ∧ e.part2_type_ = y

/-- Total weight of a list of edges. -/
def weight (S : List Restraint_Score) : Int := (S.map fun e => e.score_).sum

/-- The edges `S`, drawn from `edges` without using any of them more often than it occurs,
form a spanning tree of `nodes`: they connect every two nodes, and no edge of `S` can be
left out, since the other edges of `S` do not connect its two ends. -/
def IsSpanningTree (nodes : List Int) (edges S : List Restraint_Score) : Prop :=
  S.Subperm edges ∧ (∀ a ∈ nodes, ∀ b ∈ nodes, Connected S a b) ∧
    ∀ S1 e S2, S = S1 ++ e :: S2 → ¬ Connected (S1 ++ S2) e.part1_type_ e.part2_type_

/-- A spanning tree that weighs no more than any other spanning tree. -/
def IsMinimumSpanningTree (nodes : List Int) (edges S : List Restraint_Score) : Prop :=
  IsSpanningTree nodes edges S ∧ ∀ S1, IsSpanningTree nodes edges S1 → weight S ≤ weight S1

/-- The relation `R` with the classes of `a` and `b` merged. -/
def join (R : Int → Int → Prop) (a b : Int) : Int → Int → Prop :=
  fun x y => R x y ∨ (R x a ∧ R b y) ∨ (R x b ∧ R a y)

/-- The relation `R` with the two ends of every edge of the list merged, in order. -/
def join_all (R : Int → Int → Prop) : List Restraint_Score → Int → Int → Prop
  | [] => R
  | e :: S => join_all (join R e.part1_type_ e.part2_type_) S

/-- Every edge of the list joins two nodes that `R` and the edges before it leave apart. -/
def SeqForest (R : Int → Int → Prop) : List Restraint_Score → Prop
  | [] => True
  | e :: S =>
    ¬ R e.part1_type_ e.part2_type_ ∧ SeqForest (join R e.part1_type_ e.part2_type_) S

/-- The greedy choice `K` from the list `L` over the relation `R`: an edge is taken exactly
when its ends are not yet related. -/
inductive Greedy : (Int → Int → Prop) → List Restraint_Score → List Restraint_Score → Prop
  | done (R : Int → Int → Prop) : Greedy R [] []
  | take {R : Int → Int → Prop} {e : Restraint_Score} {L K : List Restraint_Score} :
      ¬ R e.part1_type_ e.part2_type_ → Greedy (join R e.part1_type_ e.part2_type_) L K →
      Greedy R (e :: L) (e :: K)
  | skip {R : Int → Int → Prop} {e : Restraint_Score} {L K : List Restraint_Score} :
      R e.part1_type_ e.part2_type_ → Greedy R L K → Greedy R (e :: L) K

/-- The number of classes of `R` that have a member in the list. -/
def classes (R : Int → Int → Prop) [DecidableRel R] : List Int → Nat
  | [] => 0
  | v :: V => classes R V + (if ∃ u ∈ V, R u v then 0 else 1)

/-- The entry of `tree_id_` for the type `t`, and 0 where there is none. -/
def label (tree_id_ : List Int) (t : Int) : Int :=
  (tree_id_at tree_id_ t).getD 0

/-- Two types are the same, or `tree_id_` puts them in the same tree. -/
def same_tree (tree_id_ : List Int) (x y : Int) : Prop :=
  x = y ∨ (label tree_id_ x ≠ 0 ∧ label tree_id_ x = label tree_id_ y)

instance same_tree_decidable (tree_id_ : List Int) : DecidableRel (same_tree tree_id_) :=
  fun x y => by unfold same_tree; infer_instance

/-- What the spanning-tree loop of `evaluate` keeps true of its variables, for a restraint
whose `tree_id_` has `M` entries and whose particles have the types `V`, `T` of them
distinct: `tree_id_` describes the classes merged by the applied edges, every applied edge
has merged two classes, and `num_edges` and `score` count and add up the applied edges. -/
def TreeInv (M : Nat) (V : List Int) (T : Nat) (s : Tree) : Prop :=
  s.tree_id_.length = M ∧ 0 ≤ s.max_tree_id ∧ (∀ x, label s.tree_id_ x ≤ s.max_tree_id) ∧
    (∀ x y, same_tree s.tree_id_ x y ↔ join_all (fun u v => u = v) s.applied x y) ∧
    classes (same_tree s.tree_id_) V + s.applied.length = T ∧
    s.num_edges = s.applied.length ∧ s.score = weight s.applied

/-- An entry of `rsr_scores_` that the spanning-tree loop can process: its two types are
different types of particles of the restraint and valid indices into `tree_id_`, and its
`score_` is the current score of its restraint. -/
def EdgeOk (M : Nat) (V : List Int) (sc : Nat × Nat → Int) (e : Restraint_Score) : Prop :=
  (0 ≤ e.part1_type_ ∧ e.part1_type_.toNat < M) ∧ (0 ≤ e.part2_type_ ∧ e.part2_type_.toNat < M) ∧
    e.part1_type_ ≠ e.part2_type_ ∧ e.part1_type_ ∈ V ∧ e.part2_type_ ∈ V ∧
    ∃ p, e.rsr_ = some p ∧ e.score_ = sc p

/-- The entry that the constructor writes into the slot `slot` for the index pair `p`. -/
def tagged (particle_type_ : List Int) (slot : Restraint_Score) (p : Nat × Nat) :
    Restraint_Score :=
  { slot with
    part1_type_ := particle_type_.getD p.1 0
    part2_type_ := particle_type_.getD p.2 0
    rsr_ := some p }

/-- The entry `rs` with its score replaced by the current score of its restraint. -/
def rescore (sc : Nat × Nat → Int) (rs : Restraint_Score) : Restraint_Score :=
  { rs with score_ := match rs.rsr_ with
                      | some p => sc p
                      | none => rs.score_ }

/-- A restraint built for the particle types `types`, possibly after calls to `evaluate`:
`rsr_scores_` holds the candidate edges in some order with some scores. -/
def WellFormed (types : List Int) (st : State) : Prop :=
  st.num_types_ = (types.dedup.length : Int) ∧ st.tree_id_.length = st.max_type_.toNat ∧
    (∀ t ∈ types, t < st.max_type_) ∧
    ∃ sc0, st.rsr_scores_.Perm (candidate_edges types sc0)

/-- The entry `a` was created by the constructor before the entry `b`: the index pair of
its restraint comes first in row-major order. -/
def created_before (a b : Restraint_Score) : Prop :=
  ∃ p q, a.rsr_ = some p ∧ b.rsr_ = some q ∧ row_major p q

end RSR_Connectivity

/-! ## RSR_Pair_Connectivity -/

namespace RSR_Pair_Connectivity

/-- Modelled from the spec: `RSR_Pair_Connectivity::Restraint_Score` (declared in
`Complexes_Restraints.h`, which is not part of the sources at hand): a candidate distance
restraint `rsr_` with the positions of its two particles in `particles_` and its last
computed score `score_`. A default-constructed entry has a null `rsr_`. -/
structure Restraint_Score where
  part1_idx_ : Int
  part2_idx_ : Int
  rsr_ : Option (Nat × Nat)
  score_ : Int
deriving DecidableEq, Repr

/-- The entry created by `rsr_scores_.resize`. -/
def Restraint_Score.empty : Restraint_Score :=
  { part1_idx_ := 0, part2_idx_ := 0, rsr_ := none, score_ := 0 }

/-- Modelled from the spec: `Restraint_Score::evaluate` stores in `score_` the current
score of the distance restraint `rsr_`; `sc` gives the current score of every distance
restraint. -/
def Restraint_Score.evaluate (sc : Nat × Nat → Int) (rs : Restraint_Score) :
    Option Restraint_Score :=
  match rs.rsr_ with
  | none => none
  | some p => some { rs with score_ := sc p }

/-- Modelled from the spec: `Restraint_Score::operator<` compares the scores, so that
`rsr_scores_.sort()` puts the list in ascending score order; the sort is stable. -/
def sort (l : List Restraint_Score) : List Restraint_Score :=
  l.insertionSort fun a b => a.score_ ≤ b.score_

/-- The fields of the restraint that the constructors and `evaluate` use. -/
structure State where
  particle_reuse_ : Bool
  num_to_apply_ : Int
  num_particles1_ : Int
  num_particles2_ : Int
  num_particles_ : Int
  num_restraints_ : Int
  used_ : List Bool
  rsr_scores_ : List Restraint_Score
deriving DecidableEq, Repr

/-- `RSR_Pair_Connectivity::set_up` for groups of `n1` and `n2` particles; the two flags
are set by the constructor before it calls `set_up`. An `int` is an unbounded integer
here; `RSR_Pair_Connectivity.new32` below follows `num_restraints_` in 32 bits. -/
def set_up (n1 n2 : Nat) (num_to_apply : Int) (particle_reuse : Bool) : State :=
  let num_particles1_ : Int := n1
  let num_particles2_ : Int := n2
  let num_particles_ := num_particles1_ + num_particles2_
  let num_restraints_ := num_particles1_ * num_particles2_
  { particle_reuse_ := particle_reuse
    num_to_apply_ := num_to_apply
    num_particles1_ := num_particles1_
    num_particles2_ := num_particles2_
    num_particles_ := num_particles_
    num_restraints_ := num_restraints_
    used_ := List.replicate num_particles_.toNat false
    rsr_scores_ := List.replicate num_restraints_.toNat Restraint_Score.empty }

/-- The restraint-creating loop of the constructors: `pairs` are the index pairs still to
visit and `slots` is the part of `rsr_scores_` from `rs_iter` on. The result is that part
of the list after the loop. -/
def fill : List (Nat × Nat) → List Restraint_Score → Except Failure (List Restraint_Score)
  | [], slots => .ok slots
  | _ :: _, [] => .error (.out_of_range "Reached end of rsr_scores too early")
  | (i, j) :: pairs, slot :: rest =>
    (fill pairs rest).map fun l =>
      { slot with part1_idx_ := i, part2_idx_ := j, rsr_ := some (i, j) } :: l

/-- The constructors `RSR_Pair_Connectivity::RSR_Pair_Connectivity`. The two differ only in
the mean distance given to each distance restraint, which is not part of the embedding. -/
def new (n1 n2 : Nat) (num_to_apply : Int) (particle_reuse : Bool) : Except Failure State :=
  let st := set_up n1 n2 num_to_apply particle_reuse
  (fill (cross_pairs st.num_particles1_.toNat st.num_particles2_.toNat) st.rsr_scores_).map
    fun l => { st with rsr_scores_ := l }

/-- The first loop over `rsr_scores_` of `evaluate`: every entry is evaluated. -/
def score_all (sc : Nat × Nat → Int) : List Restraint_Score → Option (List Restraint_Score)
  | [] => some []
  | rs :: rest =>
    match rs.evaluate sc, score_all sc rest with
    | some rs1, some rest1 => some (rs1 :: rest1)
    | _, _ => none

/-- The variables of the selection loop of `evaluate`. `applied` is not a variable of the
program: it records, in order, the entries whose restraint the loop has applied. -/
structure Selection where
  used_ : List Bool
  score : Int
  num_applied : Int
  applied : List Restraint_Score
deriving DecidableEq, Repr

/-- The read `used_[t]`. -/
def used_at (used_ : List Bool) (t : Int) : Option Bool :=
  if 0 ≤ t then used_[t.toNat]? else none

/-- The write `used_[t] = true`. -/
def mark_used (used_ : List Bool) (t : Int) : Option (List Bool) :=
  if 0 ≤ t ∧ t.toNat < used_.length then some (used_.set t.toNat true) else none

/-- The test `particle_reuse_ || (!used_[part1_idx_] && !used_[part2_idx_])`, with the
short-circuit evaluation of C++. -/
def may_apply (particle_reuse_ : Bool) (used_ : List Bool) (rs : Restraint_Score) :
    Option Bool :=
  if particle_reuse_ then some true
  else
    match used_at used_ rs.part1_idx_ with
    | none => none
    | some true => some false
    | some false =>
      match used_at used_ rs.part2_idx_ with
      | none => none
      | some u2 => some (!u2)

/-- The body of the selection loop of `evaluate` for the entry `rs`. -/
def select_step (sc : Nat × Nat → Int) (particle_reuse_ : Bool) (s : Selection)
    (rs : Restraint_Score) : Option Selection :=
  match may_apply particle_reuse_ s.used_ rs with
  | none => none
  | some false => some s
  | some true =>
    match mark_used s.used_ rs.part1_idx_ with
    | none => none
    | some used1 =>
      match mark_used used1 rs.part2_idx_, rs.rsr_ with
      | some used2, some p =>
        some { used_ := used2
               score := s.score + sc p
               num_applied := s.num_applied + 1
               applied := s.applied ++ [rs] }
      | _, _ => none

/-- The selection loop of `evaluate`:
`for (i = 0; num_applied < num_to_apply_ && rs_iter != end; i++) { ...; ++rs_iter; }`. -/
def select_loop (sc : Nat × Nat → Int) (particle_reuse_ : Bool) (num_to_apply_ : Int) :
    List Restraint_Score → Selection → Option Selection
  | [], s => some s
  | rs :: rest, s =>
    if s.num_applied < num_to_apply_ then
      match select_step sc particle_reuse_ s rs with
      | none => none
      | some s1 => select_loop sc particle_reuse_ num_to_apply_ rest s1
    else some s

/-- `RSR_Pair_Connectivity::evaluate` with all its loop variables: the final variables of
the selection loop and the restraint after the call. The loop
`for (i = 0; i < num_particles_; i++) used_[i] = false` runs over all of `used_`, which
`set_up` has given `num_particles_` entries. The derivatives that `calc_deriv` asks for are
not part of the embedding. -/
def evaluate_run (st : State) (sc : Nat × Nat → Int) : Option (Selection × State) :=
  let used_ := st.used_.map fun _ => false
  match score_all sc st.rsr_scores_ with
  | none => none
  | some scored =>
    let sorted := sort scored
    match select_loop sc st.particle_reuse_ st.num_to_apply_ sorted
        { used_ := used_, score := 0, num_applied := 0, applied := [] } with
    | none => none
    | some r => some (r, { st with used_ := r.used_, rsr_scores_ := sorted })

/-- `RSR_Pair_Connectivity::evaluate`: the returned score and the restraint after the
call. -/
def evaluate (st : State) (sc : Nat × Nat → Int) : Option (Int × State) :=
  (evaluate_run st sc).map fun r => (r.1.score, r.2)

/-- The restraint after a list of consecutive calls to `evaluate`, one score assignment
per call. -/
def evaluate_passes : State → List (Nat × Nat → Int) → Option State
  | st, [] => some st
  | st, sc :: rest =>
    match evaluate st sc with
    | none => none
    | some r => evaluate_passes r.2 rest

/-- The candidate edges of two groups of `n1` and `n2` particles under a score assignment:
one for each pair of a particle of the first group and a particle of the second. -/
def candidate_edges (n1 n2 : Nat) (sc : Nat × Nat → Int) : List Restraint_Score :=
  (cross_pairs n1 n2).map fun p =>
    { part1_idx_ := p.1, part2_idx_ := p.2, rsr_ := some p, score_ := sc p }

/-- Total score of a list of entries. -/
def weight (S : List Restraint_Score) : Int := (S.map fun e => e.score_).sum

/-- The entry `rs` with its score replaced by the current score of its restraint. -/
def rescore (sc : Nat × Nat → Int) (rs : Restraint_Score) : Restraint_Score :=
  { rs with score_ := match rs.rsr_ with
                      | some p => sc p
                      | none => rs.score_ }

/-- The particle position `x` is an end of the entry `e`. -/
def is_end (x : Int) (e : Restraint_Score) : Bool :=
  decide (e.part1_idx_ = x ∨ e.part2_idx_ = x)

/-- A restraint built for groups of `n1` and `n2` particles, possibly after calls to
`evaluate`: `rsr_scores_` holds the candidate edges in some order with some scores. -/
def WellFormed (n1 n2 : Nat) (st : State) : Prop :=
  st.used_.length = n1 + n2 ∧ ∃ sc0, st.rsr_scores_.Perm (candidate_edges n1 n2 sc0)

/-- What the selection loop keeps true when particles may not be reused, for `N`
particles: no position is an end of two applied entries, and a position not yet marked
used is an end of none. -/
def SelectInv (N : Nat) (s : Selection) : Prop :=
  s.used_.length = N ∧ (∀ x : Int, s.applied.countP (is_end x) ≤ 1) ∧
    ∀ x : Int, used_at s.used_ x = some false → s.applied.countP (is_end x) = 0

/-- An entry of `rsr_scores_` that the selection loop can process: its two positions are
valid indices into `used_`, and its `score_` is the current score of its restraint. -/
def EdgeOk (N : Nat) (sc : Nat × Nat → Int) (e : Restraint_Score) : Prop :=
  (0 ≤ e.part1_idx_ ∧ e.part1_idx_.toNat < N) ∧ (0 ≤ e.part2_idx_ ∧ e.part2_idx_.toNat < N) ∧
    ∃ p, e.rsr_ = some p ∧ e.score_ = sc p

/-- What the selection loop keeps true when particles may not be reused, for groups of
`n1` and `n2` particles: in each group the number of positions marked used is the
number of entries applied. -/
def MatchInv (n1 n2 : Nat) (s : Selection) : Prop :=
  s.used_.length = n1 + n2 ∧
    ((s.used_.take n1).count true : Int) = s.num_applied ∧
    ((s.used_.drop n1).count true : Int) = s.num_applied ∧
    (s.applied.length : Int) = s.num_applied

/-- One of the two positions of the entry `e` is marked used. -/
def Covered (used_ : List Bool) (e : Restraint_Score) : Prop :=
  used_at used_ e.part1_idx_ = some true ∨ used_at used_ e.part2_idx_ = some true

end RSR_Pair_Connectivity

/-! ## RSR_Exclusion_Volume -/

namespace RSR_Exclusion_Volume

/-- Modelled from the spec: `RSR_Distance` (declared in a header that is not part of the
sources at hand) is a distance restraint between two particles, built from the score
function parameters it is given. The particles are named by their positions in
`particles_`; `mean` is the target distance that the parameters held when they were given
to the constructor of the restraint. -/
structure RSR_Distance (α : Type) where
  p1 : Nat
  p2 : Nat
  mean : α
deriving DecidableEq, Repr

/-- The fields of the restraint that the constructors set. -/
structure State (α : Type) where
  num_particles1_ : Int
  num_particles2_ : Int
  num_particles_ : Int
  num_restraints_ : Int
  dist_rsrs_ : List (RSR_Distance α)

/-- The variables of the restraint-creating loops: the mean held by `score_func_params`
and the vector `dist_rsrs_`. -/
structure Build (α : Type) where
  params_mean : Option α
  dist_rsrs_ : List (RSR_Distance α)

/-- The body of the restraint-creating loops for the index pair `(i, j)`: `actual_mean`
is the sum of the two radius attribute values, `set_mean` stores it in the parameters, and
the new `RSR_Distance` is pushed to the back of `dist_rsrs_`. `radius i` is the value of
the attribute `attr_name` of `particles_[i]`. -/
def build_step {α : Type} [Add α] (radius : Nat → α) (b : Build α) (p : Nat × Nat) : Build α :=
  let actual_mean := radius p.1 + radius p.2
  { params_mean := some actual_mean
    dist_rsrs_ := b.dist_rsrs_ ++ [{ p1 := p.1, p2 := p.2, mean := actual_mean }] }

/-- The constructor `RSR_Exclusion_Volume::RSR_Exclusion_Volume` for two groups of `n1` and
`n2` particles. -/
def new_two_groups {α : Type} [Add α] (n1 n2 : Nat) (radius : Nat → α) : State α :=
  let num_particles1_ : Int := n1
  let num_particles2_ : Int := n2
  let num_particles_ := num_particles1_ + num_particles2_
  let num_restraints_ := num_particles1_ * num_particles2_
  let b := (cross_pairs num_particles1_.toNat num_particles2_.toNat).foldl (build_step radius)
    { params_mean := none, dist_rsrs_ := [] }
  { num_particles1_ := num_particles1_
    num_particles2_ := num_particles2_
    num_particles_ := num_particles_
    num_restraints_ := num_restraints_
    dist_rsrs_ := b.dist_rsrs_ }

/-- The constructor `RSR_Exclusion_Volume::RSR_Exclusion_Volume` for one group of `n`
particles; `num_particles1_` and `num_particles2_` are not set by it. -/
def new_one_group {α : Type} [Add α] (n : Nat) (radius : Nat → α) : State α :=
  let num_particles_ : Int := n
  let num_restraints_ := Int.tdiv (num_particles_ * (num_particles_ - 1)) 2
  let b := (index_pairs num_particles_.toNat).foldl (build_step radius)
    { params_mean := none, dist_rsrs_ := [] }
  { num_particles1_ := 0
    num_particles2_ := 0
    num_particles_ := num_particles_
    num_restraints_ := num_restraints_
    dist_rsrs_ := b.dist_rsrs_ }

/-- `RSR_Exclusion_Volume::evaluate`: the sum of the scores of all the distance
restraints; `sc` gives the current score of each. -/
def evaluate {α : Type} (st : State α) (sc : RSR_Distance α → Int) : Int :=
  st.dist_rsrs_.foldl (fun score r => score + sc r) 0

end RSR_Exclusion_Volume

/-! ## RMF::Key (modules/librmf/include/Key.h) -/

namespace RMF

/-- Modelled from the spec: `RMF::Category` (declared in `Category.h`, which is not part of
the sources at hand) is a small integer namespace id; categories are compared by that
integer and `get_index` returns it. -/
structure Category where
  index : Int
deriving DecidableEq, Repr

/-- `Category::get_index`. -/
def Category.get_index (c : Category) : Int := c.index

/-- `Category::operator<`. -/
def Category.lt (a b : Category) : Prop := a.index < b.index

instance Category.lt_decidable (a b : Category) : Decidable (Category.lt a b) := by
  unfold Category.lt; infer_instance

/-- The class template `Key<TypeTraitsT, Arity>`: each instantiation has the same three
members. -/
structure Key where
  i_ : Int
  ci_ : Category
  pf_ : Bool
deriving DecidableEq, Repr

/-- `Key::compare`. -/
def Key.compare (k o : Key) : Int :=
  if k.i_ < o.i_ then -1
  else if k.i_ > o.i_ then 1
  else if Category.lt k.ci_ o.ci_ then -1
  else if Category.lt o.ci_ k.ci_ then 1
  else 0

/-- The hash value given by `IMP_RMF_HASHABLE(Key, return i_*ci_.get_index())`. The product
is taken in the integers; the claim about it does not depend on how the machine type wraps. -/
def Key.hash (k : Key) : Int := k.i_ * k.ci_.get_index

end RMF

/-! ## The key tables of the kernel (modules/kernel/src/Key.cpp) -/

namespace internal

/-- The value of the static `heuristic_value`. -/
def heuristic_value : Int := 238471628

/-- The class `KeyData` (declared in a header that is not part of the sources at hand).
Modelled from the spec: the table of names of one attribute type is held as `rmap_`, the
names in index order, the one data member that the sources at hand read (in
`KeyData::show`); the index of a name is its position in `rmap_`. -/
structure KeyData where
  heuristic_ : Int
  rmap_ : List String
deriving DecidableEq, Repr

/-- The constructor `KeyData::KeyData()`. -/
def KeyData.new : KeyData := { heuristic_ := heuristic_value, rmap_ := [] }

/-- Modelled from the spec: `KeyData::add_key` (not part of the sources at hand) gives a new
name the next index, so that indices are densely packed from 0; it returns that index. -/
def KeyData.add_key (d : KeyData) (name : String) : KeyData × Nat :=
  ({ d with rmap_ := d.rmap_ ++ [name] }, d.rmap_.length)

/-- Modelled from the spec: the lookup of a name in the table of an attribute type. -/
def KeyData.find (d : KeyData) (name : String) : Option Nat :=
  if name ∈ d.rmap_ then some (d.rmap_.indexOf name) else none

/-- The map `KeyTable`, from type ids to `KeyData`. An absent entry is represented by the
default-constructed `KeyData` that `operator[]` would insert for it. -/
def KeyTable : Type := Nat → KeyData

/-- `key_data.operator[](id).add_key(name)`. -/
def KeyTable.add_key (t : KeyTable) (id : Nat) (name : String) : KeyTable :=
  Function.update t id ((t id).add_key name).1

/-- The constructor `KeyTable::KeyTable()`; `fk` is `FloatKey::get_ID()`. -/
def KeyTable.new (fk : Nat) : KeyTable :=
  let t0 : KeyTable := fun _ => KeyData.new
  ((((((t0.add_key fk "x").add_key fk "y").add_key fk "z").add_key fk "radius").add_key fk
    "local_x").add_key fk "local_y").add_key fk "local_z"

/-- `get_key_data(index)`. The state is the function-local static `key_data`, `none` until
the first call constructs it; the returned `KeyData` stands for the reference into
`key_data`. -/
def get_key_data (key_data : Option KeyTable) (fk index : Nat) : KeyData × Option KeyTable :=
  let t := key_data.getD (KeyTable.new fk)
  (t index, some t)

/-- Modelled from the spec: `get_or_create_key` for the attribute type `id`: the index the
name already has in the table of `id`, or else the index `add_key` gives it. Returns the
index and the static `key_data` after the call. -/
def create_key (key_data : Option KeyTable) (fk id : Nat) (name : String) :
    Nat × Option KeyTable :=
  let t := key_data.getD (KeyTable.new fk)
  match (t id).find name with
  | some i => (i, some t)
  | none => ((t id).rmap_.length, some (t.add_key id name))

/-- The static `key_data` after a list of key creations `(id, name)`, the most recent one
first, starting before the first call. -/
def create_keys (fk : Nat) : List (Nat × String) → Option KeyTable
  | [] => none
  | op :: ops => (create_key (create_keys fk ops) fk op.1 op.2).2

/-- The names of the attribute type `id`, in index order. -/
def names (key_data : Option KeyTable) (fk id : Nat) : List String :=
  (get_key_data key_data fk id).1.rmap_

end internal

/-- Modelled from the spec: `IMP_THROW`, `IMP_USAGE_CHECK` and `IMP_INTERNAL_CHECK` (macros
of the kernel's exception header, which is not part of the sources at hand) raise the
exception they name: a lookup that finds nothing is a typed failure for the caller, a
usage check that does not hold is a usage error, an internal check that does not hold is
an internal error. -/
inductive Exception where
  | IndexException
  | ValueException
  | UsageException
  | InternalException
deriving DecidableEq, Repr

/-! ### `CHARMMParameters` (`modules/atom/include/CHARMMParameters.h`) -/

namespace CHARMMParameters

/-- The parameters of a bond or of an angle. -/
structure CHARMMBondParameters where
  force_constant : ℚ
  ideal : ℚ
deriving DecidableEq

/-- The parameters of a dihedral or of an improper. -/
structure CHARMMDihedralParameters where
  force_constant : ℚ
  multiplicity : Int
  ideal : ℚ
deriving DecidableEq

/-- Modelled from the spec: `internal::CHARMMDihedralNames` (declared in
`internal/charmm_helpers.h`, which is not part of the sources at hand) holds the four
atom type names of a dihedral. -/
structure CHARMMDihedralNames where
  a : String
  b : String
  c : String
  d : String
deriving DecidableEq

/-- The parameter tables of a `CHARMMParameters` object. `B` and `A` are the key types
`internal::CHARMMBondNames` and `internal::CHARMMAngleNames`, whose declarations are not
part of the sources at hand; a `std::map` is the list of its entries. -/
structure State (B A : Type) where
  bond_parameters_ : List (B × CHARMMBondParameters)
  angle_parameters_ : List (A × CHARMMBondParameters)
  dihedral_parameters_ : List (CHARMMDihedralNames × CHARMMDihedralParameters)

/-- Lookup `std::map::find(k)`: the entry whose key is equivalent to `k` under the map's
ordering `lt` (neither is ordered before the other); `none` is `end()`. -/
def map_find {K V : Type} (lt : K → K → Bool) (m : List (K × V)) (k : K) : Option (K × V) :=
  m.find? fun e => !lt e.1 k && !lt k e.1

/-- Member `get_bond_parameters(type1, type2)`. `lt` is the ordering of
`internal::CHARMMBondNames` and `names` its constructor. The member is `const`; the
tables are returned next to the result so that this can be stated. -/
def get_bond_parameters {B A : Type} (lt : B → B → Bool) (names : String → String → B)
    (s : State B A) (type1 type2 : String) :
    Except Exception CHARMMBondParameters × State B A :=
  let types := names type1 type2
  match map_find lt s.bond_parameters_ types with
  | some e => (.ok e.2, s)
  | none => (.error .IndexException, s)

/-- Member `get_angle_parameters(type1, type2, type3)`. `lt` is the ordering of
`internal::CHARMMAngleNames` and `names` its constructor. -/
def get_angle_parameters {B A : Type} (lt : A → A → Bool)
    (names : String → String → String → A)
    (s : State B A) (type1 type2 type3 : String) :
    Except Exception CHARMMBondParameters × State B A :=
  let types := names type1 type2 type3
  match map_find lt s.angle_parameters_ types with
  | some e => (.ok e.2, s)
  | none => (.error .IndexException, s)

/-- Modelled from the spec: one atom type of the library against one atom type of the
query, as the documentation of `get_dihedral_parameters` describes it ("an atom type of
X in the library will match any atom type"). The result is the number of wildcards used,
`none` when the types do not match. -/
def match_type (allow_wildcards : Bool) (lib query : String) : Option Nat :=
  if lib = query then some 0
  else if allow_wildcards = true ∧ lib = "X" then some 1
  else none

/-- Modelled from the spec: the library names `lib` against four atom types in the order
given; the number of wildcards used, `none` when they do not match. -/
def match_in_order (allow_wildcards : Bool) (lib : CHARMMDihedralNames)
    (a b c d : String) : Option Nat :=
  match match_type allow_wildcards lib.a a, match_type allow_wildcards lib.b b,
    match_type allow_wildcards lib.c c, match_type allow_wildcards lib.d d with
  | some n1, some n2, some n3, some n4 => some (n1 + n2 + n3 + n4)
  | _, _, _, _ => none

/-- Modelled from the spec: `CHARMMDihedralNames::match` (in
`internal/charmm_helpers.h`, which is not part of the sources at hand). From the
documentation of `get_dihedral_parameters`: "The atom types may match in either forward
or reverse order." The result is the number of wildcards used, `none` for no match. -/
def CHARMMDihedralNames.matches (lib query : CHARMMDihedralNames)
    (allow_wildcards : Bool) : Option Nat :=
  match match_in_order allow_wildcards lib query.a query.b query.c query.d with
  | some n => some n
  | none => match_in_order allow_wildcards lib query.d query.c query.b query.a

/-- Modelled from the spec: `find_dihedral` (declared in the header, defined in
`CHARMMParameters.cpp`, which is not part of the sources at hand). From the documentation
of `get_dihedral_parameters` and of `get_improper_parameters`: "The most specific match
from the library is returned", that is an entry of the range that matches `dihedral` with
the fewest wildcards, the first of these in the range; four names use at most four
wildcards. The result is the offset of that entry in the range; `none` is the end
iterator. -/
def find_dihedral (range : List (CHARMMDihedralNames × CHARMMDihedralParameters))
    (dihedral : CHARMMDihedralNames) (allow_wildcards : Bool) : Option Nat :=
  (List.range 5).findSome? fun n =>
    range.findIdx? fun e => e.1.matches dihedral allow_wildcards == some n

/-- The `while` loop of `get_dihedral_parameters`: `pos` is the position of `match` in the
library and `param` the list built so far. Every turn moves `match` forward, so the
library's length is enough fuel; `none` is a loop that has not ended when the fuel has. -/
def duplicates (lib : List (CHARMMDihedralNames × CHARMMDihedralParameters)) :
    Nat → Nat → List CHARMMDihedralParameters → Option (List CHARMMDihedralParameters)
  | 0, _, _ => none
  | fuel + 1, pos, param =>
    match lib[pos]? with
    | none => none
    | some e =>
      match find_dihedral (lib.drop (pos + 1)) e.1 false with
      | none => some param
      | some off =>
        match lib[pos + 1 + off]? with
        | none => none
        | some e' => duplicates lib fuel (pos + 1 + off) (param ++ [e'.2])

/-- Member `get_dihedral_parameters(type1, type2, type3, type4)`, on the table
`dihedral_parameters_`. The outer `none` is a loop that does not end. -/
def get_dihedral_parameters
    (dihedral_parameters_ : List (CHARMMDihedralNames × CHARMMDihedralParameters))
    (type1 type2 type3 type4 : String) :
    Option (Except Exception (List CHARMMDihedralParameters)) :=
  let types : CHARMMDihedralNames := ⟨type1, type2, type3, type4⟩
  let param : Option (List CHARMMDihedralParameters) :=
    match find_dihedral dihedral_parameters_ types true with
    | some pos =>
      match dihedral_parameters_[pos]? with
      | some e => duplicates dihedral_parameters_ (dihedral_parameters_.length + 1) pos [e.2]
      | none => none
    | none => some []
  param.map fun param =>
    if param.length = 0 then .error .IndexException else .ok param

/-- The library names `lib` are the names `q`, read forwards or backwards. -/
def same_names (lib q : CHARMMDihedralNames) : Prop :=
  lib = q ∨ lib = ⟨q.d, q.c, q.b, q.a⟩

instance same_names_decidable (lib q : CHARMMDihedralNames) : Decidable (same_names lib q) := by
  unfold same_names; infer_instance

end CHARMMParameters

/-! ### Predicate restraints (`modules/container/include/PredicatePairsRestraint.h`,
`TripletsPredicateRestraint.h`, `QuadsPredicateRestraint.h`) -/

namespace PredicateRestraint

/-- The three predicate restraints: `PredicatePairsRestraint`,
`TripletsPredicateRestraint` and `QuadsPredicateRestraint`. -/
inductive Kind where
  | pairs
  | triplets
  | quads
deriving DecidableEq, Repr

/-- The restraint that `container::create_restraint(score, c)` makes (`generic.h` is not
part of the sources at hand): it applies `score` to the list container `c`, and, as every
restraint, has the model it was given by `set_model` and a `was_used` flag. -/
structure SubRestraint (Score : Type) where
  score : Score
  container : Nat
  model : Option Nat
  was_used : Bool

/-- The members of a predicate restraint over tuples `T`. The list containers made by
`IMP_NEW` live in `lists`, each one named by its position there; `model` is the model the
restraint is part of (`get_is_part_of_model()` holds when there is one, and `get_model()`
is that model); a model is named by a number. `containers_` is the list of the entries
of the map from predicate values (`unsigned int`) to containers. -/
structure State (T Score : Type) where
  kind : Kind
  model : Option Nat
  predicate_ : T → Int
  input_ : List T
  containers_ : List (Nat × Nat)
  unknown_container_ : Option Nat
  restraints_ : List (SubRestraint Score)
  updated_ : Bool
  error_on_unknown_ : Bool
  lists : List (List T)

/-- Conversion of an `int` predicate value to the `unsigned int` key of `containers_`. -/
def to_unsigned (v : Int) : Nat :=
  (v % 4294967296).toNat

/-- Lookup `containers_.find(k)`; `none` is `end()`. -/
def map_get (m : List (Nat × Nat)) (k : Nat) : Option Nat :=
  (m.find? fun e => e.1 == k).map fun e => e.2

/-- Assignment `containers_[k] = c`. -/
def map_set (m : List (Nat × Nat)) (k c : Nat) : List (Nat × Nat) :=
  (k, c) :: m.filter fun e => e.1 != k

/-- Member `set_score(predicate_value, score)`. -/
def set_score {T Score : Type} (s : State T Score) (predicate_value : Int) (score : Score) :
    Except Exception (State T Score) :=
  match s.model with
  | none => .error .UsageException
  | some m =>
    let c := s.lists.length
    let r : SubRestraint Score := ⟨score, c, none, false⟩
    let r := { r with model := some m }
    let r := if s.kind = .pairs then { r with was_used := true } else r
    .ok { s with
      lists := s.lists ++ [[]]
      restraints_ := s.restraints_ ++ [r]
      containers_ := map_set s.containers_ (to_unsigned predicate_value) c }

/-- Member `set_unknown_score(score)`. -/
def set_unknown_score {T Score : Type} (s : State T Score) (score : Score) :
    Except Exception (State T Score) :=
  match s.model with
  | none => .error .UsageException
  | some m =>
    let c := s.lists.length
    let r : SubRestraint Score := ⟨score, c, none, false⟩
    let r := { r with model := some m }
    .ok { s with
      lists := s.lists ++ [[]]
      restraints_ := s.restraints_ ++ [r]
      unknown_container_ := some c }

/-- Member `set_is_complete(tf)`. -/
def set_is_complete {T Score : Type} (s : State T Score) (tf : Bool) : State T Score :=
  { s with error_on_unknown_ := tf }

/-- Member `add(index)` of the list container named `c`. -/
def add {T : Type} (lists : List (List T)) (c : Nat) (index : T) : List (List T) :=
  lists.set c ((lists[c]?).getD [] ++ [index])

/-- Member `clear()` of the list container named `c`. -/
def clear {T : Type} (lists : List (List T)) (c : Nat) : List (List T) :=
  lists.set c []

/-- The container that takes the tuple `index`: the one registered for its predicate
value, else the unknown container; `none` when there is neither. -/
def slot {T Score : Type} (s : State T Score) (index : T) : Option Nat :=
  match map_get s.containers_ (to_unsigned (s.predicate_ index)) with
  | some c => some c
  | none => s.unknown_container_

/-- Modelled from the spec: `assign_pair` (declared in the headers, defined in source
files that are not part of the sources at hand). From section 4.8: a tuple goes to the
sub-container registered for its predicate value; "tuples matching no registered
predicate value go to an unknown sub-container if one was registered via
`set_unknown_score`, else they are either silently dropped or treated as a fatal
configuration error depending on `set_is_complete`". The member is `const`: it changes
list containers only, so the containers are passed and returned. The flag returned tells
whether the tuple was added. -/
def assign_pair {T Score : Type} (s : State T Score) (lists : List (List T)) (index : T) :
    Except Exception (List (List T) × Bool) :=
  let bin := to_unsigned (s.predicate_ index)
  match map_get s.containers_ bin with
  | some c => .ok (add lists c index, true)
  | none =>
    match s.unknown_container_ with
    | some u => .ok (add lists u index, true)
    | none =>
      if s.error_on_unknown_ = true then .error .ValueException else .ok (lists, false)

/-- Modelled from the spec: the loop of `update_lists_if_necessary` over the tuples of
the input container, each one given to `assign_pair`. -/
def assign_all {T Score : Type} (s : State T Score) :
    List T → List (List T) → Except Exception (List (List T))
  | [], lists => .ok lists
  | index :: rest, lists =>
    match assign_pair s lists index with
    | .ok (lists', _) => assign_all s rest lists'
    | .error e => .error e

/-- Modelled from the spec: `update_lists_if_necessary` (declared in the headers, defined
in source files that are not part of the sources at hand). From section 4.8: "On each
evaluation pass (`update_lists_if_necessary`), every tuple from the input container is
re-classified by the predicate", and a sub-container holds "exactly the tuples for which
the predicate currently evaluates to" its value: the sub-containers are emptied and every
tuple of the input is assigned again. -/
def update_lists_if_necessary {T Score : Type} (s : State T Score) :
    Except Exception (State T Score) :=
  let lists :=
    match s.unknown_container_ with
    | some u => clear s.lists u
    | none => s.lists
  let lists := s.containers_.foldl (fun ls e => clear ls e.2) lists
  match assign_all s s.input_ lists with
  | .ok lists' => .ok { s with updated_ := true, lists := lists' }
  | .error e => .error e

/-- The entries of the container map have distinct predicate values and distinct
containers, the unknown container is none of them, and every container named is one of
`lists`: what `set_score` and `set_unknown_score` keep true. -/
def WellFormed {T Score : Type} (s : State T Score) : Prop :=
  (∀ e ∈ s.containers_, e.2 < s.lists.length) ∧
  (s.containers_.map Prod.fst).Nodup ∧
  (s.containers_.map Prod.snd).Nodup ∧
  ∀ u, s.unknown_container_ = some u →
    u < s.lists.length ∧ u ∉ s.containers_.map Prod.snd

/-- A pairs restraint over pairs of particle indices whose predicate is the first index
of the pair. It is part of model 0 when `in_model` is true, and then has one score, set
for the predicate value 1, and, when `unknown` is true, an unknown score. -/
def sample (in_model unknown is_complete : Bool) (input : List (Nat × Nat)) :
    State (Nat × Nat) String :=
  { kind := .pairs
    model := if in_model then some 0 else none
    predicate_ := fun p => (p.1 : Int)
    input_ := input
    containers_ := if in_model then [(1, 0)] else []
    unknown_container_ := if in_model && unknown then some 1 else none
    restraints_ :=
      if in_model then
        (⟨"one", 0, some 0, true⟩ : SubRestraint String) ::
          (if unknown then [⟨"unknown", 1, some 0, false⟩] else [])
      else []
    updated_ := false
    error_on_unknown_ := is_complete
    lists := if in_model then [] :: (if unknown then [[]] else []) else [] }

/-- The restraint `sample` in a model, with an unknown score, not complete, over three
input pairs. -/
def sample_three : State (Nat × Nat) String :=
  sample true true false [(1, 5), (2, 6), (1, 7)]

end PredicateRestraint

/-! ### `RSR_Proximity` and `RSR_EM_Coarse` (`new_imp/IMP/Complexes_Restraints.cpp`) -/

namespace RSR_Proximity

/-- The fields of the restraint that the constructors set. An entry of `dist_rsrs_` is a
pointer to a distance restraint, null (`none`) until the constructor has stored one. -/
structure State where
  num_particles_ : Int
  num_restraints_ : Int
  dist_rsrs_ : List (Option (Nat × Nat))

/-- `RSR_Proximity::set_up` for `n` particle indexes. An `int` is an unbounded integer
here; `RSR_Proximity.new32` below follows `num_restraints_` in 32 bits. -/
def set_up (n : Nat) : State :=
  let num_particles_ : Int := n
  let num_restraints_ := Int.tdiv (num_particles_ * (num_particles_ - 1)) 2
  { num_particles_ := num_particles_
    num_restraints_ := num_restraints_
    dist_rsrs_ := List.replicate num_restraints_.toNat none }

/-- The body of the restraint-creating loops for the index pair `(i, j)`:
`dist_rsrs_[idx] = new RSR_Distance(...)` and `idx++`. The loop variables are `idx` and
the vector; storing outside of the vector is undefined, `none`. -/
def build_step (b : Option (Nat × List (Option (Nat × Nat)))) (p : Nat × Nat) :
    Option (Nat × List (Option (Nat × Nat))) :=
  match b with
  | none => none
  | some (idx, dist_rsrs_) =>
    if idx < dist_rsrs_.length then some (idx + 1, dist_rsrs_.set idx (some p)) else none

/-- The constructors `RSR_Proximity::RSR_Proximity` for `n` particle indexes. The two
constructors differ in the mean distance that they give to the score function of each
distance restraint, which is part of the scores `sc` of `evaluate`. -/
def new (n : Nat) : Option State :=
  let st := set_up n
  ((index_pairs st.num_particles_.toNat).foldl build_step (some (0, st.dist_rsrs_))).map
    fun b => { st with dist_rsrs_ := b.2 }

/-- `RSR_Proximity::evaluate`; `sc` gives the current score of each distance restraint.
The code that scored and sorted the restraints is commented out in the source, and
`num_restraints_to_use` is set to `num_restraints_`. -/
def evaluate (st : State) (sc : Nat × Nat → Int) : Option Int :=
  let num_restraints_to_use := st.num_restraints_
  (List.range num_restraints_to_use.toNat).foldl
    (fun score i =>
      match score, st.dist_rsrs_[i]? with
      | some score, some (some r) => some (score + sc r)
      | _, _ => none)
    (some 0)

end RSR_Proximity

namespace RSR_EM_Coarse

/-- The fields of the restraint that `evaluate` reads: the number of particles and their
weights and radii, which the constructor reads from the model. The density map, the grid
and the other arguments that `emscore` is given unchanged are part of the function
`emscore` below. -/
structure State where
  num_particles_ : Nat
  weight_ : List ℚ
  radius_ : List ℚ

/-- `RSR_EM_Coarse::evaluate`. `emscore` is the external density-scoring routine: from the
coordinate arrays, the number of particles, the radii, the weights and `lderiv` it gives
its score and the arrays `dvx_`, `dvy_`, `dvz_` as it leaves them. `coords i` are the
current coordinates of the particle at position `i` and `derivs i` its derivative
accumulators, both in the model; the result is the score returned and the accumulators
after the call. In the source `score = emscore(...)` is followed by `score = 0.0`. -/
def evaluate
    (emscore : (Nat → ℚ × ℚ × ℚ) → Nat → List ℚ → List ℚ → Int → ℚ × (Nat → ℚ × ℚ × ℚ))
    (st : State) (coords derivs : Nat → ℚ × ℚ × ℚ) (calc_deriv : Bool) :
    ℚ × (Nat → ℚ × ℚ × ℚ) :=
  let lderiv : Int := if calc_deriv then 1 else 0
  let cd := fun i => if i < st.num_particles_ then coords i else (0, 0, 0)
  let r := emscore cd st.num_particles_ st.radius_ st.weight_ lderiv
  let dv := r.2
  let score : ℚ := 0
  let derivs :=
    if calc_deriv then
      fun i =>
        if i < st.num_particles_ then
          ((derivs i).1 + (dv i).1, (derivs i).2.1 + (dv i).2.1, (derivs i).2.2 + (dv i).2.2)
        else derivs i
    else derivs
  (score, derivs)

end RSR_EM_Coarse

/-! ### `RSR_Coordinate` and `RSR_Torus` (`new_imp/IMP/Complexes_Restraints.cpp`)

In these two restraints a `Float` is an exact rational, and the square root is a
parameter `sqrt` of the embedding. A division whose divisor is zero gives `none`, also for
everything computed from it. -/

/-- Division `a / b` of two `Float`s; `none` when the divisor is zero. -/
def fdiv (a b : ℚ) : Option ℚ :=
  if b = 0 then none else some (a / b)

namespace RSR_Coordinate

/-- `RSR_Coordinate::evaluate`. `score_func_ f` is the score and the derivative that the
score function gives for the feature `f`; `x`, `y`, `z` is the position of the particle
and `derivs` its derivative accumulators. The result is the score returned and the
accumulators after the call. -/
def evaluate (sqrt : ℚ → ℚ) (score_func_ : ℚ → ℚ × ℚ) (axis_ : String)
    (x y z : ℚ) (derivs : ℚ × ℚ × ℚ) (calc_deriv : Bool) : Option (ℚ × (ℚ × ℚ × ℚ)) :=
  let r : Option (ℚ × (ℚ × ℚ × ℚ)) :=
    if axis_ = "X_AXIS" then
      some ((score_func_ x).1, ((score_func_ x).2, 0, 0))
    else if axis_ = "Y_AXIS" then
      some ((score_func_ y).1, (0, (score_func_ y).2, 0))
    else if axis_ = "Z_AXIS" then
      some ((score_func_ z).1, (0, 0, (score_func_ z).2))
    else if axis_ = "XY_RADIAL" then
      let current_distance := sqrt (x * x + y * y)
      let score := (score_func_ (sqrt (x * x + y * y))).1
      let deriv := (score_func_ (sqrt (x * x + y * y))).2
      (fdiv x current_distance).bind fun qx =>
      (fdiv y current_distance).bind fun qy =>
      some (score, (qx * deriv, qy * deriv, 0))
    else if axis_ = "XZ_RADIAL" then
      let current_distance := sqrt (x * x + z * z)
      let score := (score_func_ current_distance).1
      let deriv := (score_func_ current_distance).2
      (fdiv x current_distance).bind fun qx =>
      (fdiv z current_distance).bind fun qz =>
      some (score, (qx * deriv, 0, qz * deriv))
    else if axis_ = "YZ_RADIAL" then
      let current_distance := sqrt (y * y + z * z)
      let score := (score_func_ current_distance).1
      let deriv := (score_func_ current_distance).2
      (fdiv y current_distance).bind fun qy =>
      (fdiv z current_distance).bind fun qz =>
      some (score, (0, qy * deriv, qz * deriv))
    else if axis_ = "XYZ_SPHERE" then
      let current_distance := sqrt (x * x + y * y + z * z)
      let score := (score_func_ current_distance).1
      let deriv := (score_func_ current_distance).2
      (fdiv x current_distance).bind fun qx =>
      (fdiv y current_distance).bind fun qy =>
      (fdiv z current_distance).bind fun qz =>
      some (score, (qx * deriv, qy * deriv, qz * deriv))
    else some (0, (0, 0, 0))
  r.map fun r =>
    if calc_deriv then
      (r.1, (derivs.1 + r.2.1, derivs.2.1 + r.2.2.1, derivs.2.2 + r.2.2.2))
    else (r.1, derivs)

end RSR_Coordinate

namespace RSR_Torus

/-- `RSR_Torus::evaluate`. `score_func_ f` is the score and the derivative that the score
function gives for the feature `f`; `x`, `y`, `z` is the position of the particle and
`derivs` its derivative accumulators. The result is the score returned and the
accumulators after the call. -/
def evaluate (sqrt : ℚ → ℚ) (score_func_ : ℚ → ℚ × ℚ) (main_radius_ tube_radius_ : ℚ)
    (x y z : ℚ) (derivs : ℚ × ℚ × ℚ) (calc_deriv : Bool) : Option (ℚ × (ℚ × ℚ × ℚ)) :=
  let xy_distance_from_center := sqrt (x * x + y * y)
  let guarded : ℚ × ℚ :=
    if xy_distance_from_center = 0 then (1 / 1000, 1 / 1000)
    else (xy_distance_from_center, x)
  let xy_distance_from_center := guarded.1
  let x := guarded.2
  (fdiv (x * main_radius_) xy_distance_from_center).bind fun tube_center_x =>
  (fdiv (y * main_radius_) xy_distance_from_center).bind fun tube_center_y =>
  let x := x - tube_center_x
  let y := y - tube_center_y
  let distance_from_tube_center := sqrt (x * x + y * y + z * z)
  let torus_feature := distance_from_tube_center - tube_radius_
  let sd : ℚ × ℚ := if torus_feature ≤ 0 then (0, 0) else score_func_ torus_feature
  let score := sd.1
  let deriv := sd.2
  if calc_deriv then
    (fdiv (deriv * x) distance_from_tube_center).bind fun dx =>
    (fdiv (deriv * y) distance_from_tube_center).bind fun dy =>
    (fdiv (deriv * z) distance_from_tube_center).bind fun dz =>
    some (score, (derivs.1 + dx, derivs.2.1 + dy, derivs.2.2 + dz))
  else some (score, derivs)

end RSR_Torus

/-! ### `Representation` (`modules/atom/src/Representation.cpp`) -/

namespace Representation

/-- The enumeration `RepresentationType` (declared in `Representation.h`, which is not
part of the sources at hand), with the two values that `get_representation` accepts. -/
inductive RepresentationType where
  | BALLS
  | DENSITIES
deriving DecidableEq, Repr

/-- A `double` that a division gives: an exact rational, or what IEEE arithmetic gives
for a zero divisor, infinity for a dividend greater than zero and not-a-number for
`0 / 0`. -/
inductive Double where
  | num (q : ℚ)
  | inf
  | nan
deriving DecidableEq

/-- Comparison `a < b` of two such doubles; a comparison with not-a-number is false. -/
def Double.lt : Double → Double → Bool
  | .num p, .num q => decide (p < q)
  | .num _, .inf => true
  | _, _ => false

/-- `get_resolution_distance(a, b)`: after the swap `b` is the smaller of the two, and the
result is `a / b - 1`. Resolutions are not negative, so a dividend other than zero over
the divisor zero is greater than zero. -/
def get_resolution_distance (a b : ℚ) : Double :=
  let ab : ℚ × ℚ := if a < b then (b, a) else (a, b)
  let a := ab.1
  let b := ab.2
  if b = 0 then (if a = 0 then .nan else .inf) else .num (a / b - 1)

/-- What `get_representation` returns: the decorated particle itself (`*this`), the null
hierarchy (`Hierarchy()`), or the entry `closest_index` of the attribute
`representations`. -/
inductive Result where
  | self
  | null
  | representation (closest_index : Nat)
deriving DecidableEq, Repr

/-- One turn of the loop over `types`: `i` is the index, `t` the type `types[i]` and
`cur` the resolution stored under `get_resolution_key(i)`; the loop variables are
`closest_index` and `closest_resolution`. -/
def scan_step (resolution : ℚ) (type : RepresentationType) (c : Int × ℚ)
    (e : Nat × RepresentationType × ℚ) : Int × ℚ :=
  let closest_index := c.1
  let closest_resolution := c.2
  if e.2.1 = type then
    let cur_resolution := e.2.2
    if closest_index = -1 ∨
        (get_resolution_distance resolution cur_resolution).lt
          (get_resolution_distance resolution closest_resolution) = true then
      ((e.1 : Int), cur_resolution)
    else (closest_index, closest_resolution)
  else (closest_index, closest_resolution)

/-- `Representation::get_representation(resolution, type)`. `base_resolution` is the
attribute under `get_base_resolution_key()`. `added` is `none` when the particle has no
attribute `representation_types`; else it lists, for every representation added, its type
and its resolution, in the order of the attribute. -/
def get_representation (base_resolution : ℚ)
    (added : Option (List (RepresentationType × ℚ)))
    (resolution : ℚ) (type : RepresentationType) : Result :=
  let c : Int × ℚ :=
    if type = .BALLS ∧ resolution = 0 ∧ base_resolution = 0 then (-1, base_resolution)
    else
      match added with
      | some l => l.enum.foldl (scan_step resolution type) (-1, base_resolution)
      | none => (-1, base_resolution)
  let closest_index := c.1
  if closest_index = -1 then
    if type = .BALLS then .self else .null
  else .representation closest_index.toNat

end Representation

/-! ### `loopy_filter_edge` (`modules/domino2/src/internal/loopy_inference.cpp`) -/

namespace domino2

/-- The loop over `ed.filters` for the merged state `ss`: `filter_ok` is true until a
filter does not accept `ss`, and then the loop is left. A filter is the function
`get_is_ok` of a `SubsetFilter`. -/
def filter_ok {U : Type} : List (U → Bool) → U → Bool
  | [], _ => true
  | f :: rest, ss => if f ss then filter_ok rest ss else false

/-- The loop over the states of `nd1` for the state `s0` of `nd0`: the value of `ok` after
it. `are_equal s0 s1` is `get_are_equal(s0, ii0, s1, ii1)` and `merged s0 s1` is
`get_merged_subset_state(ed.union_subset, s0, ui0, s1, ui1)`; the two functions are
declared in `inference_utility.h`, which is not part of the sources at hand. -/
def supported {S U : Type} (are_equal : S → S → Bool) (merged : S → S → U)
    (filters : List (U → Bool)) (s0 : S) : List S → Bool
  | [] => false
  | s1 :: rest =>
    if are_equal s0 s1 then
      if filter_ok filters (merged s0 s1) then true
      else supported are_equal merged filters s0 rest
    else supported are_equal merged filters s0 rest

/-- The first loop of `loopy_filter_edge`: the vector `to_erase` after it. -/
def find_to_erase {S U : Type} (are_equal : S → S → Bool) (merged : S → S → U)
    (filters : List (U → Bool)) (nd0 nd1 : List S) : List Nat :=
  nd0.enum.foldl
    (fun to_erase e =>
      if supported are_equal merged filters e.2 nd1 then to_erase else to_erase ++ [e.1])
    []

/-- The second loop of `loopy_filter_edge`: the states at the positions of `to_erase`
are erased one by one, from the last position of `to_erase` to the first. -/
def erase_all {S : Type} (subset_states : List S) (to_erase : List Nat) : List S :=
  to_erase.reverse.foldl (fun l i => l.eraseIdx i) subset_states

/-- The two node data after a call of `loopy_filter_edge`, each one its vector
`subset_states`, and the value returned. -/
structure Filtered (S : Type) where
  nd0 : List S
  nd1 : List S
  changed : Bool

/-- `loopy_filter_edge(s0, s1, nd0, nd1, ed)`. The subsets `s0` and `s1` and the subsets of
`ed` are used for the index vectors only, which are part of `are_equal` and `merged`;
`filters` is `ed.filters`. -/
def loopy_filter_edge {S U : Type} (are_equal : S → S → Bool) (merged : S → S → U)
    (filters : List (U → Bool)) (nd0 nd1 : List S) : Filtered S :=
  let to_erase := find_to_erase are_equal merged filters nd0 nd1
  { nd0 := erase_all nd0 to_erase
    nd1 := nd1
    changed := !to_erase.isEmpty }

end domino2

/-! ### `DerivativesFromRefined` (`modules/core/src/DerivativesFromRefined.cpp`) -/

namespace DerivativesFromRefined

/-- Modelled from the spec: the float attributes of the particles (`Particle` is declared
in `Particle.h`, which is not part of the sources at hand). Every float attribute has a
value and, next to it, a derivative, "a per-particle derivative sum". `P` names the
particles and `K` the float keys. -/
structure State (P K : Type) where
  value : P → K → ℚ
  derivative : P → K → ℚ

/-- Member `Particle::get_derivative(k)` of the particle `p`. -/
def get_derivative {P K : Type} (st : State P K) (p : P) (k : K) : ℚ :=
  st.derivative p k

/-- Modelled from the spec: member `Particle::add_to_derivative(k, v, da)` of the particle
`p` adds to the derivative of `k` what the accumulator `da` makes of `v`. The accumulator
(`DerivativeAccumulator`, not part of the sources at hand) is the function that scales a
value. -/
def add_to_derivative {P K : Type} [DecidableEq P] [DecidableEq K] (st : State P K)
    (p : P) (k : K) (v : ℚ) (da : ℚ → ℚ) : State P K :=
  { st with
    derivative := fun q k' =>
      if q = p ∧ k' = k then st.derivative q k' + da v else st.derivative q k' }

/-- `DerivativesFromRefined::apply(p, da)`: `get_refined` is the member of the refiner
`r_` and `ks_` the keys given to the constructor. -/
def apply {P K : Type} [DecidableEq P] [DecidableEq K] (get_refined : P → List P)
    (ks_ : List K) (st : State P K) (p : P) (da : ℚ → ℚ) : State P K :=
  let ps := get_refined p
  ps.foldl
    (fun st psi =>
      ks_.foldl
        (fun st ksj =>
          let f := get_derivative st psi ksj
          add_to_derivative st p ksj f da)
        st)
    st

/-- Particles and keys named by numbers: every value is 0 and the derivative of the
particle `q` for the key `k` is `q + k`. -/
def sample_state : State Nat Nat :=
  { value := fun _ _ => 0, derivative := fun q k => (q : ℚ) + k }

end DerivativesFromRefined

/-! ### `RestraintData` (`modules/domino/include/internal/restraint_evaluator.h`) -/

namespace RestraintData

/-- An `Assignment` (declared in `Assignment.h`, which is not part of the sources at
hand): the vector of the state indexes of the particles of a subset. -/
abbrev Assignment := List Int

/-- The members of a `RestraintData` that `set_score` and `get_score` use. The map
`scores_` is the list of its entries; a `double` is an exact rational. -/
structure State where
  scores_ : List (Assignment × ℚ)
  max_ : ℚ
  cache_ : Bool
  filter_attempts_ : Int
  filter_passes_ : Int

/-- Lookup `scores_.find(ss)`; `none` is `end()`. -/
def find (scores_ : List (Assignment × ℚ)) (ss : Assignment) : Option ℚ :=
  (scores_.find? fun e => e.1 == ss).map fun e => e.2

/-- Assignment `scores_[ss] = s`. -/
def assign (scores_ : List (Assignment × ℚ)) (ss : Assignment) (s : ℚ) :
    List (Assignment × ℚ) :=
  (ss, s) :: scores_.filter fun e => e.1 != ss

/-- What the two members are given from outside. `internal_checks` tells whether the block
under `IMP_IF_CHECK(USAGE_AND_INTERNAL)` is run; `numeric_max` is
`std::numeric_limits<double>::max()`; `evaluate ps state` is the score that the model
gives for the restraint, `evaluate_if_good`, once the particles `ps` are in the states
`state`. `P` names the particles. -/
structure Env (P : Type) where
  internal_checks : Bool
  numeric_max : ℚ
  evaluate : List P → Assignment → ℚ

/-- `RestraintData::set_score(ss, s)`. -/
def set_score (rd : State) (ss : Assignment) (s : ℚ) : Except Exception State :=
  match find rd.scores_ ss with
  | none => .ok { rd with scores_ := assign rd.scores_ ss s }
  | some _ => .error .UsageException

/-- `RestraintData::set_max(max)`. -/
def set_max (rd : State) (max : ℚ) : State :=
  { rd with max_ := max }

/-- `RestraintData::set_use_caching(tf)`. -/
def set_use_caching (rd : State) (tf : Bool) : State :=
  { rd with cache_ := tf, scores_ := if tf then rd.scores_ else [] }

/-- `RestraintData::compute_score<Filter>(pst, ps, state)`; the usage check is that of
`load_particle_states`. -/
def compute_score {P : Type} (env : Env P) (Filter : Bool) (rd : State) (ps : List P)
    (state : Assignment) : Except Exception ℚ :=
  if ps.length = state.length then
    let score := env.evaluate ps state
    if Filter then
      if score > rd.max_ then .ok env.numeric_max else .ok score
    else .ok score
  else .error .UsageException

/-- `RestraintData::get_score<Filter>(pst, ps, state)`: the score returned and the members
after the call, of which `scores_` and the two counters are `mutable`. -/
def get_score {P : Type} (env : Env P) (Filter : Bool) (rd : State) (ps : List P)
    (state : Assignment) : Except Exception (ℚ × State) :=
  match (if rd.cache_ then find rd.scores_ state else none) with
  | some score =>
    if env.internal_checks then
      match compute_score env Filter rd ps state with
      | .error e => .error e
      | .ok cscore =>
        if ¬ ((score ≥ rd.max_ ∧ cscore ≥ rd.max_) ∨ (score < rd.max_ ∧ cscore < rd.max_) ∨
            score - cscore < 1 / 100) then
          .error .InternalException
        else if score < rd.max_ ∧ ¬ (score - cscore < 1 / 10 * (score + cscore) + 1 / 10) then
          .error .InternalException
        else .ok (score, rd)
    else .ok (score, rd)
  | none =>
    match compute_score env Filter rd ps state with
    | .error e => .error e
    | .ok score =>
      let rd :=
        if Filter then
          { rd with
            filter_attempts_ := rd.filter_attempts_ + 1
            filter_passes_ :=
              if score > rd.max_ then rd.filter_passes_ else rd.filter_passes_ + 1 }
        else rd
      let rd := if rd.cache_ then { rd with scores_ := assign rd.scores_ state score } else rd
      .ok (score, rd)

/-- A call of a member of `RestraintData`. -/
inductive Call (P : Type) where
  | set_score (ss : Assignment) (s : ℚ)
  | set_max (max : ℚ)
  | get_score (Filter : Bool) (ps : List P) (state : Assignment)
  | set_use_caching (tf : Bool)

/-- The members after a call; a call that throws leaves them as they were. -/
def after {P : Type} (env : Env P) (rd : State) : Call P → State
  | .set_score ss s =>
    match set_score rd ss s with
    | .ok rd1 => rd1
    | .error _ => rd
  | .set_max max => set_max rd max
  | .get_score Filter ps state =>
    match get_score env Filter rd ps state with
    | .ok r => r.2
    | .error _ => rd
  | .set_use_caching tf => set_use_caching rd tf

/-- The members made by the constructor `RestraintData(r)`. -/
def new (numeric_max : ℚ) : State :=
  { scores_ := [], max_ := numeric_max, cache_ := true, filter_attempts_ := 0,
    filter_passes_ := 0 }

/-- An environment in which every restraint score is 0, with one unnamed particle. -/
def sample_env (internal_checks : Bool) : Env Unit :=
  { internal_checks := internal_checks, numeric_max := 1000, evaluate := fun _ _ => 0 }

end RestraintData

/-! ### The constructors with a 32-bit `int`

The definitions above take an `int` for an unbounded integer. The three definitions below
follow the arithmetic of the counts of `set_up` on a machine whose `int` has 32 bits. -/

/-- The value that a machine whose `int` has 32 bits gives to an `int` expression with
the exact value `x`: `x` wrapped into the range from `-2^31` to `2^31 - 1`. -/
def int32 (x : Int) : Int :=
  (x + 2147483648) % 4294967296 - 2147483648

/-- The constructors `RSR_Pair_Connectivity::RSR_Pair_Connectivity` with
`num_particles1_ * num_particles2_` computed in 32 bits. The outer `none` is what is not
followed: vectors whose sizes are not an `int`, and a negative count, for which `resize`
is asked for more entries than can be allocated. -/
def RSR_Pair_Connectivity.new32 (n1 n2 : Nat) (num_to_apply : Int) (particle_reuse : Bool) :
    Option (Except Failure RSR_Pair_Connectivity.State) :=
  if n1 + n2 < 2147483648 then
    let st := RSR_Pair_Connectivity.set_up n1 n2 num_to_apply particle_reuse
    let num_restraints_ := int32 (st.num_particles1_ * st.num_particles2_)
    if 0 ≤ num_restraints_ then
      some ((RSR_Pair_Connectivity.fill
          (cross_pairs st.num_particles1_.toNat st.num_particles2_.toNat)
          (List.replicate num_restraints_.toNat RSR_Pair_Connectivity.Restraint_Score.empty)).map
        fun l => { st with num_restraints_ := num_restraints_, rsr_scores_ := l })
    else none
  else none

/-- The constructors `RSR_Proximity::RSR_Proximity` with
`num_particles_ * (num_particles_ - 1) / 2` computed in 32 bits. The outer `none` is what
is not followed, as above; the inner `none` is a restraint stored outside of
`dist_rsrs_`. -/
def RSR_Proximity.new32 (n : Nat) : Option (Option RSR_Proximity.State) :=
  if n < 2147483648 then
    let st := RSR_Proximity.set_up n
    let num_restraints_ := Int.tdiv (int32 (st.num_particles_ * (st.num_particles_ - 1))) 2
    if 0 ≤ num_restraints_ then
      some (((index_pairs st.num_particles_.toNat).foldl RSR_Proximity.build_step
          (some (0, List.replicate num_restraints_.toNat none))).map
        fun b => { st with num_restraints_ := num_restraints_, dist_rsrs_ := b.2 })
    else none
  else none

/-- The loop of `RSR_Connectivity::set_up` that takes one off `num_restraints_` for each
pair of particles of the same type, with `num_restraints_--` computed in 32 bits. -/
def RSR_Connectivity.count_restraints32 (particle_type_ : List Int)
    (pairs : List (Nat × Nat)) (start : Int) : Int :=
  pairs.foldl
    (fun num_restraints_ p =>
      if particle_type_.getD p.2 0 = particle_type_.getD p.1 0 then int32 (num_restraints_ - 1)
      else num_restraints_)
    start

/-- The constructors `RSR_Connectivity::RSR_Connectivity` with `num_restraints_` computed
in 32 bits. The outer `none` is what is not followed, as above. -/
def RSR_Connectivity.new32 (types : List Int) :
    Option (Except Failure RSR_Connectivity.State) :=
  if types.length < 2147483648 then
    let st := RSR_Connectivity.set_up types
    let num_restraints_ :=
      RSR_Connectivity.count_restraints32 st.particle_type_ (index_pairs types.length)
        (Int.tdiv (int32 (st.num_particles_ * (st.num_particles_ - 1))) 2)
    if 0 ≤ num_restraints_ then
      some ((RSR_Connectivity.fill st.particle_type_ (index_pairs st.num_particles_.toNat)
          (List.replicate num_restraints_.toNat RSR_Connectivity.Restraint_Score.empty)).map
        fun l => { st with num_restraints_ := num_restraints_, rsr_scores_ := l })
    else none
  else none

end Imp

/-! ## Theorems -/

namespace Imp

namespace RSR_Connectivity

/-! ### Merging classes of a relation -/

theorem join_equivalence {R : Int → Int → Prop} (hR : Equivalence R) (a b : Int) :
    Equivalence (join R a b) := by
  refine ⟨fun x => Or.inl (hR.refl x), ?_, ?_⟩
  · intro x y h
    rcases h with h | ⟨h1, h2⟩ | ⟨h1, h2⟩
    · exact Or.inl (hR.symm h)
    · exact Or.inr (Or.inr ⟨hR.symm h2, hR.symm h1⟩)
    · exact Or.inr (Or.inl ⟨hR.symm h2, hR.symm h1⟩)
  · intro x y z h k
    rcases h with h | ⟨h1, h2⟩ | ⟨h1, h2⟩ <;> rcases k with k | ⟨k1, k2⟩ | ⟨k1, k2⟩
    · exact Or.inl (hR.trans h k)
    · exact Or.inr (Or.inl ⟨hR.trans h k1, k2⟩)
    · exact Or.inr (Or.inr ⟨hR.trans h k1, k2⟩)
    · exact Or.inr (Or.inl ⟨h1, hR.trans h2 k⟩)
    · exact Or.inl (hR.trans h1 (hR.trans (hR.symm (hR.trans h2 k1)) k2))
    · exact Or.inl (hR.trans h1 k2)
    · exact Or.inr (Or.inr ⟨h1, hR.trans h2 k⟩)
    · exact Or.inl (hR.trans h1 k2)
    · exact Or.inl (hR.trans h1 (hR.trans (hR.symm (hR.trans h2 k1)) k2))

theorem join_of_rel {R : Int → Int → Prop} {a b x y : Int} (h : R x y) : join R a b x y :=
  Or.inl h

theorem join_ends {R : Int → Int → Prop} (hR : Equivalence R) (a b : Int) : join R a b a b :=
  Or.inr (Or.inl ⟨hR.refl a, hR.refl b⟩)

/-- `join R a b` is below every equivalence that contains `R` and relates `a` to `b`. -/
theorem join_least {R Q : Int → Int → Prop} (hQ : Equivalence Q) {a b : Int}
    (hRQ : ∀ x y, R x y → Q x y) (hab : Q a b) : ∀ x y, join R a b x y → Q x y := by
  intro x y h
  rcases h with h | ⟨h1, h2⟩ | ⟨h1, h2⟩
  · exact hRQ x y h
  · exact hQ.trans (hRQ _ _ h1) (hQ.trans hab (hRQ _ _ h2))
  · exact hQ.trans (hRQ _ _ h1) (hQ.trans (hQ.symm hab) (hRQ _ _ h2))

theorem join_mono {R Q : Int → Int → Prop} (h : ∀ x y, R x y → Q x y) (a b : Int) :
    ∀ x y, join R a b x y → join Q a b x y := by
  intro x y hj
  rcases hj with h1 | ⟨h1, h2⟩ | ⟨h1, h2⟩
  · exact Or.inl (h _ _ h1)
  · exact Or.inr (Or.inl ⟨h _ _ h1, h _ _ h2⟩)
  · exact Or.inr (Or.inr ⟨h _ _ h1, h _ _ h2⟩)

theorem join_comm {R : Int → Int → Prop} (hR : Equivalence R) (a b c d : Int) :
    join (join R a b) c d = join (join R c d) a b := by
  have key : ∀ (a b c d : Int) x y, join (join R a b) c d x y → join (join R c d) a b x y := by
    intro a b c d
    have hQ : Equivalence (join (join R c d) a b) :=
      join_equivalence (join_equivalence hR c d) a b
    apply join_least hQ
    · apply join_least (join_equivalence (join_equivalence hR c d) a b)
      · intro x y h; exact Or.inl (Or.inl h)
      · exact join_ends (join_equivalence hR c d) a b
    · exact Or.inl (join_ends hR c d)
  funext x y
  exact propext ⟨key a b c d x y, key c d a b x y⟩

theorem join_all_equivalence (S : List Restraint_Score) :
    ∀ {R : Int → Int → Prop}, Equivalence R → Equivalence (join_all R S) := by
  induction S with
  | nil => intro R hR; exact hR
  | cons e S ih => intro R hR; exact ih (join_equivalence hR _ _)

theorem join_all_append (S1 S2 : List Restraint_Score) :
    ∀ R : Int → Int → Prop, join_all R (S1 ++ S2) = join_all (join_all R S1) S2 := by
  induction S1 with
  | nil => intro R; rfl
  | cons e S ih => intro R; exact ih _

theorem join_all_of_rel (S : List Restraint_Score) :
    ∀ {R : Int → Int → Prop} {x y : Int}, R x y → join_all R S x y := by
  induction S with
  | nil => intro R x y h; exact h
  | cons e S ih => intro R x y h; exact ih (Or.inl h)

theorem join_all_mono (S : List Restraint_Score) :
    ∀ {R Q : Int → Int → Prop}, (∀ x y, R x y → Q x y) →
      ∀ x y, join_all R S x y → join_all Q S x y := by
  induction S with
  | nil => intro R Q h; exact h
  | cons e S ih => intro R Q h; exact ih (join_mono h _ _)

/-- The relation built by `join_all` is the equivalence generated by `R` and the edges. -/
theorem join_all_iff_eqvGen (S : List Restraint_Score) :
    ∀ {R : Int → Int → Prop}, Equivalence R → ∀ x y,
      (join_all R S x y ↔
        Relation.EqvGen (fun u v => R u v ∨ ∃ e ∈ S, e.part1_type_ = u ∧ e.part2_type_ = v)
          x y) := by
  induction S with
  | nil =>
    intro R hR x y
    constructor
    · intro h; exact Relation.EqvGen.rel _ _ (Or.inl h)
    · intro h
      induction h with
      | rel u v h => rcases h with h | ⟨e, he, _⟩
                     · exact h
                     · cases he
      | refl u => exact hR.refl u
      | symm u v _ ih => exact hR.symm ih
      | trans u v w _ _ ih1 ih2 => exact hR.trans ih1 ih2
  | cons e S ih =>
    intro R hR x y
    have hJ := join_equivalence hR e.part1_type_ e.part2_type_
    show join_all (join R e.part1_type_ e.part2_type_) S x y ↔ _
    rw [ih hJ]
    constructor
    · intro h
      induction h with
      | rel u v h =>
        rcases h with h | ⟨f, hf, h1, h2⟩
        · have hE := Relation.EqvGen.is_equivalence
            (fun u v => R u v ∨ ∃ f ∈ e :: S, f.part1_type_ = u ∧ f.part2_type_ = v)
          refine join_least hE ?_ ?_ u v h
          · intro p q hpq; exact Relation.EqvGen.rel _ _ (Or.inl hpq)
          · exact Relation.EqvGen.rel _ _ (Or.inr ⟨e, List.mem_cons_self _ _, rfl, rfl⟩)
        · exact Relation.EqvGen.rel _ _ (Or.inr ⟨f, List.mem_cons_of_mem _ hf, h1, h2⟩)
      | refl u => exact Relation.EqvGen.refl u
      | symm u v _ ih => exact Relation.EqvGen.symm _ _ ih
      | trans u v w _ _ ih1 ih2 => exact Relation.EqvGen.trans _ _ _ ih1 ih2
    · intro h
      induction h with
      | rel u v h =>
        rcases h with h | ⟨f, hf, h1, h2⟩
        · exact Relation.EqvGen.rel _ _ (Or.inl (Or.inl h))
        · rcases List.mem_cons.1 hf with rfl | hf
          · subst h1 h2
            exact Relation.EqvGen.rel _ _ (Or.inl (join_ends hR _ _))
          · exact Relation.EqvGen.rel _ _ (Or.inr ⟨f, hf, h1, h2⟩)
      | refl u => exact Relation.EqvGen.refl u
      | symm u v _ ih => exact Relation.EqvGen.symm _ _ ih
      | trans u v w _ _ ih1 ih2 => exact Relation.EqvGen.trans _ _ _ ih1 ih2

theorem join_eq_of_join {R : Int → Int → Prop} (hR : Equivalence R) {a b c d : Int}
    (hab : ¬ R a b) (h : join R c d a b) : join R a b = join R c d := by
  have hcd : join R a b c d := by
    rcases h with h | ⟨h1, h2⟩ | ⟨h1, h2⟩
    · exact absurd h hab
    · exact Or.inr (Or.inl ⟨hR.symm h1, hR.symm h2⟩)
    · exact Or.inr (Or.inr ⟨h2, h1⟩)
  funext x y
  exact propext
    ⟨join_least (join_equivalence hR c d) (fun _ _ => Or.inl) h x y,
     join_least (join_equivalence hR a b) (fun _ _ => Or.inl) hcd x y⟩

theorem not_join_swap {R : Int → Int → Prop} (hR : Equivalence R) {a b c d : Int}
    (hcd : ¬ R c d) (h : ¬ join R c d a b) : ¬ join R a b c d := by
  intro k
  apply h
  rcases k with k | ⟨k1, k2⟩ | ⟨k1, k2⟩
  · exact absurd k hcd
  · exact Or.inr (Or.inl ⟨hR.symm k1, hR.symm k2⟩)
  · exact Or.inr (Or.inr ⟨k2, k1⟩)

/-- Exchange step: a forest that connects `a` and `b` has an edge whose removal leaves a
forest over the relation with `a` and `b` joined, connecting the same nodes. -/
theorem exchange (a b : Int) (S : List Restraint_Score) :
    ∀ {R : Int → Int → Prop}, Equivalence R → ¬ R a b → SeqForest R S → join_all R S a b →
      ∃ S1 f S2, S = S1 ++ f :: S2 ∧ SeqForest (join R a b) (S1 ++ S2) ∧
        join_all (join R a b) (S1 ++ S2) = join_all R S := by
  induction S with
  | nil => intro R _ hab _ h; exact absurd h hab
  | cons f S ih =>
    intro R hR hab hF hc
    obtain ⟨hf, hS⟩ := hF
    by_cases h1 : join R f.part1_type_ f.part2_type_ a b
    · refine ⟨[], f, S, rfl, ?_, ?_⟩
      · rw [join_eq_of_join hR hab h1]; exact hS
      · show join_all (join R a b) S = join_all (join R f.part1_type_ f.part2_type_) S
        rw [join_eq_of_join hR hab h1]
    · obtain ⟨S1, g, S2, hS12, hF2, hJ⟩ :=
        ih (join_equivalence hR f.part1_type_ f.part2_type_) h1 hS hc
      refine ⟨f :: S1, g, S2, by rw [hS12]; rfl, ?_, ?_⟩
      · refine ⟨not_join_swap hR hf h1, ?_⟩
        rw [join_comm hR]; exact hF2
      · show join_all (join (join R a b) f.part1_type_ f.part2_type_) (S1 ++ S2) = _
        rw [join_comm hR]; exact hJ

theorem weight_cons (e : Restraint_Score) (S : List Restraint_Score) :
    weight (e :: S) = e.score_ + weight S := by
  simp [weight]

theorem weight_append (S1 S2 : List Restraint_Score) :
    weight (S1 ++ S2) = weight S1 + weight S2 := by
  simp [weight]

theorem weight_perm {S1 S2 : List Restraint_Score} (h : S1.Perm S2) : weight S1 = weight S2 :=
  (h.map _).sum_eq

/-- The greedy choice over an ascending list weighs no more than any forest drawn from the
list that connects whatever the list connects. -/
theorem greedy_weight_le (L : List Restraint_Score) :
    ∀ {R : Int → Int → Prop} {K S : List Restraint_Score}, Equivalence R →
      L.Sorted (fun a b => a.score_ ≤ b.score_) → Greedy R L K → S.Sublist L → SeqForest R S →
      (∀ e ∈ L, join_all R S e.part1_type_ e.part2_type_) → weight K ≤ weight S := by
  induction L with
  | nil =>
    intro R K S _ _ hG hsub _ _
    cases hG
    cases hsub
    exact le_refl _
  | cons e L ih =>
    intro R K S hR hsort hG hsub hF hspan
    have hsortL : L.Sorted (fun a b => a.score_ ≤ b.score_) := (List.sorted_cons.1 hsort).2
    have hmin : ∀ f ∈ L, e.score_ ≤ f.score_ := (List.sorted_cons.1 hsort).1
    have hspanL : ∀ f ∈ L, join_all R S f.part1_type_ f.part2_type_ :=
      fun f hf => hspan f (List.mem_cons_of_mem _ hf)
    cases hG with
    | skip he hG =>
      cases hsub with
      | cons _ hsub => exact ih hR hsortL hG hsub hF hspanL
      | cons₂ _ hsub => exact absurd he hF.1
    | take he hG =>
      rename_i K
      have hR1 := join_equivalence hR e.part1_type_ e.part2_type_
      cases hsub with
      | cons₂ _ hsub =>
        rename_i S
        rw [weight_cons, weight_cons]
        have := ih hR1 hsortL hG hsub hF.2 hspanL
        omega
      | cons _ hsub =>
        obtain ⟨S1, f, S2, hS, hF2, hJ⟩ :=
          exchange e.part1_type_ e.part2_type_ S hR he hF (hspan e (List.mem_cons_self _ _))
        have hsub2 : (S1 ++ S2).Sublist L := by
          refine List.Sublist.trans ?_ hsub
          rw [hS]
          exact List.Sublist.append_left (List.sublist_cons_self f S2) S1
        have hfL : f ∈ L := by
          apply hsub.subset
          rw [hS]
          simp
        have hspan2 : ∀ g ∈ L, join_all (join R e.part1_type_ e.part2_type_) (S1 ++ S2)
            g.part1_type_ g.part2_type_ := by
          intro g hg
          rw [hJ]
          exact hspanL g hg
        have h1 := ih hR1 hsortL hG hsub2 hF2 hspan2
        have h2 := hmin f hfL
        have h3 : weight S = f.score_ + weight (S1 ++ S2) := by
          rw [hS, weight_append, weight_append, weight_cons]
          omega
        rw [weight_cons, h3]
        omega

theorem connected_mono {S S1 : List Restraint_Score} (h : ∀ e ∈ S, e ∈ S1) {x y : Int}
    (hc : Connected S x y) : Connected S1 x y := by
  induction hc with
  | rel u v h1 =>
    obtain ⟨e, he, h2⟩ := h1
    exact Relation.EqvGen.rel _ _ ⟨e, h e he, h2⟩
  | refl u => exact Relation.EqvGen.refl u
  | symm u v _ ih => exact Relation.EqvGen.symm _ _ ih
  | trans u v w _ _ ih1 ih2 => exact Relation.EqvGen.trans _ _ _ ih1 ih2

theorem connected_iff_join_all (S : List Restraint_Score) (x y : Int) :
    Connected S x y ↔ join_all (fun u v => u = v) S x y := by
  rw [join_all_iff_eqvGen S ⟨fun _ => rfl, fun h => h.symm, fun h k => h.trans k⟩]
  constructor
  · intro h
    induction h with
    | rel u v h1 => exact Relation.EqvGen.rel _ _ (Or.inr h1)
    | refl u => exact Relation.EqvGen.refl u
    | symm u v _ ih => exact Relation.EqvGen.symm _ _ ih
    | trans u v w _ _ ih1 ih2 => exact Relation.EqvGen.trans _ _ _ ih1 ih2
  · intro h
    induction h with
    | rel u v h1 =>
      rcases h1 with h1 | h1
      · subst h1; exact Relation.EqvGen.refl u
      · exact Relation.EqvGen.rel _ _ h1
    | refl u => exact Relation.EqvGen.refl u
    | symm u v _ ih => exact Relation.EqvGen.symm _ _ ih
    | trans u v w _ _ ih1 ih2 => exact Relation.EqvGen.trans _ _ _ ih1 ih2

theorem eq_equiv : Equivalence fun u v : Int => u = v :=
  ⟨fun _ => rfl, fun h => h.symm, fun h k => h.trans k⟩

theorem greedy_sublist {R : Int → Int → Prop} {L K : List Restraint_Score}
    (h : Greedy R L K) : K.Sublist L := by
  induction h with
  | done R => exact List.Sublist.slnil
  | take _ _ ih => exact List.Sublist.cons₂ _ ih
  | skip _ _ ih => exact List.Sublist.cons _ ih

theorem greedy_forest {R : Int → Int → Prop} {L K : List Restraint_Score}
    (h : Greedy R L K) : SeqForest R K := by
  induction h with
  | done R => exact True.intro
  | take he _ ih => exact ⟨he, ih⟩
  | skip _ _ ih => exact ih

theorem greedy_connects {R : Int → Int → Prop} {L K : List Restraint_Score}
    (h : Greedy R L K) : Equivalence R → ∀ e ∈ L, join_all R K e.part1_type_ e.part2_type_ := by
  induction h with
  | done R => intro _ e he; cases he
  | take _ _ ih =>
    intro hR f hf
    rcases List.mem_cons.1 hf with rfl | hf
    · exact join_all_of_rel (R := join _ f.part1_type_ f.part2_type_) _ (join_ends hR _ _)
    · exact ih (join_equivalence hR _ _) f hf
  | skip he _ ih =>
    intro hR f hf
    rcases List.mem_cons.1 hf with rfl | hf
    · exact join_all_of_rel _ he
    · exact ih hR f hf

theorem forest_not_connected (a b : Int) (S : List Restraint_Score) :
    ∀ {R : Int → Int → Prop}, Equivalence R → ¬ R a b → SeqForest (join R a b) S →
      ¬ join_all R S a b := by
  induction S with
  | nil => intro R _ hab _; exact hab
  | cons f S ih =>
    intro R hR hab hF
    obtain ⟨hf, hS⟩ := hF
    have hf1 : ¬ R f.part1_type_ f.part2_type_ := fun h => hf (Or.inl h)
    refine ih (join_equivalence hR _ _) (not_join_swap hR hab hf) ?_
    rw [join_comm hR]; exact hS

theorem forest_bridge (K1 : List Restraint_Score) (e : Restraint_Score)
    (K2 : List Restraint_Score) :
    ∀ {R : Int → Int → Prop}, Equivalence R → SeqForest R (K1 ++ e :: K2) →
      ¬ join_all R (K1 ++ K2) e.part1_type_ e.part2_type_ := by
  induction K1 with
  | nil => intro R hR hF; exact forest_not_connected _ _ K2 hR hF.1 hF.2
  | cons f K1 ih => intro R hR hF; exact ih (join_equivalence hR _ _) hF.2

theorem bridge_forest (S : List Restraint_Score) :
    ∀ P : List Restraint_Score,
      (∀ S1 e S2, S = S1 ++ e :: S2 →
        ¬ join_all (fun u v => u = v) (P ++ (S1 ++ S2)) e.part1_type_ e.part2_type_) →
      SeqForest (join_all (fun u v => u = v) P) S := by
  induction S with
  | nil => intro _ _; exact True.intro
  | cons e S ih =>
    intro P h
    refine ⟨?_, ?_⟩
    · intro hc
      apply h [] e S rfl
      rw [join_all_append]
      exact join_all_of_rel _ hc
    · have h2 := ih (P ++ [e]) (by
        intro S1 g S2 hS
        have := h (e :: S1) g S2 (by rw [hS]; rfl)
        simpa [List.append_assoc] using this)
      rw [join_all_append] at h2
      exact h2

theorem bridge_perm {S S1 : List Restraint_Score} (hp : S1.Perm S)
    (h : ∀ T1 e T2, S = T1 ++ e :: T2 → ¬ Connected (T1 ++ T2) e.part1_type_ e.part2_type_) :
    ∀ T1 e T2, S1 = T1 ++ e :: T2 → ¬ Connected (T1 ++ T2) e.part1_type_ e.part2_type_ := by
  intro T1 e T2 hS1 hc
  have he : e ∈ S := hp.subset (by rw [hS1]; simp)
  obtain ⟨U1, U2, hU⟩ := List.append_of_mem he
  apply h U1 e U2 hU
  have hp2 : (T1 ++ T2).Perm (U1 ++ U2) := by
    have h3 : (e :: (T1 ++ T2)).Perm (e :: (U1 ++ U2)) := by
      refine (List.perm_middle.symm.trans ?_).trans List.perm_middle
      rw [← hS1, ← hU]; exact hp
    exact h3.cons_inv
  exact connected_mono (fun g hg => hp2.subset hg) hc

/-- Kruskal: the greedy choice over the ascending list of all edges is a minimum spanning
tree as soon as it connects all the nodes. -/
theorem greedy_minimum {nodes : List Int} {edges L K : List Restraint_Score}
    (hperm : L.Perm edges) (hsort : L.Sorted (fun a b => a.score_ ≤ b.score_))
    (hG : Greedy (fun u v => u = v) L K)
    (hnodes : ∀ e ∈ edges, e.part1_type_ ∈ nodes ∧ e.part2_type_ ∈ nodes)
    (hconn : ∀ a ∈ nodes, ∀ b ∈ nodes, Connected K a b) :
    IsMinimumSpanningTree nodes edges K := by
  refine ⟨⟨?_, hconn, ?_⟩, ?_⟩
  · exact ((greedy_sublist hG).subperm).trans hperm.subperm
  · intro K1 e K2 hK hc
    rw [connected_iff_join_all] at hc
    exact forest_bridge K1 e K2 eq_equiv (hK ▸ greedy_forest hG) hc
  · intro S hS
    obtain ⟨hsub, hSconn, hbridge⟩ := hS
    obtain ⟨S1, hS1p, hS1sub⟩ := hsub.trans hperm.symm.subperm
    have hF : SeqForest (fun u v => u = v) S1 := by
      apply bridge_forest S1 []
      intro T1 e T2 hT hc
      apply bridge_perm hS1p hbridge T1 e T2 hT
      rw [connected_iff_join_all]
      simpa using hc
    have hspan : ∀ e ∈ L, join_all (fun u v => u = v) S1 e.part1_type_ e.part2_type_ := by
      intro e he
      rw [← connected_iff_join_all]
      have hn := hnodes e (hperm.subset he)
      exact connected_mono (fun g hg => hS1p.symm.subset hg) (hSconn _ hn.1 _ hn.2)
    have := greedy_weight_le L eq_equiv hsort hG hS1sub hF hspan
    rw [weight_perm hS1p] at this
    exact this

theorem classes_join {R Q : Int → Int → Prop} [DecidableRel R] [DecidableRel Q]
    (hR : Equivalence R) {a b : Int} (hab : ¬ R a b) (hQ : ∀ x y, Q x y ↔ join R a b x y)
    (V : List Int) :
    classes Q V + (if (∃ u ∈ V, R u a) ∧ (∃ u ∈ V, R u b) then 1 else 0) = classes R V := by
  induction V with
  | nil => simp [classes]
  | cons v V ih =>
    simp only [classes]
    by_cases hva : R v a
    · have hvb : ¬ R v b := fun h => hab (hR.trans (hR.symm hva) h)
      have h1 : (∃ u ∈ V, R u v) ↔ (∃ u ∈ V, R u a) :=
        ⟨fun ⟨u, hu, h⟩ => ⟨u, hu, hR.trans h hva⟩,
         fun ⟨u, hu, h⟩ => ⟨u, hu, hR.trans h (hR.symm hva)⟩⟩
      have h2 : (∃ u ∈ V, Q u v) ↔ ((∃ u ∈ V, R u a) ∨ (∃ u ∈ V, R u b)) := by
        constructor
        · rintro ⟨u, hu, h⟩
          rcases (hQ u v).1 h with h | ⟨h3, _⟩ | ⟨h3, _⟩
          · exact Or.inl ⟨u, hu, hR.trans h hva⟩
          · exact Or.inl ⟨u, hu, h3⟩
          · exact Or.inr ⟨u, hu, h3⟩
        · rintro (⟨u, hu, h⟩ | ⟨u, hu, h⟩)
          · exact ⟨u, hu, (hQ u v).2 (Or.inl (hR.trans h (hR.symm hva)))⟩
          · exact ⟨u, hu, (hQ u v).2 (Or.inr (Or.inr ⟨h, hR.symm hva⟩))⟩
      have h3 : (∃ u ∈ v :: V, R u a) ↔ True := by
        simp only [iff_true]; exact ⟨v, List.mem_cons_self _ _, hva⟩
      have h4 : (∃ u ∈ v :: V, R u b) ↔ (∃ u ∈ V, R u b) := by
        constructor
        · rintro ⟨u, hu, h⟩
          rcases List.mem_cons.1 hu with rfl | hu
          · exact absurd h hvb
          · exact ⟨u, hu, h⟩
        · rintro ⟨u, hu, h⟩; exact ⟨u, List.mem_cons_of_mem _ hu, h⟩
      simp only [h1, h2, h3, h4, true_and]
      by_cases hA : ∃ u ∈ V, R u a <;> by_cases hB : ∃ u ∈ V, R u b <;>
        simp only [hA, hB, and_self, and_true, and_false, or_self, or_true, or_false,
          if_true, if_false] at ih ⊢ <;> omega
    · by_cases hvb : R v b
      · have h1 : (∃ u ∈ V, R u v) ↔ (∃ u ∈ V, R u b) :=
          ⟨fun ⟨u, hu, h⟩ => ⟨u, hu, hR.trans h hvb⟩,
           fun ⟨u, hu, h⟩ => ⟨u, hu, hR.trans h (hR.symm hvb)⟩⟩
        have h2 : (∃ u ∈ V, Q u v) ↔ ((∃ u ∈ V, R u a) ∨ (∃ u ∈ V, R u b)) := by
          constructor
          · rintro ⟨u, hu, h⟩
            rcases (hQ u v).1 h with h | ⟨h3, _⟩ | ⟨h3, _⟩
            · exact Or.inr ⟨u, hu, hR.trans h hvb⟩
            · exact Or.inl ⟨u, hu, h3⟩
            · exact Or.inr ⟨u, hu, h3⟩
          · rintro (⟨u, hu, h⟩ | ⟨u, hu, h⟩)
            · exact ⟨u, hu, (hQ u v).2 (Or.inr (Or.inl ⟨h, hR.symm hvb⟩))⟩
            · exact ⟨u, hu, (hQ u v).2 (Or.inl (hR.trans h (hR.symm hvb)))⟩
        have h3 : (∃ u ∈ v :: V, R u b) ↔ True := by
          simp only [iff_true]; exact ⟨v, List.mem_cons_self _ _, hvb⟩
        have h4 : (∃ u ∈ v :: V, R u a) ↔ (∃ u ∈ V, R u a) := by
          constructor
          · rintro ⟨u, hu, h⟩
            rcases List.mem_cons.1 hu with rfl | hu
            · exact absurd h hva
            · exact ⟨u, hu, h⟩
          · rintro ⟨u, hu, h⟩; exact ⟨u, List.mem_cons_of_mem _ hu, h⟩
        simp only [h1, h2, h3, h4, and_true]
        by_cases hA : ∃ u ∈ V, R u a <;> by_cases hB : ∃ u ∈ V, R u b <;>
          simp only [hA, hB, and_self, and_true, and_false, or_self, or_true, or_false,
            if_true, if_false] at ih ⊢ <;> omega
      · have h2 : (∃ u ∈ V, Q u v) ↔ (∃ u ∈ V, R u v) := by
          constructor
          · rintro ⟨u, hu, h⟩
            rcases (hQ u v).1 h with h | ⟨_, h3⟩ | ⟨_, h3⟩
            · exact ⟨u, hu, h⟩
            · exact absurd (hR.symm h3) hvb
            · exact absurd (hR.symm h3) hva
          · rintro ⟨u, hu, h⟩; exact ⟨u, hu, (hQ u v).2 (Or.inl h)⟩
        have h3 : (∃ u ∈ v :: V, R u b) ↔ (∃ u ∈ V, R u b) := by
          constructor
          · rintro ⟨u, hu, h⟩
            rcases List.mem_cons.1 hu with rfl | hu
            · exact absurd h hvb
            · exact ⟨u, hu, h⟩
          · rintro ⟨u, hu, h⟩; exact ⟨u, List.mem_cons_of_mem _ hu, h⟩
        have h4 : (∃ u ∈ v :: V, R u a) ↔ (∃ u ∈ V, R u a) := by
          constructor
          · rintro ⟨u, hu, h⟩
            rcases List.mem_cons.1 hu with rfl | hu
            · exact absurd h hva
            · exact ⟨u, hu, h⟩
          · rintro ⟨u, hu, h⟩; exact ⟨u, List.mem_cons_of_mem _ hu, h⟩
        simp only [h2, h3, h4]
        omega

theorem classes_pos (R : Int → Int → Prop) [DecidableRel R] :
    ∀ V : List Int, V ≠ [] → 1 ≤ classes R V := by
  intro V
  induction V with
  | nil => intro h; exact absurd rfl h
  | cons v V ih =>
    intro _
    simp only [classes]
    by_cases hV : V = []
    · subst hV; simp
    · have := ih hV; omega

theorem classes_eq_one {R : Int → Int → Prop} [DecidableRel R] (hR : Equivalence R) :
    ∀ V : List Int, classes R V = 1 → ∀ x ∈ V, ∀ y ∈ V, R x y := by
  intro V
  induction V with
  | nil => intro _ x hx; cases hx
  | cons v V ih =>
    intro h
    simp only [classes] at h
    by_cases hV : V = []
    · subst hV
      intro x hx y hy
      simp only [List.mem_singleton] at hx hy
      subst hx hy
      exact hR.refl _
    · have hpos := classes_pos R V hV
      by_cases hex : ∃ u ∈ V, R u v
      · simp only [hex, if_true, Nat.add_zero] at h
        have hall := ih h
        obtain ⟨u, hu, huv⟩ := hex
        have hv : ∀ x ∈ V, R v x := fun x hx => hR.trans (hR.symm huv) (hall u hu x hx)
        intro x hx y hy
        rcases List.mem_cons.1 hx with hx1 | hx1 <;> rcases List.mem_cons.1 hy with hy1 | hy1
        · rw [hx1, hy1]; exact hR.refl _
        · rw [hx1]; exact hv y hy1
        · rw [hy1]; exact hR.symm (hv x hx1)
        · exact hall x hx1 y hy1
      · simp only [hex, if_false] at h
        omega

theorem classes_of_related {R : Int → Int → Prop} [DecidableRel R] :
    ∀ V : List Int, V ≠ [] → (∀ x ∈ V, ∀ y ∈ V, R x y) → classes R V = 1 := by
  intro V
  induction V with
  | nil => intro h; exact absurd rfl h
  | cons v V ih =>
    intro _ hall
    simp only [classes]
    by_cases hV : V = []
    · subst hV; simp [classes]
    · have h1 := ih hV (fun x hx y hy =>
        hall x (List.mem_cons_of_mem _ hx) y (List.mem_cons_of_mem _ hy))
      obtain ⟨u, hu⟩ := List.exists_mem_of_ne_nil V hV
      have hex : ∃ u ∈ V, R u v :=
        ⟨u, hu, hall u (List.mem_cons_of_mem _ hu) v (List.mem_cons_self _ _)⟩
      simp only [hex, if_true]
      omega

theorem classes_eq (V : List Int) : classes (fun u v : Int => u = v) V = V.dedup.length := by
  induction V with
  | nil => rfl
  | cons v V ih =>
    simp only [classes]
    by_cases hv : v ∈ V
    · rw [List.dedup_cons_of_mem hv, ih]
      have : ∃ u ∈ V, u = v := ⟨v, hv, rfl⟩
      simp [this]
    · rw [List.dedup_cons_of_not_mem hv, ih]
      have : ¬ ∃ u ∈ V, u = v := by
        rintro ⟨u, hu, rfl⟩; exact hv hu
      simp [this]

/-! ### Labels -/

theorem same_join_fresh {lab lab1 : Int → Int} {a b m : Int} (ha : lab a = 0)
    (hb : lab b = 0) (hm : ∀ x, lab x ≤ m) (hm0 : 0 ≤ m)
    (hlab : ∀ x, lab1 x = if x = b then m + 1 else if x = a then m + 1 else lab x) :
    ∀ x y, (x = y ∨ (lab1 x ≠ 0 ∧ lab1 x = lab1 y)) ↔
      join (fun u v => u = v ∨ (lab u ≠ 0 ∧ lab u = lab v)) a b x y := by
  intro x y
  have hx := hm x
  have hy := hm y
  have e1 : (x = a ∨ (lab x ≠ 0 ∧ lab x = lab a)) ↔ x = a := by rw [ha]; omega
  have e2 : (x = b ∨ (lab x ≠ 0 ∧ lab x = lab b)) ↔ x = b := by rw [hb]; omega
  have e3 : (a = y ∨ (lab a ≠ 0 ∧ lab a = lab y)) ↔ a = y := by rw [ha]; omega
  have e4 : (b = y ∨ (lab b ≠ 0 ∧ lab b = lab y)) ↔ b = y := by rw [hb]; omega
  have c1 : x = a → lab x = 0 := fun h => by rw [h, ha]
  have c2 : x = b → lab x = 0 := fun h => by rw [h, hb]
  have c3 : y = a → lab y = 0 := fun h => by rw [h, ha]
  have c4 : y = b → lab y = 0 := fun h => by rw [h, hb]
  have c5 : x = y → lab x = lab y := fun h => by rw [h]
  simp only [join, hlab, e1, e2, e3, e4]
  split_ifs <;> omega

theorem same_join_extend {lab lab1 : Int → Int} {a b : Int} (ha : lab a ≠ 0)
    (hb : lab b = 0) (hlab : ∀ x, lab1 x = if x = b then lab a else lab x) :
    ∀ x y, (x = y ∨ (lab1 x ≠ 0 ∧ lab1 x = lab1 y)) ↔
      join (fun u v => u = v ∨ (lab u ≠ 0 ∧ lab u = lab v)) a b x y := by
  intro x y
  have e1 : (x = a ∨ (lab x ≠ 0 ∧ lab x = lab a)) ↔ lab x = lab a := by
    constructor
    · rintro (h | h)
      · rw [h]
      · exact h.2
    · intro h; exact Or.inr ⟨by rw [h]; exact ha, h⟩
  have e2 : (x = b ∨ (lab x ≠ 0 ∧ lab x = lab b)) ↔ x = b := by rw [hb]; omega
  have e3 : (a = y ∨ (lab a ≠ 0 ∧ lab a = lab y)) ↔ lab a = lab y := by
    constructor
    · rintro (h | h)
      · rw [h]
      · exact h.2
    · intro h; exact Or.inr ⟨ha, h⟩
  have e4 : (b = y ∨ (lab b ≠ 0 ∧ lab b = lab y)) ↔ b = y := by rw [hb]; omega
  have c2 : x = b → lab x = 0 := fun h => by rw [h, hb]
  have c4 : y = b → lab y = 0 := fun h => by rw [h, hb]
  have c5 : x = y → lab x = lab y := fun h => by rw [h]
  simp only [join, hlab, e1, e2, e3, e4]
  split_ifs <;> omega

theorem same_join_merge {lab lab1 : Int → Int} {a b : Int} (ha : lab a ≠ 0)
    (hb : lab b ≠ 0) (hab : lab a ≠ lab b)
    (hlab : ∀ x, lab1 x = if lab x = lab a then lab b else lab x) :
    ∀ x y, (x = y ∨ (lab1 x ≠ 0 ∧ lab1 x = lab1 y)) ↔
      join (fun u v => u = v ∨ (lab u ≠ 0 ∧ lab u = lab v)) a b x y := by
  intro x y
  have e1 : (x = a ∨ (lab x ≠ 0 ∧ lab x = lab a)) ↔ lab x = lab a := by
    constructor
    · rintro (h | h)
      · rw [h]
      · exact h.2
    · intro h; exact Or.inr ⟨by rw [h]; exact ha, h⟩
  have e2 : (x = b ∨ (lab x ≠ 0 ∧ lab x = lab b)) ↔ lab x = lab b := by
    constructor
    · rintro (h | h)
      · rw [h]
      · exact h.2
    · intro h; exact Or.inr ⟨by rw [h]; exact hb, h⟩
  have e3 : (a = y ∨ (lab a ≠ 0 ∧ lab a = lab y)) ↔ lab a = lab y := by
    constructor
    · rintro (h | h)
      · rw [h]
      · exact h.2
    · intro h; exact Or.inr ⟨ha, h⟩
  have e4 : (b = y ∨ (lab b ≠ 0 ∧ lab b = lab y)) ↔ lab b = lab y := by
    constructor
    · rintro (h | h)
      · rw [h]
      · exact h.2
    · intro h; exact Or.inr ⟨hb, h⟩
  have e5 : x = y → lab x = lab y := fun h => by rw [h]
  simp only [join, hlab, e1, e2, e3, e4]
  split_ifs <;> omega

theorem tree_id_at_eq_some {tree_id_ : List Int} {t : Int} (h0 : 0 ≤ t)
    (hlt : t.toNat < tree_id_.length) : tree_id_at tree_id_ t = some (label tree_id_ t) := by
  simp only [label, tree_id_at, h0, if_true, List.getElem?_eq_getElem hlt, Option.getD_some]

theorem label_set {tree_id_ : List Int} {t : Int} (h0 : 0 ≤ t)
    (hlt : t.toNat < tree_id_.length) (v x : Int) :
    label (tree_id_.set t.toNat v) x = if x = t then v else label tree_id_ x := by
  unfold label tree_id_at
  by_cases hx : 0 ≤ x
  · simp only [hx, if_true]
    by_cases hxt : x = t
    · subst hxt
      simp [List.getElem?_set, hlt]
    · have : t.toNat ≠ x.toNat := by omega
      simp [List.getElem?_set, this, hxt]
  · have hxt : x ≠ t := by omega
    simp [hx, hxt]

theorem label_map {tree_id_ : List Int} {f : Int → Int} (hf : f 0 = 0) (x : Int) :
    label (tree_id_.map f) x = f (label tree_id_ x) := by
  unfold label tree_id_at
  by_cases hx : 0 ≤ x
  · simp only [hx, if_true, List.getElem?_map]
    cases tree_id_[x.toNat]? <;> simp [hf]
  · simp [hx, hf]

theorem same_tree_equivalence {tree_id_ : List Int} {S : List Restraint_Score}
    (h : ∀ x y, same_tree tree_id_ x y ↔ join_all (fun u v => u = v) S x y) :
    Equivalence (same_tree tree_id_) := by
  have : same_tree tree_id_ = join_all (fun u v => u = v) S := by
    funext x y; exact propext (h x y)
  rw [this]
  exact join_all_equivalence S eq_equiv

theorem join_all_snoc (R : Int → Int → Prop) (S : List Restraint_Score) (e : Restraint_Score) :
    join_all R (S ++ [e]) = join (join_all R S) e.part1_type_ e.part2_type_ := by
  rw [join_all_append]; rfl

/-- The invariant after an edge between two unrelated types has been applied, given how the
labels have changed. -/
theorem treeInv_apply {M : Nat} {V : List Int} {T : Nat} {sc : Nat × Nat → Int} {s : Tree}
    {e : Restraint_Score} (hInv : TreeInv M V T s) (he : EdgeOk M V sc e)
    {tree_id_ : List Int} {max_tree_id : Int} (hlen : tree_id_.length = M)
    (hmax : s.max_tree_id ≤ max_tree_id)
    (hle : ∀ x, label tree_id_ x ≤ max_tree_id)
    (hrel : ∀ x y, same_tree tree_id_ x y ↔
      join (same_tree s.tree_id_) e.part1_type_ e.part2_type_ x y)
    (hnot : ¬ same_tree s.tree_id_ e.part1_type_ e.part2_type_) :
    ∃ s1, apply_edge sc s e tree_id_ max_tree_id = some s1 ∧ s1.applied = s.applied ++ [e] ∧
      TreeInv M V T s1 := by
  obtain ⟨_, h0, _, hsame, hcl, hnum, hscore⟩ := hInv
  obtain ⟨_, _, _, hV1, hV2, p, hp, hsc⟩ := he
  have hEq := same_tree_equivalence hsame
  have hfun : same_tree s.tree_id_ = join_all (fun u v => u = v) s.applied := by
    funext x y; exact propext (hsame x y)
  refine ⟨{ tree_id_ := tree_id_, max_tree_id := max_tree_id, num_edges := s.num_edges + 1,
            score := s.score + sc p, applied := s.applied ++ [e] },
    by simp only [apply_edge, hp], rfl, hlen, le_trans h0 hmax, hle, ?_, ?_, ?_, ?_⟩
  · intro x y
    show same_tree tree_id_ x y ↔ join_all (fun u v => u = v) (s.applied ++ [e]) x y
    rw [join_all_snoc, ← hfun]
    exact hrel x y
  · show classes (same_tree tree_id_) V + (s.applied ++ [e]).length = T
    have hc := classes_join hEq hnot hrel V
    have h1 : (∃ u ∈ V, same_tree s.tree_id_ u e.part1_type_) ∧
        (∃ u ∈ V, same_tree s.tree_id_ u e.part2_type_) :=
      ⟨⟨_, hV1, hEq.refl _⟩, ⟨_, hV2, hEq.refl _⟩⟩
    rw [if_pos h1] at hc
    rw [List.length_append, List.length_singleton]
    omega
  · show s.num_edges + 1 = ((s.applied ++ [e]).length : Int)
    rw [List.length_append, List.length_singleton]
    push_cast
    omega
  · show s.score + sc p = weight (s.applied ++ [e])
    rw [weight_append, weight_cons, hscore, hsc]
    simp [weight]

theorem tree_step_spec {M : Nat} {V : List Int} {T : Nat} {sc : Nat × Nat → Int} {s : Tree}
    {e : Restraint_Score} (hInv : TreeInv M V T s) (he : EdgeOk M V sc e) :
    (same_tree s.tree_id_ e.part1_type_ e.part2_type_ → tree_step sc s e = some s) ∧
    (¬ same_tree s.tree_id_ e.part1_type_ e.part2_type_ →
      ∃ s1, tree_step sc s e = some s1 ∧ s1.applied = s.applied ++ [e] ∧ TreeInv M V T s1) := by
  have hInv1 := hInv
  have he1 := he
  obtain ⟨hlen, h0, hle, hsame, hcl, hnum, hscore⟩ := hInv
  obtain ⟨⟨ha0, haM⟩, ⟨hb0, hbM⟩, hne, hV1, hV2, p, hp, hsc⟩ := he
  rw [← hlen] at haM hbM
  have h1 := tree_id_at_eq_some ha0 haM
  have h2 := tree_id_at_eq_some hb0 hbM
  simp only [tree_step, h1, h2]
  by_cases c1 : label s.tree_id_ e.part1_type_ = 0 ∧ label s.tree_id_ e.part2_type_ = 0
  · have hnot : ¬ same_tree s.tree_id_ e.part1_type_ e.part2_type_ := by
      unfold same_tree; omega
    refine ⟨fun h => absurd h hnot, fun _ => ?_⟩
    rw [if_pos c1]
    have hlen1 : (s.tree_id_.set e.part1_type_.toNat (s.max_tree_id + 1)).length
        = s.tree_id_.length := List.length_set _ _ _
    have hlab : ∀ x, label ((s.tree_id_.set e.part1_type_.toNat (s.max_tree_id + 1)).set
        e.part2_type_.toNat (s.max_tree_id + 1)) x =
        if x = e.part2_type_ then s.max_tree_id + 1
        else if x = e.part1_type_ then s.max_tree_id + 1 else label s.tree_id_ x := by
      intro x
      rw [label_set hb0 (by rw [hlen1]; exact hbM), label_set ha0 haM]
    refine treeInv_apply hInv1 he1 (by simp [hlen]) (by omega) ?_ ?_ hnot
    · intro x
      rw [hlab]
      have := hle x
      split_ifs <;> omega
    · intro x y
      unfold same_tree
      exact same_join_fresh c1.1 c1.2 hle h0 hlab x y
  · rw [if_neg c1]
    by_cases c2 : label s.tree_id_ e.part1_type_ = 0 ∨ label s.tree_id_ e.part2_type_ = 0
    · have hnot : ¬ same_tree s.tree_id_ e.part1_type_ e.part2_type_ := by
        unfold same_tree; omega
      refine ⟨fun h => absurd h hnot, fun _ => ?_⟩
      rw [if_pos c2]
      by_cases c3 : label s.tree_id_ e.part1_type_ ≠ 0
      · rw [if_pos c3]
        have hb : label s.tree_id_ e.part2_type_ = 0 := by omega
        have hlab := fun x => label_set hb0 hbM (label s.tree_id_ e.part1_type_) x
        refine treeInv_apply hInv1 he1 (by simp [hlen]) (le_refl _) ?_ ?_ hnot
        · intro x
          rw [hlab]
          have := hle x
          have := hle e.part1_type_
          split_ifs <;> omega
        · intro x y
          unfold same_tree
          exact same_join_extend c3 hb hlab x y
      · rw [if_neg c3]
        have ha : label s.tree_id_ e.part1_type_ = 0 := by omega
        have hb : label s.tree_id_ e.part2_type_ ≠ 0 := by omega
        have hlab := fun x => label_set ha0 haM (label s.tree_id_ e.part2_type_) x
        refine treeInv_apply hInv1 he1 (by simp [hlen]) (le_refl _) ?_ ?_ hnot
        · intro x
          rw [hlab]
          have := hle x
          have := hle e.part2_type_
          split_ifs <;> omega
        · intro x y
          have hEq := same_tree_equivalence hsame
          have h3 := same_join_extend hb ha hlab x y
          unfold same_tree
          rw [h3]
          constructor
          · intro h
            exact join_least (join_equivalence hEq _ _) (fun _ _ => Or.inl)
              ((join_equivalence hEq _ _).symm (join_ends hEq _ _)) x y h
          · intro h
            exact join_least (join_equivalence hEq _ _) (fun _ _ => Or.inl)
              ((join_equivalence hEq _ _).symm (join_ends hEq _ _)) x y h
    · rw [if_neg c2]
      by_cases c3 : label s.tree_id_ e.part1_type_ ≠ label s.tree_id_ e.part2_type_
      · have hnot : ¬ same_tree s.tree_id_ e.part1_type_ e.part2_type_ := by
          unfold same_tree; omega
        refine ⟨fun h => absurd h hnot, fun _ => ?_⟩
        rw [if_pos c3]
        have ha : label s.tree_id_ e.part1_type_ ≠ 0 := by omega
        have hb : label s.tree_id_ e.part2_type_ ≠ 0 := by omega
        have hlab : ∀ x, label (s.tree_id_.map fun t =>
            if t = label s.tree_id_ e.part1_type_ then label s.tree_id_ e.part2_type_ else t) x
            = if label s.tree_id_ x = label s.tree_id_ e.part1_type_
              then label s.tree_id_ e.part2_type_ else label s.tree_id_ x := by
          intro x
          rw [label_map]
          rw [if_neg (Ne.symm ha)]
        refine treeInv_apply hInv1 he1 (by simp [hlen]) (le_refl _) ?_ ?_ hnot
        · intro x
          rw [hlab]
          have := hle x
          have := hle e.part2_type_
          split_ifs <;> omega
        · intro x y
          unfold same_tree
          exact same_join_merge ha hb c3 hlab x y
      · have hyes : same_tree s.tree_id_ e.part1_type_ e.part2_type_ := by
          unfold same_tree; omega
        refine ⟨fun _ => ?_, fun h => absurd hyes h⟩
        rw [if_neg c3]

theorem greedy_skip_all {R : Int → Int → Prop} :
    ∀ L : List Restraint_Score, (∀ e ∈ L, R e.part1_type_ e.part2_type_) → Greedy R L [] := by
  intro L
  induction L with
  | nil => intro _; exact Greedy.done R
  | cons e L ih =>
    intro h
    exact Greedy.skip (h e (List.mem_cons_self _ _))
      (ih fun f hf => h f (List.mem_cons_of_mem _ hf))

/-- The spanning-tree loop makes the greedy choice from the entries it is given, also when
it stops before the end of the list. -/
theorem tree_loop_spec {M : Nat} {V : List Int} {T : Nat} {sc : Nat × Nat → Int} :
    ∀ (L : List Restraint_Score) (s : Tree), TreeInv M V T s → (∀ e ∈ L, EdgeOk M V sc e) →
      ∃ s1 K, tree_loop sc (T : Int) L s = some s1 ∧ s1.applied = s.applied ++ K ∧
        Greedy (join_all (fun u v => u = v) s.applied) L K ∧ TreeInv M V T s1 := by
  intro L
  induction L with
  | nil =>
    intro s hInv _
    exact ⟨s, [], rfl, by simp, Greedy.done _, hInv⟩
  | cons e L ih =>
    intro s hInv hL
    have he := hL e (List.mem_cons_self _ _)
    have hL1 : ∀ f ∈ L, EdgeOk M V sc f := fun f hf => hL f (List.mem_cons_of_mem _ hf)
    have hfun : same_tree s.tree_id_ = join_all (fun u v => u = v) s.applied := by
      funext x y; exact propext (hInv.2.2.2.1 x y)
    by_cases hgo : s.num_edges < (T : Int) - 1
    · simp only [tree_loop, hgo, if_true]
      obtain ⟨hyes, hno⟩ := tree_step_spec hInv he
      by_cases hs : same_tree s.tree_id_ e.part1_type_ e.part2_type_
      · rw [hyes hs]
        obtain ⟨s1, K, h1, h2, h3, h4⟩ := ih s hInv hL1
        exact ⟨s1, K, h1, h2, Greedy.skip (hfun ▸ hs) h3, h4⟩
      · obtain ⟨s0, h5, h6, h7⟩ := hno hs
        rw [h5]
        obtain ⟨s1, K, h1, h2, h3, h4⟩ := ih s0 h7 hL1
        refine ⟨s1, e :: K, h1, by rw [h2, h6]; simp, ?_, h4⟩
        rw [h6, join_all_snoc] at h3
        exact Greedy.take (hfun ▸ hs) h3
    · simp only [tree_loop, hgo, if_false]
      refine ⟨s, [], rfl, by simp, ?_, hInv⟩
      obtain ⟨_, _, _, hsame, hcl, hnum, _⟩ := hInv
      have hV : V ≠ [] := List.ne_nil_of_mem he.2.2.2.1
      have hpos := classes_pos (same_tree s.tree_id_) V hV
      have hone : classes (same_tree s.tree_id_) V = 1 := by omega
      have hall := classes_eq_one (same_tree_equivalence hsame) V hone
      apply greedy_skip_all
      intro f hf
      have hfok := hL f hf
      rw [← hfun]
      exact hall _ hfok.2.2.2.1 _ hfok.2.2.2.2.1

/-! ### The constructor -/

theorem mem_index_pairs (n i j : Nat) : (i, j) ∈ index_pairs n ↔ i < j ∧ j < n := by
  simp only [index_pairs, List.mem_flatMap, List.mem_range, List.mem_map, List.mem_range',
    Prod.mk.injEq]
  constructor
  · rintro ⟨a, ha, b, ⟨k, hk, rfl⟩, rfl, rfl⟩
    omega
  · rintro ⟨h1, h2⟩
    exact ⟨i, by omega, j, ⟨j - (i + 1), by omega, by omega⟩, rfl, rfl⟩

theorem sum_down (m : Nat) : ((List.range m).map fun i => m - i).sum * 2 = m * (m + 1) := by
  induction m with
  | zero => rfl
  | succ m ih =>
    rw [List.range_succ_eq_map, List.map_cons, List.sum_cons, List.map_map]
    have : ((fun i => m + 1 - i) ∘ Nat.succ) = fun i => m - i := by
      funext i; simp
    rw [this, Nat.sub_zero, Nat.add_mul, ih]
    ring

theorem length_index_pairs (n : Nat) : (index_pairs n).length * 2 = n * (n - 1) := by
  cases n with
  | zero => rfl
  | succ m =>
    have h : (List.length ∘ fun i =>
        List.map (fun j => (i, j)) (List.range' (i + 1) (m + 1 - (i + 1)))) = fun i => m - i := by
      funext i
      simp only [Function.comp, List.length_map, List.length_range']
      omega
    simp only [index_pairs, List.length_flatMap, Nat.add_sub_cancel]
    rw [h, sum_down m]
    ring

theorem scan_spec (l : List Int) :
    (l.foldl scan_step { max_type_ := 0, num_types_ := 0, particle_type_ := [] }).particle_type_
        = l ∧
      (l.foldl scan_step { max_type_ := 0, num_types_ := 0, particle_type_ := [] }).num_types_
        = (l.dedup.length : Int) ∧
      0 ≤ (l.foldl scan_step { max_type_ := 0, num_types_ := 0, particle_type_ := [] }).max_type_ ∧
      ∀ t ∈ l,
        t ≤ (l.foldl scan_step { max_type_ := 0, num_types_ := 0, particle_type_ := [] }).max_type_
    := by
  induction l using List.reverseRecOn with
  | nil => simp
  | append_singleton l t ih =>
    obtain ⟨h1, h2, h3, h4⟩ := ih
    rw [List.foldl_append, List.foldl_cons, List.foldl_nil]
    simp only [scan_step, h1, h2]
    refine ⟨trivial, ?_, ?_, ?_⟩
    · rw [← List.card_toFinset, ← List.card_toFinset]
      by_cases ht : t ∈ l
      · have : (l ++ [t]).toFinset = l.toFinset := by
          ext x; simp only [List.mem_toFinset, List.mem_append, List.mem_singleton]
          constructor
          · rintro (h | h)
            · exact h
            · rw [h]; exact ht
          · intro h; exact Or.inl h
        rw [if_pos ht, this]; omega
      · have : (l ++ [t]).toFinset = insert t l.toFinset := by
          ext x; simp only [List.mem_toFinset, List.mem_append, List.mem_singleton,
            Finset.mem_insert]
          tauto
        rw [if_neg ht, this, Finset.card_insert_of_not_mem (by simpa using ht)]
        push_cast; ring
    · split_ifs <;> omega
    · intro x hx
      rcases List.mem_append.1 hx with hx | hx
      · have := h4 x hx
        split_ifs <;> omega
      · simp only [List.mem_singleton] at hx
        subst hx
        split_ifs <;> omega

theorem count_restraints_eq (pt : List Int) (pairs : List (Nat × Nat)) :
    ∀ start : Int, count_restraints pt pairs start
      = start - ((pairs.filter fun p => pt.getD p.2 0 = pt.getD p.1 0).length : Int) := by
  induction pairs with
  | nil => intro start; simp [count_restraints]
  | cons p pairs ih =>
    intro start
    simp only [count_restraints, List.foldl_cons] at ih ⊢
    rw [ih]
    by_cases h : pt.getD p.2 0 = pt.getD p.1 0
    · simp only [h, if_true, List.filter_cons, decide_True, List.length_cons]
      push_cast; ring
    · simp only [h, if_false, List.filter_cons, decide_False]
      simp

theorem length_filter_split (pt : List Int) (pairs : List (Nat × Nat)) :
    (pairs.filter fun p => pt.getD p.2 0 ≠ pt.getD p.1 0).length
      + (pairs.filter fun p => pt.getD p.2 0 = pt.getD p.1 0).length = pairs.length := by
  induction pairs with
  | nil => rfl
  | cons p pairs ih =>
    by_cases h : pt.getD p.2 0 = pt.getD p.1 0
    · simp only [List.filter_cons, h, decide_True, ne_eq, not_true_eq_false, decide_False,
        List.length_cons, if_true] at ih ⊢
      simp only [Bool.false_eq_true, if_false]
      omega
    · simp only [List.filter_cons, h, decide_False, ne_eq, not_false_eq_true, decide_True,
        List.length_cons, if_true] at ih ⊢
      simp only [Bool.false_eq_true, if_false]
      omega

/-- The slot count computed by `set_up` is the number of candidate pairs. -/
theorem num_restraints_eq (types : List Int) :
    (set_up types).num_restraints_ = ((candidate_pairs types).length : Int) := by
  have hs := (scan_spec types).1
  simp only [set_up, hs, count_restraints_eq, candidate_pairs]
  have h1 := length_index_pairs types.length
  have h2 := length_filter_split types (index_pairs types.length)
  have h3 : (types.length : Int) * ((types.length : Int) - 1)
      = ((index_pairs types.length).length : Int) * 2 := by
    generalize (index_pairs types.length).length = k at h1
    generalize types.length = n at h1
    cases n with
    | zero => simp at h1; subst h1; simp
    | succ m =>
      rw [Nat.add_sub_cancel] at h1
      have h4 := congrArg (fun x : Nat => (x : Int)) h1
      simp only [Nat.cast_mul, Nat.cast_add, Nat.cast_one, Nat.cast_ofNat] at h4
      push_cast
      linarith
  rw [h3, Int.mul_tdiv_cancel _ (by decide)]
  omega

theorem fill_spec (pt : List Int) (pairs : List (Nat × Nat)) :
    ∀ slots : List Restraint_Score,
      fill pt pairs slots =
        if (pairs.filter fun p => pt.getD p.2 0 ≠ pt.getD p.1 0).length ≤ slots.length then
          .ok (List.zipWith (tagged pt) slots
                (pairs.filter fun p => pt.getD p.2 0 ≠ pt.getD p.1 0)
              ++ slots.drop (pairs.filter fun p => pt.getD p.2 0 ≠ pt.getD p.1 0).length)
        else .error (.out_of_range "Over ran the calculated number of restraints") := by
  induction pairs with
  | nil => intro slots; simp [fill]
  | cons p pairs ih =>
    intro slots
    obtain ⟨i, j⟩ := p
    by_cases h : pt.getD j 0 ≠ pt.getD i 0
    · have hf : (((i, j) :: pairs).filter fun p => pt.getD p.2 0 ≠ pt.getD p.1 0)
          = (i, j) :: pairs.filter fun p => pt.getD p.2 0 ≠ pt.getD p.1 0 :=
        List.filter_cons_of_pos (by simpa using h)
      rw [hf]
      cases slots with
      | nil =>
        simp only [fill]
        rw [if_pos h, if_neg (by simp)]
      | cons slot rest =>
        simp only [fill]
        rw [if_pos h]
        simp only [ih rest, List.length_cons, Nat.add_le_add_iff_right, List.zipWith_cons_cons,
          List.drop_succ_cons, List.cons_append]
        split_ifs <;> rfl
    · have hf : (((i, j) :: pairs).filter fun p => pt.getD p.2 0 ≠ pt.getD p.1 0)
          = pairs.filter fun p => pt.getD p.2 0 ≠ pt.getD p.1 0 :=
        List.filter_cons_of_neg (by simpa using h)
      rw [hf]
      simp only [fill]
      rw [if_neg h]
      exact ih slots

theorem zipWith_replicate_tagged (pt : List Int) (slot : Restraint_Score) :
    ∀ l : List (Nat × Nat),
      List.zipWith (tagged pt) (List.replicate l.length slot) l = l.map (tagged pt slot) := by
  intro l
  induction l with
  | nil => rfl
  | cons p l ih => simp only [List.length_cons, List.replicate_succ, List.zipWith_cons_cons,
      List.map_cons, ih]

/-- The constructor succeeds and leaves in `rsr_scores_` the candidate edges, in the order
of their index pairs. -/
theorem new_eq (types : List Int) :
    new types = .ok { set_up types with rsr_scores_ := candidate_edges types fun _ => 0 } := by
  have hn := num_restraints_eq types
  have hpt : (set_up types).particle_type_ = types := (scan_spec types).1
  have hnp : (set_up types).num_particles_.toNat = types.length := by
    simp [set_up]
  have hslots : (set_up types).rsr_scores_
      = List.replicate (candidate_pairs types).length Restraint_Score.empty := by
    have : (set_up types).rsr_scores_
        = List.replicate (set_up types).num_restraints_.toNat Restraint_Score.empty := rfl
    rw [this, hn, Int.toNat_ofNat]
  unfold new
  simp only [hpt, hnp, fill_spec, hslots, List.length_replicate]
  have hc : (index_pairs types.length).filter (fun p => types.getD p.2 0 ≠ types.getD p.1 0)
      = candidate_pairs types := rfl
  rw [hc, if_pos (le_refl _), zipWith_replicate_tagged]
  simp only [List.drop_replicate, Nat.sub_self, List.replicate_zero, List.append_nil]
  rfl

theorem mem_candidate_pairs (types : List Int) (i j : Nat) :
    (i, j) ∈ candidate_pairs types ↔
      i < j ∧ j < types.length ∧ types.getD j 0 ≠ types.getD i 0 := by
  simp only [candidate_pairs, List.mem_filter, mem_index_pairs, decide_eq_true_eq]
  tauto

theorem getD_mem {types : List Int} {i : Nat} (h : i < types.length) :
    types.getD i 0 ∈ types := by
  rw [List.getD_eq_getElem _ _ h]
  exact List.getElem_mem h

theorem mem_candidate_edges {types : List Int} {sc : Nat × Nat → Int} {e : Restraint_Score}
    (he : e ∈ candidate_edges types sc) :
    ∃ i j, i < j ∧ j < types.length ∧ types.getD j 0 ≠ types.getD i 0 ∧
      e = { part1_type_ := types.getD i 0, part2_type_ := types.getD j 0, rsr_ := some (i, j),
            score_ := sc (i, j) } := by
  simp only [candidate_edges, List.mem_map] at he
  obtain ⟨⟨i, j⟩, hp, rfl⟩ := he
  obtain ⟨h1, h2, h3⟩ := (mem_candidate_pairs types i j).1 hp
  exact ⟨i, j, h1, h2, h3, rfl⟩

theorem rescore_candidate_edges (types : List Int) (sc0 sc : Nat × Nat → Int) :
    (candidate_edges types sc0).map (rescore sc) = candidate_edges types sc := by
  simp only [candidate_edges, List.map_map]
  rfl

theorem score_all_eq (sc : Nat × Nat → Int) :
    ∀ l : List Restraint_Score, (∀ rs ∈ l, ∃ p, rs.rsr_ = some p) →
      score_all sc l = some (l.map (rescore sc)) := by
  intro l
  induction l with
  | nil => intro _; rfl
  | cons rs l ih =>
    intro h
    obtain ⟨p, hp⟩ := h rs (List.mem_cons_self _ _)
    have h1 := ih fun r hr => h r (List.mem_cons_of_mem _ hr)
    simp only [score_all, Restraint_Score.evaluate, hp, h1, List.map_cons, rescore]

theorem sort_perm (l : List Restraint_Score) : (sort l).Perm l :=
  List.perm_insertionSort _ l

theorem sort_sorted (l : List Restraint_Score) :
    (sort l).Sorted fun a b => a.score_ ≤ b.score_ :=
  @List.sorted_insertionSort _ (fun a b : Restraint_Score => a.score_ ≤ b.score_) _
    ⟨fun a b => le_total a.score_ b.score_⟩ ⟨fun _ _ _ h k => le_trans h k⟩ l

theorem classes_congr {R Q : Int → Int → Prop} [DecidableRel R] [DecidableRel Q]
    (h : ∀ x y, R x y ↔ Q x y) : ∀ V : List Int, classes R V = classes Q V := by
  intro V
  induction V with
  | nil => rfl
  | cons v V ih =>
    simp only [classes, ih]
    have : (∃ u ∈ V, R u v) ↔ (∃ u ∈ V, Q u v) :=
      ⟨fun ⟨u, hu, hr⟩ => ⟨u, hu, (h u v).1 hr⟩, fun ⟨u, hu, hr⟩ => ⟨u, hu, (h u v).2 hr⟩⟩
    simp only [this]

theorem edgeOk_of_mem {types : List Int} {sc : Nat × Nat → Int} {max_type_ : Int}
    (hnn : ∀ t ∈ types, 0 ≤ t) (hmax : ∀ t ∈ types, t < max_type_) {e : Restraint_Score}
    (he : e ∈ candidate_edges types sc) : EdgeOk max_type_.toNat types sc e := by
  obtain ⟨i, j, hij, hj, hne, rfl⟩ := mem_candidate_edges he
  have hi : i < types.length := by omega
  have h1 := getD_mem hi
  have h2 := getD_mem hj
  have a1 := hnn _ h1
  have a2 := hnn _ h2
  have b1 := hmax _ h1
  have b2 := hmax _ h2
  have c1 : (types.getD i 0).toNat < max_type_.toNat := by omega
  have c2 : (types.getD j 0).toNat < max_type_.toNat := by omega
  exact ⟨⟨a1, c1⟩, ⟨a2, c2⟩, fun h => hne h.symm, h1, h2, (i, j), rfl, rfl⟩

theorem treeInv_init (M : Nat) (V : List Int) (tree_id_ : List Int) (hlen : tree_id_.length = M) :
    TreeInv M V V.dedup.length
      { tree_id_ := tree_id_.map fun _ => (0 : Int), max_tree_id := 0, num_edges := 0,
        score := 0, applied := [] } := by
  have hlab : ∀ x, label (tree_id_.map fun _ => (0 : Int)) x = 0 := fun x => label_map rfl x
  have hsame : ∀ x y, same_tree (tree_id_.map fun _ => (0 : Int)) x y ↔ x = y := by
    intro x y
    unfold same_tree
    rw [hlab x]
    simp
  refine ⟨by simp [hlen], le_refl _, fun x => le_of_eq (hlab x), hsame, ?_, rfl, rfl⟩
  show classes (same_tree (tree_id_.map fun _ => (0 : Int))) V + 0 = V.dedup.length
  rw [classes_congr hsame V, classes_eq]
  rfl

/-- A call to `evaluate` on a restraint built for non-negative types: the call returns,
the list is left sorted, and the applied edges are the greedy choice from the sorted
list. -/
theorem evaluate_run_spec {types : List Int} {st : State} (hWF : WellFormed types st)
    (hnn : ∀ t ∈ types, 0 ≤ t) (sc : Nat × Nat → Int) :
    ∃ r, evaluate_run st sc = some r ∧
      r.2.rsr_scores_ = sort (st.rsr_scores_.map (rescore sc)) ∧
      r.2.rsr_scores_.Perm (candidate_edges types sc) ∧
      Greedy (fun u v => u = v) r.2.rsr_scores_ r.1.applied ∧
      TreeInv st.max_type_.toNat types types.dedup.length r.1 ∧ WellFormed types r.2 := by
  obtain ⟨hT, hlen, hmax, sc0, hperm⟩ := hWF
  have hnonnull : ∀ rs ∈ st.rsr_scores_, ∃ p, rs.rsr_ = some p := by
    intro rs hrs
    obtain ⟨i, j, _, _, _, rfl⟩ := mem_candidate_edges (hperm.subset hrs)
    exact ⟨(i, j), rfl⟩
  have hscore := score_all_eq sc st.rsr_scores_ hnonnull
  have hperm2 : (sort (st.rsr_scores_.map (rescore sc))).Perm (candidate_edges types sc) := by
    refine (sort_perm _).trans ?_
    rw [← rescore_candidate_edges types sc0 sc]
    exact hperm.map _
  have hok : ∀ e ∈ sort (st.rsr_scores_.map (rescore sc)),
      EdgeOk st.max_type_.toNat types sc e :=
    fun e he => edgeOk_of_mem hnn hmax (hperm2.subset he)
  obtain ⟨s1, K, hloop, hK, hG, hInv⟩ :=
    tree_loop_spec (sort (st.rsr_scores_.map (rescore sc))) _
      (treeInv_init st.max_type_.toNat types st.tree_id_ hlen) hok
  refine ⟨(s1, { st with tree_id_ := s1.tree_id_,
                          rsr_scores_ := sort (st.rsr_scores_.map (rescore sc)) }),
    ?_, rfl, hperm2, ?_, hInv, ⟨hT, hInv.1, hmax, sc, hperm2⟩⟩
  · simp only [evaluate_run, hscore, hT, hloop]
  · have : s1.applied = K := by rw [hK]; rfl
    rw [this]
    exact hG

theorem new_wellFormed (types : List Int) :
    ∃ st0, new types = .ok st0 ∧ WellFormed types st0 ∧
      st0.rsr_scores_ = candidate_edges types fun _ => 0 := by
  refine ⟨_, new_eq types, ⟨?_, ?_, ?_, fun _ => 0, List.Perm.refl _⟩, rfl⟩
  · exact (scan_spec types).2.1
  · show (List.replicate (set_up types).max_type_.toNat (0 : Int)).length = _
    exact List.length_replicate _ _
  · intro t ht
    have := (scan_spec types).2.2.2 t ht
    show t < _ + 1
    omega

theorem evaluate_eq {st : State} {sc : Nat × Nat → Int} {r : Tree × State}
    (h : evaluate_run st sc = some r) : evaluate st sc = some (r.1.score, r.2) := by
  simp only [evaluate, h, Option.map_some']

theorem evaluate_passes_wellFormed {types : List Int} (hnn : ∀ t ∈ types, 0 ≤ t) :
    ∀ (prev : List (Nat × Nat → Int)) (st : State), WellFormed types st →
      ∃ st1, evaluate_passes st prev = some st1 ∧ WellFormed types st1 := by
  intro prev
  induction prev with
  | nil => intro st h; exact ⟨st, rfl, h⟩
  | cons sc prev ih =>
    intro st h
    obtain ⟨r, hr, _, _, _, _, hWF⟩ := evaluate_run_spec h hnn sc
    obtain ⟨st1, h1, h2⟩ := ih r.2 hWF
    refine ⟨st1, ?_, h2⟩
    simp only [evaluate_passes, evaluate_eq hr, h1]

theorem exists_getD_of_mem {types : List Int} {a : Int} (h : a ∈ types) :
    ∃ i, i < types.length ∧ types.getD i 0 = a := by
  obtain ⟨i, hi, rfl⟩ := List.getElem_of_mem h
  exact ⟨i, hi, List.getD_eq_getElem _ _ hi⟩

/-- The greedy choice from all the candidate edges connects every two types of the
particles: any two different types have a candidate edge between them. -/
theorem greedy_connects_types {types : List Int} {sc : Nat × Nat → Int}
    {L K : List Restraint_Score} (hperm : L.Perm (candidate_edges types sc))
    (hG : Greedy (fun u v => u = v) L K) :
    ∀ a ∈ types, ∀ b ∈ types, Connected K a b := by
  have key : ∀ i j, i < j → j < types.length → types.getD j 0 ≠ types.getD i 0 →
      Connected K (types.getD i 0) (types.getD j 0) := by
    intro i j hij hj hne
    have hmem : Restraint_Score.mk (types.getD i 0) (types.getD j 0) (some (i, j)) (sc (i, j))
        ∈ candidate_edges types sc := by
      simp only [candidate_edges, List.mem_map]
      exact ⟨(i, j), (mem_candidate_pairs types i j).2 ⟨hij, hj, hne⟩, rfl⟩
    rw [connected_iff_join_all]
    exact greedy_connects hG eq_equiv _ (hperm.symm.subset hmem)
  intro a ha b hb
  obtain ⟨i, hi, rfl⟩ := exists_getD_of_mem ha
  obtain ⟨j, hj, rfl⟩ := exists_getD_of_mem hb
  by_cases hab : types.getD i 0 = types.getD j 0
  · rw [hab]; exact Relation.EqvGen.refl _
  · rcases Nat.lt_trichotomy i j with h | h | h
    · exact key i j h hj (fun e => hab e.symm)
    · subst h; exact absurd rfl hab
    · exact Relation.EqvGen.symm _ _ (key j i h hi hab)

theorem seqForest_before (K1 : List Restraint_Score) (e : Restraint_Score)
    (K2 : List Restraint_Score) :
    ∀ {R : Int → Int → Prop}, SeqForest R (K1 ++ e :: K2) →
      ¬ join_all R K1 e.part1_type_ e.part2_type_ := by
  induction K1 with
  | nil => intro R h; exact h.1
  | cons f K1 ih => intro R h; exact ih h.2

/-- C1. For every list of particles with non-negative types and every score assignment,
also after any number of earlier calls, `evaluate` returns the total weight of a minimum
spanning tree of the graph whose nodes are the distinct types and whose edges are the
candidate pairs weighted by their scores. -/
theorem evaluate_returns_minimum_spanning_tree_weight (types : List Int)
    (hnn : ∀ t ∈ types, 0 ≤ t) (prev : List (Nat × Nat → Int)) (sc : Nat × Nat → Int) :
    ∃ st0 st w st1 K, new types = .ok st0 ∧ evaluate_passes st0 prev = some st ∧
      evaluate st sc = some (w, st1) ∧
      IsMinimumSpanningTree types.dedup (candidate_edges types sc) K ∧ w = weight K := by
  obtain ⟨st0, h0, hWF0, _⟩ := new_wellFormed types
  obtain ⟨st, h1, hWF⟩ := evaluate_passes_wellFormed hnn prev st0 hWF0
  obtain ⟨r, hr, hsorted, hperm, hG, hInv, _⟩ := evaluate_run_spec hWF hnn sc
  refine ⟨st0, st, r.1.score, r.2, r.1.applied, h0, h1, evaluate_eq hr, ?_, hInv.2.2.2.2.2.2⟩
  apply greedy_minimum hperm (by rw [hsorted]; exact sort_sorted _) hG
  · intro e he
    obtain ⟨i, j, hij, hj, _, rfl⟩ := mem_candidate_edges he
    exact ⟨List.mem_dedup.2 (getD_mem (by omega)), List.mem_dedup.2 (getD_mem hj)⟩
  · intro a ha b hb
    exact greedy_connects_types hperm hG a (List.mem_dedup.1 ha) b (List.mem_dedup.1 hb)

theorem evaluate_returns_minimum_spanning_tree_weight_witness :
    (∀ t ∈ [(1 : Int), 1, 2, 3], 0 ≤ t) ∧
    ∃ st0 st w st1 K, new [1, 1, 2, 3] = .ok st0 ∧
      evaluate_passes st0 [fun p => (p.1 : Int) + p.2] = some st ∧
      evaluate st (fun p => (p.1 : Int) * p.2) = some (w, st1) ∧
      IsMinimumSpanningTree [(1 : Int), 1, 2, 3].dedup
        (candidate_edges [1, 1, 2, 3] fun p => (p.1 : Int) * p.2) K ∧ w = weight K :=
  ⟨by decide,
   evaluate_returns_minimum_spanning_tree_weight [1, 1, 2, 3] (by decide)
     [fun p => (p.1 : Int) + p.2] (fun p => (p.1 : Int) * p.2)⟩

/-- C2. For every non-empty list of particles with non-negative types, `T` of them
distinct, `evaluate` applies exactly `T - 1` edges; no applied edge joins two types that
the edges applied before it already connect, and the applied edges connect all the types,
so that they form a spanning tree of the types. -/
theorem evaluate_applies_spanning_tree (types : List Int) (hne : types ≠ [])
    (hnn : ∀ t ∈ types, 0 ≤ t) (prev : List (Nat × Nat → Int)) (sc : Nat × Nat → Int) :
    ∃ st0 st r, new types = .ok st0 ∧ evaluate_passes st0 prev = some st ∧
      evaluate_run st sc = some r ∧
      r.1.num_edges = (types.dedup.length : Int) - 1 ∧
      r.1.applied.length + 1 = types.dedup.length ∧
      (∀ K1 e K2, r.1.applied = K1 ++ e :: K2 →
        ¬ Connected K1 e.part1_type_ e.part2_type_) ∧
      (∀ a ∈ types, ∀ b ∈ types, Connected r.1.applied a b) ∧
      IsSpanningTree types.dedup (candidate_edges types sc) r.1.applied := by
  obtain ⟨st0, h0, hWF0, _⟩ := new_wellFormed types
  obtain ⟨st, h1, hWF⟩ := evaluate_passes_wellFormed hnn prev st0 hWF0
  obtain ⟨r, hr, hsorted, hperm, hG, hInv, _⟩ := evaluate_run_spec hWF hnn sc
  have hconn := greedy_connects_types hperm hG
  obtain ⟨_, _, _, hsame, hcl, hnum, _⟩ := hInv
  have hone : classes (same_tree r.1.tree_id_) types = 1 := by
    apply classes_of_related types hne
    intro x hx y hy
    rw [hsame, ← connected_iff_join_all]
    exact hconn x hx y hy
  have hlen : r.1.applied.length + 1 = types.dedup.length := by omega
  have hmst : IsMinimumSpanningTree types.dedup (candidate_edges types sc) r.1.applied := by
    apply greedy_minimum hperm (by rw [hsorted]; exact sort_sorted _) hG
    · intro e he
      obtain ⟨i, j, hij, hj, _, rfl⟩ := mem_candidate_edges he
      exact ⟨List.mem_dedup.2 (getD_mem (by omega)), List.mem_dedup.2 (getD_mem hj)⟩
    · intro a ha b hb
      exact hconn a (List.mem_dedup.1 ha) b (List.mem_dedup.1 hb)
  refine ⟨st0, st, r, h0, h1, hr, by omega, hlen, ?_, hconn, hmst.1⟩
  intro K1 e K2 hK hc
  rw [connected_iff_join_all] at hc
  exact seqForest_before K1 e K2 (hK ▸ greedy_forest hG) hc

theorem evaluate_applies_spanning_tree_witness :
    [(1 : Int), 1, 2, 3] ≠ [] ∧ (∀ t ∈ [(1 : Int), 1, 2, 3], 0 ≤ t) ∧
    ∃ st0 st r, new [1, 1, 2, 3] = .ok st0 ∧ evaluate_passes st0 [] = some st ∧
      evaluate_run st (fun p => (p.1 : Int) * p.2) = some r ∧
      r.1.num_edges = (([(1 : Int), 1, 2, 3].dedup.length : Nat) : Int) - 1 ∧
      r.1.applied.length + 1 = [(1 : Int), 1, 2, 3].dedup.length ∧
      (∀ K1 e K2, r.1.applied = K1 ++ e :: K2 →
        ¬ Connected K1 e.part1_type_ e.part2_type_) ∧
      (∀ a ∈ [(1 : Int), 1, 2, 3], ∀ b ∈ [(1 : Int), 1, 2, 3], Connected r.1.applied a b) ∧
      IsSpanningTree [(1 : Int), 1, 2, 3].dedup
        (candidate_edges [1, 1, 2, 3] fun p => (p.1 : Int) * p.2) r.1.applied :=
  ⟨by decide, by decide,
   evaluate_applies_spanning_tree [1, 1, 2, 3] (by decide) (by decide) []
     (fun p => (p.1 : Int) * p.2)⟩

end RSR_Connectivity

end Imp

namespace Imp

namespace RSR_Pair_Connectivity

/-! ### RSR_Pair_Connectivity: the constructor -/

theorem mem_cross_pairs (n1 n2 i j : Nat) :
    (i, j) ∈ cross_pairs n1 n2 ↔ i < n1 ∧ n1 ≤ j ∧ j < n1 + n2 := by
  simp only [cross_pairs, List.mem_flatMap, List.mem_range, List.mem_map, List.mem_range',
    Prod.mk.injEq]
  constructor
  · rintro ⟨a, ha, b, ⟨k, hk, rfl⟩, rfl, rfl⟩
    omega
  · rintro ⟨h1, h2, h3⟩
    exact ⟨i, h1, j, ⟨j - n1, by omega, by omega⟩, rfl, rfl⟩

theorem length_cross_pairs (n1 n2 : Nat) : (cross_pairs n1 n2).length = n1 * n2 := by
  have h : (List.length ∘ fun i : Nat => List.map (fun j => (i, j)) (List.range' n1 n2))
      = fun _ => n2 := by
    funext i
    simp only [Function.comp, List.length_map, List.length_range']
  simp only [cross_pairs, List.length_flatMap]
  rw [h]
  simp

/-- The constructor loop fills the slots in order and fails exactly when the pairs outnumber
the slots. -/
theorem pair_fill_spec (pairs : List (Nat × Nat)) :
    ∀ slots : List Restraint_Score,
      fill pairs slots =
        if pairs.length ≤ slots.length then
          .ok (List.zipWith
                (fun (slot : Restraint_Score) (p : Nat × Nat) =>
                  { slot with part1_idx_ := p.1, part2_idx_ := p.2, rsr_ := some p })
                slots pairs
              ++ slots.drop pairs.length)
        else .error (.out_of_range "Reached end of rsr_scores too early") := by
  induction pairs with
  | nil => intro slots; simp [fill]
  | cons p pairs ih =>
    intro slots
    obtain ⟨i, j⟩ := p
    cases slots with
    | nil => simp [fill]
    | cons slot rest =>
      simp only [fill, ih rest, List.length_cons, Nat.add_le_add_iff_right,
        List.zipWith_cons_cons, List.drop_succ_cons, List.cons_append]
      split_ifs <;> rfl

theorem pair_zipWith_replicate (slot : Restraint_Score) :
    ∀ l : List (Nat × Nat),
      List.zipWith
        (fun (slot : Restraint_Score) (p : Nat × Nat) =>
          ({ slot with part1_idx_ := p.1, part2_idx_ := p.2, rsr_ := some p } : Restraint_Score))
        (List.replicate l.length slot) l
      = l.map fun p =>
          ({ slot with part1_idx_ := p.1, part2_idx_ := p.2, rsr_ := some p } : Restraint_Score) := by
  intro l
  induction l with
  | nil => rfl
  | cons p l ih => simp only [List.length_cons, List.replicate_succ, List.zipWith_cons_cons,
      List.map_cons, ih]

/-- The constructor succeeds and leaves in `rsr_scores_` the candidate edges, in the order
of their index pairs. -/
theorem pair_new_eq (n1 n2 : Nat) (k : Int) (reuse : Bool) :
    new n1 n2 k reuse
      = .ok { set_up n1 n2 k reuse with rsr_scores_ := candidate_edges n1 n2 fun _ => 0 } := by
  have hslots : (set_up n1 n2 k reuse).rsr_scores_
      = List.replicate (cross_pairs n1 n2).length Restraint_Score.empty := by
    show List.replicate ((n1 : Int) * (n2 : Int)).toNat Restraint_Score.empty = _
    rw [length_cross_pairs, ← Nat.cast_mul, Int.toNat_ofNat]
  have h1 : (set_up n1 n2 k reuse).num_particles1_.toNat = n1 := Int.toNat_ofNat n1
  have h2 : (set_up n1 n2 k reuse).num_particles2_.toNat = n2 := Int.toNat_ofNat n2
  unfold new
  simp only [h1, h2, pair_fill_spec, hslots, List.length_replicate]
  rw [if_pos (le_refl _), pair_zipWith_replicate]
  simp only [List.drop_replicate, Nat.sub_self, List.replicate_zero, List.append_nil]
  rfl

theorem pair_mem_candidate_edges {n1 n2 : Nat} {sc : Nat × Nat → Int} {e : Restraint_Score}
    (he : e ∈ candidate_edges n1 n2 sc) :
    ∃ i j, i < n1 ∧ n1 ≤ j ∧ j < n1 + n2 ∧
      e = { part1_idx_ := i, part2_idx_ := j, rsr_ := some (i, j), score_ := sc (i, j) } := by
  simp only [candidate_edges, List.mem_map] at he
  obtain ⟨⟨i, j⟩, hp, rfl⟩ := he
  obtain ⟨h1, h2, h3⟩ := (mem_cross_pairs n1 n2 i j).1 hp
  exact ⟨i, j, h1, h2, h3, rfl⟩

theorem pair_rescore_candidate_edges (n1 n2 : Nat) (sc0 sc : Nat × Nat → Int) :
    (candidate_edges n1 n2 sc0).map (rescore sc) = candidate_edges n1 n2 sc := by
  simp only [candidate_edges, List.map_map]
  rfl

theorem pair_score_all_eq (sc : Nat × Nat → Int) :
    ∀ l : List Restraint_Score, (∀ rs ∈ l, ∃ p, rs.rsr_ = some p) →
      score_all sc l = some (l.map (rescore sc)) := by
  intro l
  induction l with
  | nil => intro _; rfl
  | cons rs l ih =>
    intro h
    obtain ⟨p, hp⟩ := h rs (List.mem_cons_self _ _)
    have h1 := ih fun r hr => h r (List.mem_cons_of_mem _ hr)
    simp only [score_all, Restraint_Score.evaluate, hp, h1, List.map_cons, rescore]

theorem pair_sort_perm (l : List Restraint_Score) : (sort l).Perm l :=
  List.perm_insertionSort _ l

theorem pair_sort_sorted (l : List Restraint_Score) :
    (sort l).Sorted fun a b => a.score_ ≤ b.score_ :=
  @List.sorted_insertionSort _ (fun a b : Restraint_Score => a.score_ ≤ b.score_) _
    ⟨fun a b => le_total a.score_ b.score_⟩ ⟨fun _ _ _ h k => le_trans h k⟩ l

theorem pair_new_wellFormed (n1 n2 : Nat) (k : Int) (reuse : Bool) :
    ∃ st0, new n1 n2 k reuse = .ok st0 ∧ WellFormed n1 n2 st0 ∧
      st0.particle_reuse_ = reuse ∧ st0.num_to_apply_ = k := by
  refine ⟨_, pair_new_eq n1 n2 k reuse, ⟨?_, fun _ => 0, List.Perm.refl _⟩, rfl, rfl⟩
  show (List.replicate ((n1 : Int) + (n2 : Int)).toNat false).length = n1 + n2
  rw [List.length_replicate]
  omega

/-! ### RSR_Pair_Connectivity: the selection loop -/

theorem used_at_set {used_ : List Bool} {t : Int} (h0 : 0 ≤ t) (hlt : t.toNat < used_.length)
    (v : Bool) (x : Int) :
    used_at (used_.set t.toNat v) x = if x = t then some v else used_at used_ x := by
  unfold used_at
  by_cases hx : 0 ≤ x
  · simp only [hx, if_true]
    by_cases hxt : x = t
    · subst hxt
      simp [List.getElem?_set, hlt]
    · have : t.toNat ≠ x.toNat := by omega
      simp [List.getElem?_set, this, hxt]
  · have hxt : x ≠ t := by omega
    simp [hx, hxt]

theorem used_at_some {used_ : List Bool} {t : Int} (h0 : 0 ≤ t) (hlt : t.toNat < used_.length) :
    ∃ u, used_at used_ t = some u := by
  unfold used_at
  rw [if_pos h0, List.getElem?_eq_getElem hlt]
  exact ⟨_, rfl⟩

theorem mark_used_eq {used_ : List Bool} {t : Int} (h0 : 0 ≤ t) (hlt : t.toNat < used_.length) :
    mark_used used_ t = some (used_.set t.toNat true) := by
  unfold mark_used
  rw [if_pos ⟨h0, hlt⟩]

theorem countP_snoc (x : Int) (A : List Restraint_Score) (e : Restraint_Score) :
    (A ++ [e]).countP (is_end x) = A.countP (is_end x) + if is_end x e then 1 else 0 := by
  rw [List.countP_append, List.countP_cons, List.countP_nil]
  simp

/-- One step of the selection loop without reuse keeps the invariant. -/
theorem select_step_inv {N : Nat} {sc : Nat × Nat → Int} {s : Selection} {e : Restraint_Score}
    (hInv : SelectInv N s) (he : EdgeOk N sc e) :
    ∃ s1, select_step sc false s e = some s1 ∧ SelectInv N s1 := by
  obtain ⟨hlen, hcount, hfree⟩ := hInv
  obtain ⟨⟨a0, aN⟩, ⟨b0, bN⟩, p, hp, hsc⟩ := he
  rw [← hlen] at aN bN
  obtain ⟨u1, hu1⟩ := used_at_some a0 aN
  obtain ⟨u2, hu2⟩ := used_at_some b0 bN
  cases u1 with
  | true =>
    refine ⟨s, ?_, hlen, hcount, hfree⟩
    simp [select_step, may_apply, hu1]
  | false =>
    cases u2 with
    | true =>
      refine ⟨s, ?_, hlen, hcount, hfree⟩
      simp [select_step, may_apply, hu1, hu2]
    | false =>
      have hlen1 : (s.used_.set e.part1_idx_.toNat true).length = s.used_.length :=
        List.length_set _ _ _
      have bN1 : e.part2_idx_.toNat < (s.used_.set e.part1_idx_.toNat true).length := by
        rw [hlen1]; exact bN
      refine ⟨{ used_ := (s.used_.set e.part1_idx_.toNat true).set e.part2_idx_.toNat true
                score := s.score + sc p
                num_applied := s.num_applied + 1
                applied := s.applied ++ [e] }, ?_, ?_, ?_, ?_⟩
      · simp [select_step, may_apply, hu1, hu2, mark_used_eq a0 aN, mark_used_eq b0 bN1, hp]
      · simp [hlen]
      · intro x
        show (s.applied ++ [e]).countP (is_end x) ≤ 1
        rw [countP_snoc]
        by_cases hx : is_end x e = true
        · have hx1 : e.part1_idx_ = x ∨ e.part2_idx_ = x := by
            simpa [is_end] using hx
          have : s.applied.countP (is_end x) = 0 := by
            rcases hx1 with h | h
            · exact hfree x (h ▸ hu1)
            · exact hfree x (h ▸ hu2)
          rw [this, if_pos hx]
        · have := hcount x
          rw [if_neg hx]
          omega
      · intro x hx
        show (s.applied ++ [e]).countP (is_end x) = 0
        rw [used_at_set b0 bN1, used_at_set a0 aN] at hx
        by_cases h2 : x = e.part2_idx_
        · rw [if_pos h2] at hx; cases hx
        · rw [if_neg h2] at hx
          by_cases h1 : x = e.part1_idx_
          · rw [if_pos h1] at hx; cases hx
          · rw [if_neg h1] at hx
            have hne : ¬ is_end x e = true := by
              simp only [is_end, decide_eq_true_eq]
              rintro (h | h)
              · exact h1 h.symm
              · exact h2 h.symm
            rw [countP_snoc, hfree x hx, if_neg hne]

theorem select_loop_inv {N : Nat} {sc : Nat × Nat → Int} (k : Int) :
    ∀ (L : List Restraint_Score) (s : Selection), SelectInv N s → (∀ e ∈ L, EdgeOk N sc e) →
      ∃ s1, select_loop sc false k L s = some s1 ∧ SelectInv N s1 := by
  intro L
  induction L with
  | nil => intro s h _; exact ⟨s, rfl, h⟩
  | cons e L ih =>
    intro s hInv hL
    by_cases hgo : s.num_applied < k
    · obtain ⟨s0, h0, hInv0⟩ := select_step_inv hInv (hL e (List.mem_cons_self _ _))
      obtain ⟨s1, h1, hInv1⟩ := ih s0 hInv0 fun f hf => hL f (List.mem_cons_of_mem _ hf)
      exact ⟨s1, by simp only [select_loop, hgo, if_true, h0, h1], hInv1⟩
    · exact ⟨s, by simp only [select_loop, hgo, if_false], hInv⟩

theorem select_step_reuse {N : Nat} {sc : Nat × Nat → Int} {s : Selection} {e : Restraint_Score}
    (hlen : s.used_.length = N) (he : EdgeOk N sc e) :
    ∃ used_, used_.length = N ∧
      select_step sc true s e
        = some { used_ := used_, score := s.score + e.score_,
                 num_applied := s.num_applied + 1, applied := s.applied ++ [e] } := by
  obtain ⟨⟨a0, aN⟩, ⟨b0, bN⟩, p, hp, hsc⟩ := he
  rw [← hlen] at aN bN
  have hlen1 : (s.used_.set e.part1_idx_.toNat true).length = s.used_.length :=
    List.length_set _ _ _
  have bN1 : e.part2_idx_.toNat < (s.used_.set e.part1_idx_.toNat true).length := by
    rw [hlen1]; exact bN
  refine ⟨(s.used_.set e.part1_idx_.toNat true).set e.part2_idx_.toNat true, by simp [hlen], ?_⟩
  simp [select_step, may_apply, mark_used_eq a0 aN, mark_used_eq b0 bN1, hp, hsc]

theorem pair_weight_append (S1 S2 : List Restraint_Score) :
    weight (S1 ++ S2) = weight S1 + weight S2 := by
  simp [weight]

theorem pair_weight_cons (e : Restraint_Score) (S : List Restraint_Score) :
    weight (e :: S) = e.score_ + weight S := by
  simp [weight]

/-- With reuse allowed the selection loop applies the entries in list order until
`num_to_apply_` of them have been applied. -/
theorem select_loop_reuse {N : Nat} {sc : Nat × Nat → Int} (k : Int) :
    ∀ (L : List Restraint_Score) (s : Selection), s.used_.length = N →
      (∀ e ∈ L, EdgeOk N sc e) →
      ∃ s1, select_loop sc true k L s = some s1 ∧ s1.used_.length = N ∧
        s1.applied = s.applied ++ L.take (k - s.num_applied).toNat ∧
        s1.score = s.score + weight (L.take (k - s.num_applied).toNat) := by
  intro L
  induction L with
  | nil => intro s h _; exact ⟨s, rfl, h, by simp, by simp [weight]⟩
  | cons e L ih =>
    intro s hlen hL
    by_cases hgo : s.num_applied < k
    · obtain ⟨used_, hu, hstep⟩ := select_step_reuse hlen (hL e (List.mem_cons_self _ _))
      obtain ⟨s1, h1, h2, h3, h4⟩ := ih
        { used_ := used_, score := s.score + e.score_, num_applied := s.num_applied + 1,
          applied := s.applied ++ [e] } hu fun f hf => hL f (List.mem_cons_of_mem _ hf)
      have ht : (k - s.num_applied).toNat = (k - (s.num_applied + 1)).toNat + 1 := by omega
      refine ⟨s1, by simp only [select_loop, hgo, if_true, hstep, h1], h2, ?_, ?_⟩
      · rw [h3, ht, List.take_succ_cons]; simp
      · rw [h4, ht, List.take_succ_cons, pair_weight_cons]; ring
    · have ht : (k - s.num_applied).toNat = 0 := by omega
      exact ⟨s, by simp only [select_loop, hgo, if_false], hlen, by rw [ht]; simp,
        by rw [ht]; simp [weight]⟩

theorem pair_edgeOk_of_mem {n1 n2 : Nat} {sc : Nat × Nat → Int} {e : Restraint_Score}
    (he : e ∈ candidate_edges n1 n2 sc) : EdgeOk (n1 + n2) sc e := by
  obtain ⟨i, j, hi, hj1, hj2, rfl⟩ := pair_mem_candidate_edges he
  refine ⟨⟨?_, ?_⟩, ⟨?_, ?_⟩, (i, j), rfl, rfl⟩
  · exact Int.natCast_nonneg i
  · show (i : Int).toNat < n1 + n2
    rw [Int.toNat_ofNat]; omega
  · exact Int.natCast_nonneg j
  · show (j : Int).toNat < n1 + n2
    rw [Int.toNat_ofNat]; exact hj2

theorem selectInv_init (N : Nat) (used_ : List Bool) (hlen : used_.length = N) :
    SelectInv N { used_ := used_.map fun _ => false, score := 0, num_applied := 0,
                  applied := [] } :=
  ⟨by simp [hlen], fun _ => Nat.zero_le _, fun _ _ => rfl⟩

/-- A call to `evaluate` on a restraint built by the constructor returns; it leaves the
list sorted, keeps the restraint well formed, and selects as its flag says. -/
theorem pair_evaluate_run_spec {n1 n2 : Nat} {st : State} (hWF : WellFormed n1 n2 st)
    (sc : Nat × Nat → Int) :
    ∃ r, evaluate_run st sc = some r ∧
      r.2.rsr_scores_ = sort (st.rsr_scores_.map (rescore sc)) ∧
      r.2.rsr_scores_.Perm (candidate_edges n1 n2 sc) ∧ WellFormed n1 n2 r.2 ∧
      r.2.particle_reuse_ = st.particle_reuse_ ∧ r.2.num_to_apply_ = st.num_to_apply_ ∧
      (st.particle_reuse_ = false → SelectInv (n1 + n2) r.1) ∧
      (st.particle_reuse_ = true →
        r.1.applied = r.2.rsr_scores_.take st.num_to_apply_.toNat ∧
        r.1.score = weight r.1.applied) := by
  obtain ⟨hlen, sc0, hperm⟩ := hWF
  have hnonnull : ∀ rs ∈ st.rsr_scores_, ∃ p, rs.rsr_ = some p := by
    intro rs hrs
    obtain ⟨i, j, _, _, _, rfl⟩ := pair_mem_candidate_edges (hperm.subset hrs)
    exact ⟨(i, j), rfl⟩
  have hscore := pair_score_all_eq sc st.rsr_scores_ hnonnull
  have hperm2 : (sort (st.rsr_scores_.map (rescore sc))).Perm (candidate_edges n1 n2 sc) := by
    refine (pair_sort_perm _).trans ?_
    rw [← pair_rescore_candidate_edges n1 n2 sc0 sc]
    exact hperm.map _
  have hok : ∀ e ∈ sort (st.rsr_scores_.map (rescore sc)), EdgeOk (n1 + n2) sc e :=
    fun e he => pair_edgeOk_of_mem (hperm2.subset he)
  have hlen0 : (st.used_.map fun _ => false).length = n1 + n2 := by simp [hlen]
  cases hre : st.particle_reuse_ with
  | false =>
    obtain ⟨s1, hloop, hInv⟩ := select_loop_inv st.num_to_apply_
      (sort (st.rsr_scores_.map (rescore sc))) _ (selectInv_init (n1 + n2) st.used_ hlen) hok
    refine ⟨(s1, { st with used_ := s1.used_,
                            rsr_scores_ := sort (st.rsr_scores_.map (rescore sc)) }),
      ?_, rfl, hperm2, ⟨hInv.1, sc, hperm2⟩, hre, rfl, fun _ => hInv, (fun h => by cases h)⟩
    simp only [evaluate_run, hscore, hre, hloop]
  | true =>
    obtain ⟨s1, hloop, hl, happ, hsc⟩ := select_loop_reuse st.num_to_apply_
      (sort (st.rsr_scores_.map (rescore sc)))
      { used_ := st.used_.map fun _ => false, score := 0, num_applied := 0, applied := [] }
      hlen0 hok
    refine ⟨(s1, { st with used_ := s1.used_,
                            rsr_scores_ := sort (st.rsr_scores_.map (rescore sc)) }),
      ?_, rfl, hperm2, ⟨hl, sc, hperm2⟩, hre, rfl, (fun h => by cases h), fun _ => ⟨?_, ?_⟩⟩
    · simp only [evaluate_run, hscore, hre, hloop]
    · simpa using happ
    · have : s1.applied = (sort (st.rsr_scores_.map (rescore sc))).take st.num_to_apply_.toNat := by
        simpa using happ
      show s1.score = weight s1.applied
      rw [this, hsc]
      simp

theorem pair_evaluate_eq {st : State} {sc : Nat × Nat → Int} {r : Selection × State}
    (h : evaluate_run st sc = some r) : evaluate st sc = some (r.1.score, r.2) := by
  simp only [evaluate, h, Option.map_some']

theorem pair_evaluate_passes_wellFormed {n1 n2 : Nat} :
    ∀ (prev : List (Nat × Nat → Int)) (st : State), WellFormed n1 n2 st →
      ∃ st1, evaluate_passes st prev = some st1 ∧ WellFormed n1 n2 st1 ∧
        st1.particle_reuse_ = st.particle_reuse_ ∧ st1.num_to_apply_ = st.num_to_apply_ := by
  intro prev
  induction prev with
  | nil => intro st h; exact ⟨st, rfl, h, rfl, rfl⟩
  | cons sc prev ih =>
    intro st h
    obtain ⟨r, hr, _, _, hWF, hf1, hf2, _, _⟩ := pair_evaluate_run_spec h sc
    obtain ⟨st1, h1, h2, h3, h4⟩ := ih r.2 hWF
    refine ⟨st1, ?_, h2, h3.trans hf1, h4.trans hf2⟩
    simp only [evaluate_passes, pair_evaluate_eq hr, h1]

/-- C3. With `particle_reuse = false`, for all group sizes, every `num_to_apply` and every
score assignment, also after any number of earlier calls, no particle position is an end
of more than one entry applied by `evaluate`. -/
theorem pair_evaluate_uses_each_particle_once (n1 n2 : Nat) (k : Int)
    (prev : List (Nat × Nat → Int)) (sc : Nat × Nat → Int) :
    ∃ st0 st r, new n1 n2 k false = .ok st0 ∧ evaluate_passes st0 prev = some st ∧
      evaluate_run st sc = some r ∧ ∀ x : Int, r.1.applied.countP (is_end x) ≤ 1 := by
  obtain ⟨st0, h0, hWF0, hf0, _⟩ := pair_new_wellFormed n1 n2 k false
  obtain ⟨st, h1, hWF, hf, _⟩ := pair_evaluate_passes_wellFormed prev st0 hWF0
  obtain ⟨r, hr, _, _, _, _, _, hInv, _⟩ := pair_evaluate_run_spec hWF sc
  exact ⟨st0, st, r, h0, h1, hr, (hInv (hf.trans hf0)).2.1⟩

/-- The first entries of an ascending list weigh no more than any selection of as many
entries of the list. -/
theorem take_weight_le (L : List Restraint_Score) :
    ∀ S : List Restraint_Score, L.Sorted (fun a b => a.score_ ≤ b.score_) → S.Sublist L →
      weight (L.take S.length) ≤ weight S := by
  induction L with
  | nil => intro S _ hS; cases hS; exact le_refl _
  | cons e L ih =>
    intro S hsort hS
    have hsortL : L.Sorted (fun a b => a.score_ ≤ b.score_) := (List.sorted_cons.1 hsort).2
    have hmin : ∀ f ∈ L, e.score_ ≤ f.score_ := (List.sorted_cons.1 hsort).1
    cases hS with
    | cons₂ _ hsub =>
      rename_i S
      rw [List.length_cons, List.take_succ_cons, pair_weight_cons, pair_weight_cons]
      have := ih S hsortL hsub
      omega
    | cons _ hsub =>
      cases S with
      | nil => simp [weight]
      | cons f S =>
        have hf : f ∈ L := hsub.subset (List.mem_cons_self _ _)
        have hsub2 : S.Sublist L := (List.sublist_cons_self f S).trans hsub
        rw [List.length_cons, List.take_succ_cons, pair_weight_cons, pair_weight_cons]
        have h1 := ih S hsortL hsub2
        have h2 := hmin f hf
        omega

theorem pair_weight_perm {S1 S2 : List Restraint_Score} (h : S1.Perm S2) :
    weight S1 = weight S2 :=
  (h.map _).sum_eq

/-- C4. With `particle_reuse = true`, for all group sizes, every `num_to_apply = k` and every
score assignment, also after any number of earlier calls, `evaluate` applies exactly the
first `k` entries of the ascending score order of the candidates (all of them when there
are fewer than `k`, none when `k` is negative), and the score it returns is their sum, the
least total of any selection of as many candidates. -/
theorem pair_evaluate_reuse_applies_lowest (n1 n2 : Nat) (k : Int)
    (prev : List (Nat × Nat → Int)) (sc : Nat × Nat → Int) :
    ∃ st0 st r, new n1 n2 k true = .ok st0 ∧ evaluate_passes st0 prev = some st ∧
      evaluate_run st sc = some r ∧ evaluate st sc = some (r.1.score, r.2) ∧
      r.2.rsr_scores_.Sorted (fun a b => a.score_ ≤ b.score_) ∧
      r.2.rsr_scores_.Perm (candidate_edges n1 n2 sc) ∧
      r.1.applied = r.2.rsr_scores_.take k.toNat ∧
      r.1.applied.length = min k.toNat (n1 * n2) ∧
      r.1.score = weight r.1.applied ∧
      ∀ S : List Restraint_Score, S.Subperm (candidate_edges n1 n2 sc) →
        S.length = r.1.applied.length → r.1.score ≤ weight S := by
  obtain ⟨st0, h0, hWF0, hf0, hk0⟩ := pair_new_wellFormed n1 n2 k true
  obtain ⟨st, h1, hWF, hf, hk⟩ := pair_evaluate_passes_wellFormed prev st0 hWF0
  obtain ⟨r, hr, hsorted, hperm, _, _, _, _, hre⟩ := pair_evaluate_run_spec hWF sc
  obtain ⟨happ, hsc⟩ := hre (hf.trans hf0)
  rw [hk.trans hk0] at happ
  have hsort : r.2.rsr_scores_.Sorted (fun a b => a.score_ ≤ b.score_) := by
    rw [hsorted]; exact pair_sort_sorted _
  have hlen : r.2.rsr_scores_.length = n1 * n2 := by
    rw [hperm.length_eq, candidate_edges, List.length_map, length_cross_pairs]
  refine ⟨st0, st, r, h0, h1, hr, pair_evaluate_eq hr, hsort, hperm, happ, ?_, hsc, ?_⟩
  · rw [happ, List.length_take, hlen]
  · intro S hS hlenS
    obtain ⟨S1, hS1p, hS1sub⟩ := hS.trans hperm.symm.subperm
    have h2 := take_weight_le r.2.rsr_scores_ S1 hsort hS1sub
    have h3 : r.2.rsr_scores_.take S1.length = r.1.applied := by
      rw [hS1p.length_eq, hlenS, happ, List.length_take]
      rcases Nat.le_total k.toNat r.2.rsr_scores_.length with h | h
      · rw [Nat.min_eq_left h]
      · rw [Nat.min_eq_right h, List.take_length, List.take_of_length_le h]
    rw [h3, pair_weight_perm hS1p, ← hsc] at h2
    exact h2

end RSR_Pair_Connectivity

end Imp

namespace Imp

namespace RSR_Connectivity

/-! ### RSR_Connectivity: the candidate list and its order -/

theorem index_pairs_pairwise (n : Nat) : (index_pairs n).Pairwise row_major := by
  unfold index_pairs
  rw [List.pairwise_flatMap]
  constructor
  · intro i _
    rw [List.pairwise_map]
    exact (List.pairwise_lt_range' (i + 1) (n - (i + 1))).imp fun h => Or.inr ⟨rfl, h⟩
  · refine (List.pairwise_lt_range (n - 1)).imp ?_
    intro a b hab x hx y hy
    simp only [List.mem_map] at hx hy
    obtain ⟨_, _, rfl⟩ := hx
    obtain ⟨_, _, rfl⟩ := hy
    exact Or.inl hab

theorem candidate_pairs_pairwise (types : List Int) :
    (candidate_pairs types).Pairwise row_major :=
  (index_pairs_pairwise types.length).filter _

theorem row_major_irrefl (p : Nat × Nat) : ¬ row_major p p := by
  unfold row_major; omega

theorem candidate_edges_pairwise (types : List Int) (sc : Nat × Nat → Int) :
    (candidate_edges types sc).Pairwise created_before := by
  unfold candidate_edges
  rw [List.pairwise_map]
  exact (candidate_pairs_pairwise types).imp fun h => ⟨_, _, rfl, rfl, h⟩

/-- With unbounded integers, for every particle list the constructor succeeds, and the
candidate restraints it leaves in `rsr_scores_` are exactly the pairs `(i, j)` with
`i < j` of particles whose types differ: each such pair has an entry, every entry is for
such a pair and carries the types of its two particles, no pair has two entries, and the
entries are in row-major order of their pairs. No pair of particles of equal type is a
candidate. -/
theorem constructor_builds_different_type_pairs (types : List Int) :
    ∃ st, new types = .ok st ∧
      (∀ i j, (∃ rs ∈ st.rsr_scores_, rs.rsr_ = some (i, j)) ↔
        (i < j ∧ j < types.length ∧ types.getD i 0 ≠ types.getD j 0)) ∧
      (∀ rs ∈ st.rsr_scores_, ∃ i j, rs.rsr_ = some (i, j) ∧
        rs.part1_type_ = types.getD i 0 ∧ rs.part2_type_ = types.getD j 0 ∧
        rs.part1_type_ ≠ rs.part2_type_) ∧
      (st.rsr_scores_.map fun rs => rs.rsr_).Nodup ∧
      st.rsr_scores_.Pairwise created_before ∧
      st.rsr_scores_.length = (candidate_pairs types).length := by
  obtain ⟨st, hst, _, hl⟩ := new_wellFormed types
  refine ⟨st, hst, ?_, ?_, ?_, ?_, ?_⟩
  · intro i j
    rw [hl]
    constructor
    · rintro ⟨rs, hrs, hij⟩
      obtain ⟨a, b, h1, h2, h3, rfl⟩ := mem_candidate_edges hrs
      simp only [Option.some.injEq, Prod.mk.injEq] at hij
      obtain ⟨rfl, rfl⟩ := hij
      exact ⟨h1, h2, fun h => h3 h.symm⟩
    · rintro ⟨h1, h2, h3⟩
      refine ⟨Restraint_Score.mk (types.getD i 0) (types.getD j 0) (some (i, j)) 0, ?_, rfl⟩
      simp only [candidate_edges, List.mem_map]
      exact ⟨(i, j), (mem_candidate_pairs types i j).2 ⟨h1, h2, fun h => h3 h.symm⟩, rfl⟩
  · intro rs hrs
    rw [hl] at hrs
    obtain ⟨a, b, _, _, h3, rfl⟩ := mem_candidate_edges hrs
    exact ⟨a, b, rfl, rfl, rfl, fun h => h3 h.symm⟩
  · rw [hl]
    have h := candidate_edges_pairwise types fun _ => 0
    rw [List.Nodup, List.pairwise_map]
    refine h.imp ?_
    rintro a b ⟨p, q, hp, hq, hpq⟩ hab
    rw [hp, hq, Option.some.injEq] at hab
    rw [hab] at hpq
    exact row_major_irrefl q hpq
  · rw [hl]; exact candidate_edges_pairwise types _
  · rw [hl, candidate_edges, List.length_map]

/-! ### RSR_Connectivity: ties -/

theorem filter_orderedInsert (v : Int) (a : Restraint_Score) :
    ∀ L : List Restraint_Score,
      (List.orderedInsert (fun a b : Restraint_Score => a.score_ ≤ b.score_) a L).filter
          (fun e => decide (e.score_ = v))
        = (a :: L).filter fun e => decide (e.score_ = v) := by
  intro L
  induction L with
  | nil => rfl
  | cons b L ih =>
    by_cases hab : a.score_ ≤ b.score_
    · rw [List.orderedInsert, if_pos hab]
    · rw [List.orderedInsert, if_neg hab, List.filter_cons, ih]
      by_cases hb : b.score_ = v
      · have ha : ¬ a.score_ = v := by omega
        simp [List.filter_cons, hb, ha]
      · simp [List.filter_cons, hb]

/-- The sort is stable: the entries of any one score keep their order. -/
theorem sort_stable (v : Int) (l : List Restraint_Score) :
    (sort l).filter (fun e => decide (e.score_ = v)) = l.filter fun e => decide (e.score_ = v) := by
  induction l with
  | nil => rfl
  | cons a l ih =>
    show (List.orderedInsert _ a (sort l)).filter _ = _
    rw [filter_orderedInsert, List.filter_cons, ih, List.filter_cons]

theorem pairwise_of_filter {R : Restraint_Score → Restraint_Score → Prop} :
    ∀ L : List Restraint_Score,
      (∀ v : Int, (L.filter fun e => decide (e.score_ = v)).Pairwise R) →
      L.Pairwise fun a b => a.score_ = b.score_ → R a b := by
  intro L
  induction L with
  | nil => intro _; exact List.Pairwise.nil
  | cons a L ih =>
    intro h
    refine List.Pairwise.cons ?_ (ih fun v => ?_)
    · intro b hb hab
      have h1 := h a.score_
      rw [List.filter_cons_of_pos (by simp)] at h1
      exact List.rel_of_pairwise_cons h1 (List.mem_filter.2 ⟨hb, by simp [hab]⟩)
    · have h1 := h v
      by_cases ha : a.score_ = v
      · rw [List.filter_cons_of_pos (by simp [ha])] at h1
        exact List.Pairwise.of_cons h1
      · rw [List.filter_cons_of_neg (by simp [ha])] at h1
        exact h1

/-- C6, as stated, fails on a second call. Three particles of types 0, 1, 2; the first
call sees the scores 3, 2, 1 for the pairs (0,1), (0,2), (1,2) and leaves the list in the
order (1,2), (0,2), (0,1); the second call sees three equal scores and applies (1,2) and
then (0,2), against the constructor's order. -/
theorem ties_on_second_call_counterexample :
    ∃ st0 st r, new [0, 1, 2] = .ok st0 ∧
      evaluate_passes st0 [fun p => 4 - ((p.1 : Int) + p.2)] = some st ∧
      evaluate_run st (fun _ => 0) = some r ∧
      r.1.applied = [Restraint_Score.mk 1 2 (some (1, 2)) 0, Restraint_Score.mk 0 2 (some (0, 2)) 0] ∧
      ¬ r.2.rsr_scores_.Pairwise fun a b => a.score_ = b.score_ → created_before a b := by
  refine ⟨_, _, _, rfl, rfl, rfl, rfl, ?_⟩
  intro h
  have h1 : ∀ b ∈ [Restraint_Score.mk 0 2 (some (0, 2)) 0, Restraint_Score.mk 0 1 (some (0, 1)) 0],
      (Restraint_Score.mk 1 2 (some (1, 2)) 0).score_ = b.score_ →
      created_before (Restraint_Score.mk 1 2 (some (1, 2)) 0) b :=
    fun b hb => List.rel_of_pairwise_cons h hb
  obtain ⟨p, q, hp, hq, hpq⟩ := h1 _ (List.mem_cons_self _ _) rfl
  simp only [Option.some.injEq] at hp hq
  subst hp hq
  unfold row_major at hpq
  simp at hpq

/-- C6, amended. On every call to `evaluate`, candidate edges with equal score are
visited in the order in which they stood in `rsr_scores_` before the call; on the first
call after construction that is the order in which the constructor enumerated the
pairs. -/
theorem ties_keep_list_order (types : List Int) (hnn : ∀ t ∈ types, 0 ≤ t)
    (prev : List (Nat × Nat → Int)) (sc : Nat × Nat → Int) :
    (∃ st0 st r, new types = .ok st0 ∧ evaluate_passes st0 prev = some st ∧
      evaluate_run st sc = some r ∧
      ∀ v : Int, r.2.rsr_scores_.filter (fun e => decide (e.score_ = v))
        = (st.rsr_scores_.map (rescore sc)).filter fun e => decide (e.score_ = v)) ∧
    ∃ st0 r, new types = .ok st0 ∧ evaluate_run st0 sc = some r ∧
      r.2.rsr_scores_.Pairwise fun a b => a.score_ = b.score_ → created_before a b := by
  obtain ⟨st0, h0, hWF0, hl⟩ := new_wellFormed types
  constructor
  · obtain ⟨st, h1, hWF⟩ := evaluate_passes_wellFormed hnn prev st0 hWF0
    obtain ⟨r, hr, hsorted, _, _, _, _⟩ := evaluate_run_spec hWF hnn sc
    refine ⟨st0, st, r, h0, h1, hr, ?_⟩
    intro v; rw [hsorted]; exact sort_stable v _
  · obtain ⟨r, hr, hsorted, _, _, _, _⟩ := evaluate_run_spec hWF0 hnn sc
    refine ⟨st0, r, h0, hr, ?_⟩
    apply pairwise_of_filter
    intro v
    rw [hsorted, sort_stable, hl, rescore_candidate_edges]
    exact (candidate_edges_pairwise types sc).filter _

theorem ties_keep_list_order_witness :
    (∀ t ∈ [(0 : Int), 1, 2], 0 ≤ t) ∧
    (∃ st0 st r, new [0, 1, 2] = .ok st0 ∧
      evaluate_passes st0 [fun p => 4 - ((p.1 : Int) + p.2)] = some st ∧
      evaluate_run st (fun _ => 0) = some r ∧
      ∀ v : Int, r.2.rsr_scores_.filter (fun e => decide (e.score_ = v))
        = (st.rsr_scores_.map (rescore fun _ => 0)).filter fun e => decide (e.score_ = v)) ∧
    ∃ st0 r, new [0, 1, 2] = .ok st0 ∧ evaluate_run st0 (fun _ => 0) = some r ∧
      r.2.rsr_scores_.Pairwise fun a b => a.score_ = b.score_ → created_before a b :=
  ⟨by decide,
   ties_keep_list_order [0, 1, 2] (by decide) [fun p => 4 - ((p.1 : Int) + p.2)] fun _ => 0⟩

end RSR_Connectivity

end Imp

namespace Imp

namespace RSR_Exclusion_Volume

/-! ### RSR_Exclusion_Volume -/

theorem cross_pairs_pairwise (n1 n2 : Nat) : (cross_pairs n1 n2).Pairwise row_major := by
  unfold cross_pairs
  rw [List.pairwise_flatMap]
  constructor
  · intro i _
    rw [List.pairwise_map]
    exact (List.pairwise_lt_range' n1 n2).imp fun h => Or.inr ⟨rfl, h⟩
  · refine (List.pairwise_lt_range n1).imp ?_
    intro a b hab x hx y hy
    simp only [List.mem_map] at hx hy
    obtain ⟨_, _, rfl⟩ := hx
    obtain ⟨_, _, rfl⟩ := hy
    exact Or.inl hab

theorem nodup_of_row_major {l : List (Nat × Nat)} (h : l.Pairwise row_major) : l.Nodup := by
  unfold List.Nodup
  refine h.imp ?_
  intro p q hpq hEq
  rw [hEq] at hpq
  exact RSR_Connectivity.row_major_irrefl q hpq

theorem build_foldl {α : Type} [Add α] (radius : Nat → α) :
    ∀ (pairs : List (Nat × Nat)) (b : Build α),
      (pairs.foldl (build_step radius) b).dist_rsrs_
        = b.dist_rsrs_ ++ pairs.map fun p =>
            { p1 := p.1, p2 := p.2, mean := radius p.1 + radius p.2 } := by
  intro pairs
  induction pairs with
  | nil => intro b; simp
  | cons p pairs ih =>
    intro b
    rw [List.foldl_cons, ih]
    simp [build_step]

theorem two_groups_eq {α : Type} [Add α] (n1 n2 : Nat) (radius : Nat → α) :
    (new_two_groups n1 n2 radius).dist_rsrs_
      = (cross_pairs n1 n2).map fun p =>
          { p1 := p.1, p2 := p.2, mean := radius p.1 + radius p.2 } := by
  simp only [new_two_groups, build_foldl, Int.toNat_ofNat, List.nil_append]

theorem one_group_eq {α : Type} [Add α] (n : Nat) (radius : Nat → α) :
    (new_one_group n radius).dist_rsrs_
      = (index_pairs n).map fun p =>
          { p1 := p.1, p2 := p.2, mean := radius p.1 + radius p.2 } := by
  simp only [new_one_group, build_foldl, Int.toNat_ofNat, List.nil_append]

/-- C7. The two-group constructor of RSR_Exclusion_Volume creates exactly `n1 * n2`
distance restraints, one for each pair of a particle of the first group and a particle of
the second and no other; the one-group constructor creates exactly `n * (n - 1) / 2`, one
for each pair of distinct positions `i < j` and no other; in both the target distance of
the restraint of a pair is the sum of the radius attribute values of its two particles. -/
theorem exclusion_volume_builds_all_pairs {α : Type} [Add α] (n1 n2 n : Nat)
    (radius : Nat → α) :
    ((new_two_groups n1 n2 radius).dist_rsrs_.length = n1 * n2 ∧
      (∀ i j, (∃ r ∈ (new_two_groups n1 n2 radius).dist_rsrs_, r.p1 = i ∧ r.p2 = j) ↔
        (i < n1 ∧ n1 ≤ j ∧ j < n1 + n2)) ∧
      ((new_two_groups n1 n2 radius).dist_rsrs_.map fun r => (r.p1, r.p2)).Nodup ∧
      ∀ r ∈ (new_two_groups n1 n2 radius).dist_rsrs_, r.mean = radius r.p1 + radius r.p2) ∧
    ((new_one_group n radius).dist_rsrs_.length = n * (n - 1) / 2 ∧
      (∀ i j, (∃ r ∈ (new_one_group n radius).dist_rsrs_, r.p1 = i ∧ r.p2 = j) ↔
        (i < j ∧ j < n)) ∧
      ((new_one_group n radius).dist_rsrs_.map fun r => (r.p1, r.p2)).Nodup ∧
      ∀ r ∈ (new_one_group n radius).dist_rsrs_, r.mean = radius r.p1 + radius r.p2) := by
  refine ⟨⟨?_, ?_, ?_, ?_⟩, ?_, ?_, ?_, ?_⟩
  · rw [two_groups_eq, List.length_map, RSR_Pair_Connectivity.length_cross_pairs]
  · intro i j
    rw [two_groups_eq, ← RSR_Pair_Connectivity.mem_cross_pairs]
    simp only [List.mem_map]
    constructor
    · rintro ⟨r, ⟨p, hp, rfl⟩, h1, h2⟩
      obtain ⟨a, b⟩ := p
      simp only at h1 h2
      subst h1 h2
      exact hp
    · intro h
      exact ⟨_, ⟨(i, j), h, rfl⟩, rfl, rfl⟩
  · rw [two_groups_eq, List.map_map]
    have : ((fun r : RSR_Distance α => (r.p1, r.p2)) ∘ fun p : Nat × Nat =>
        ({ p1 := p.1, p2 := p.2, mean := radius p.1 + radius p.2 } : RSR_Distance α)) = id := by
      funext p; rfl
    rw [this, List.map_id]
    exact nodup_of_row_major (cross_pairs_pairwise n1 n2)
  · intro r hr
    rw [two_groups_eq, List.mem_map] at hr
    obtain ⟨p, _, rfl⟩ := hr
    rfl
  · rw [one_group_eq, List.length_map]
    have := RSR_Connectivity.length_index_pairs n
    omega
  · intro i j
    rw [one_group_eq, ← RSR_Connectivity.mem_index_pairs]
    simp only [List.mem_map]
    constructor
    · rintro ⟨r, ⟨p, hp, rfl⟩, h1, h2⟩
      obtain ⟨a, b⟩ := p
      simp only at h1 h2
      subst h1 h2
      exact hp
    · intro h
      exact ⟨_, ⟨(i, j), h, rfl⟩, rfl, rfl⟩
  · rw [one_group_eq, List.map_map]
    have : ((fun r : RSR_Distance α => (r.p1, r.p2)) ∘ fun p : Nat × Nat =>
        ({ p1 := p.1, p2 := p.2, mean := radius p.1 + radius p.2 } : RSR_Distance α)) = id := by
      funext p; rfl
    rw [this, List.map_id]
    exact nodup_of_row_major (RSR_Connectivity.index_pairs_pairwise n)
  · intro r hr
    rw [one_group_eq, List.mem_map] at hr
    obtain ⟨p, _, rfl⟩ := hr
    rfl

end RSR_Exclusion_Volume

end Imp

namespace Imp

namespace RMF

/-! ### RMF keys -/

/-- C9. Two keys of one type with equal category and equal index compare equal and have
the same hash value, whatever their per-frame flags (a key has no other member; its name
is not part of it), and `compare` returns 0 only when both the index and the category are
equal. -/
theorem key_compare_and_hash (k o : Key) (i : Int) (c : Category) (pf1 pf2 : Bool) :
    Key.compare { i_ := i, ci_ := c, pf_ := pf1 } { i_ := i, ci_ := c, pf_ := pf2 } = 0 ∧
    Key.hash { i_ := i, ci_ := c, pf_ := pf1 } = Key.hash { i_ := i, ci_ := c, pf_ := pf2 } ∧
    (Key.compare k o = 0 ↔ (k.i_ = o.i_ ∧ k.ci_ = o.ci_)) := by
  refine ⟨?_, rfl, ?_⟩
  · simp [Key.compare, Category.lt]
  · obtain ⟨ki, ⟨kc⟩, kp⟩ := k
    obtain ⟨oi, ⟨oc⟩, op⟩ := o
    simp only [Key.compare, Category.lt, Category.mk.injEq]
    constructor
    · intro h
      split_ifs at h <;> omega
    · rintro ⟨h1, h2⟩
      subst h1 h2
      simp

end RMF

namespace internal

/-! ### Key tables of the kernel -/

theorem names_some (t : KeyTable) (fk id : Nat) : names (some t) fk id = (t id).rmap_ := rfl

theorem names_add_key (t : KeyTable) (id id1 : Nat) (name : String) :
    ((t.add_key id name) id1).rmap_
      = if id1 = id then (t id).rmap_ ++ [name] else (t id1).rmap_ := by
  unfold KeyTable.add_key
  by_cases h : id1 = id
  · subst h; simp [KeyData.add_key]
  · simp [Function.update_noteq h, h]

theorem names_none (fk id : Nat) :
    names none fk id
      = if id = fk then ["x", "y", "z", "radius", "local_x", "local_y", "local_z"] else [] := by
  show ((KeyTable.new fk) id).rmap_ = _
  simp only [KeyTable.new, names_add_key]
  by_cases h : id = fk
  · simp [h, KeyData.new]
  · simp [h, KeyData.new]

/-- What one key creation does to the tables of names. -/
theorem create_key_spec (st : Option KeyTable) (fk id : Nat) (name : String) :
    (names (create_key st fk id name).2 fk id)[(create_key st fk id name).1]? = some name ∧
    ((name ∈ names st fk id ∧ names (create_key st fk id name).2 fk id = names st fk id) ∨
      (name ∉ names st fk id ∧
        names (create_key st fk id name).2 fk id = names st fk id ++ [name] ∧
        (create_key st fk id name).1 = (names st fk id).length)) ∧
    ∀ id1, id1 ≠ id → names (create_key st fk id name).2 fk id1 = names st fk id1 := by
  have hn : ∀ id1, names st fk id1 = ((st.getD (KeyTable.new fk)) id1).rmap_ := fun _ => rfl
  by_cases hmem : name ∈ ((st.getD (KeyTable.new fk)) id).rmap_
  · have hc : create_key st fk id name
        = ((((st.getD (KeyTable.new fk)) id).rmap_.indexOf name, some (st.getD (KeyTable.new fk)))) := by
      simp [create_key, KeyData.find, hmem]
    rw [hc]
    refine ⟨?_, Or.inl ⟨hmem, rfl⟩, fun _ _ => rfl⟩
    rw [names_some]
    exact List.getElem?_indexOf hmem
  · have hc : create_key st fk id name
        = ((((st.getD (KeyTable.new fk)) id).rmap_.length,
            some ((st.getD (KeyTable.new fk)).add_key id name))) := by
      simp [create_key, KeyData.find, hmem]
    rw [hc]
    refine ⟨?_, Or.inr ⟨hmem, ?_, rfl⟩, ?_⟩
    · rw [names_some, names_add_key, if_pos rfl]
      simp
    · rw [names_some, names_add_key, if_pos rfl, hn]
    · intro id1 h1
      rw [names_some, names_add_key, if_neg h1, hn]

theorem names_nodup (fk : Nat) (ops : List (Nat × String)) :
    ∀ id, (names (create_keys fk ops) fk id).Nodup := by
  induction ops with
  | nil =>
    intro id
    show (names none fk id).Nodup
    rw [names_none]
    split_ifs
    · decide
    · exact List.nodup_nil
  | cons op ops ih =>
    intro id
    show (names (create_key (create_keys fk ops) fk op.1 op.2).2 fk id).Nodup
    obtain ⟨_, h2, h3⟩ := create_key_spec (create_keys fk ops) fk op.1 op.2
    by_cases hid : id = op.1
    · subst hid
      rcases h2 with ⟨_, h⟩ | ⟨hnot, h, _⟩
      · rw [h]; exact ih _
      · rw [h]
        exact List.Nodup.append (ih _) (List.nodup_singleton _) (by simpa using hnot)
    · rw [h3 id hid]; exact ih id

theorem create_key_of_mem {st : Option KeyTable} {fk id : Nat} {name : String}
    (h : name ∈ names st fk id) :
    create_key st fk id name
      = ((names st fk id).indexOf name, some (st.getD (KeyTable.new fk))) := by
  have hmem : name ∈ ((st.getD (KeyTable.new fk)) id).rmap_ := h
  simp only [create_key, KeyData.find, hmem, if_true]
  rfl

theorem create_key_state (st : Option KeyTable) (fk id : Nat) (name : String) :
    ∃ t, (create_key st fk id name).2 = some t := by
  by_cases hmem : name ∈ ((st.getD (KeyTable.new fk)) id).rmap_
  · exact ⟨st.getD (KeyTable.new fk), by simp only [create_key, KeyData.find, hmem, if_true]⟩
  · exact ⟨(st.getD (KeyTable.new fk)).add_key id name,
      by simp only [create_key, KeyData.find, hmem, if_false]⟩

theorem indexOf_of_getElem? {l : List String} {i : Nat} {a : String} (hnd : l.Nodup)
    (h : l[i]? = some a) : l.indexOf a = i := by
  obtain ⟨hlt, rfl⟩ := List.getElem?_eq_some.1 h
  exact List.indexOf_getElem hnd i hlt

/-- C10. Modelled from the spec of key creation. After any history of key creations:
creating a key for a name a second time returns the same index and changes nothing; the
index of a created key is the position of its name in the list of the names of its type in
creation order, a list without repetition that a creation extends at its end by a new name
and otherwise leaves alone, so that the indices of a type are distinct and densely packed
from 0 in creation order; a different name of the same type receives a different index;
the tables of other types are not touched; before any creation the float table holds x, y,
z, radius, local_x, local_y, local_z at the indices 0 to 6 and every other table is empty;
and `get_key_data` returns the same table on a second call with the same type id. -/
theorem key_indices_are_dense_and_stable (fk : Nat) (ops : List (Nat × String)) (id : Nat)
    (name name1 : String) :
    create_key (create_key (create_keys fk ops) fk id name).2 fk id name
      = create_key (create_keys fk ops) fk id name ∧
    (names (create_key (create_keys fk ops) fk id name).2 fk id)[
        (create_key (create_keys fk ops) fk id name).1]? = some name ∧
    (names (create_key (create_keys fk ops) fk id name).2 fk id).Nodup ∧
    ((name ∈ names (create_keys fk ops) fk id ∧
        names (create_key (create_keys fk ops) fk id name).2 fk id
          = names (create_keys fk ops) fk id) ∨
      (name ∉ names (create_keys fk ops) fk id ∧
        names (create_key (create_keys fk ops) fk id name).2 fk id
          = names (create_keys fk ops) fk id ++ [name] ∧
        (create_key (create_keys fk ops) fk id name).1
          = (names (create_keys fk ops) fk id).length)) ∧
    (name1 ≠ name →
      (create_key (create_key (create_keys fk ops) fk id name).2 fk id name1).1
        ≠ (create_key (create_keys fk ops) fk id name).1) ∧
    (∀ id1, id1 ≠ id →
      names (create_key (create_keys fk ops) fk id name).2 fk id1
        = names (create_keys fk ops) fk id1) ∧
    names none fk fk = ["x", "y", "z", "radius", "local_x", "local_y", "local_z"] ∧
    (∀ id1, id1 ≠ fk → names none fk id1 = []) ∧
    get_key_data (get_key_data (create_keys fk ops) fk id).2 fk id
      = get_key_data (create_keys fk ops) fk id := by
  obtain ⟨h1, h2, h3⟩ := create_key_spec (create_keys fk ops) fk id name
  have hnd : (names (create_key (create_keys fk ops) fk id name).2 fk id).Nodup :=
    names_nodup fk ((id, name) :: ops) id
  have hlt : (create_key (create_keys fk ops) fk id name).1
      < (names (create_key (create_keys fk ops) fk id name).2 fk id).length := by
    by_contra hge
    rw [List.getElem?_eq_none (by omega)] at h1
    cases h1
  have hmem : name ∈ names (create_key (create_keys fk ops) fk id name).2 fk id :=
    List.mem_iff_getElem?.2 ⟨_, h1⟩
  refine ⟨?_, h1, hnd, h2, ?_, h3, ?_, ?_, rfl⟩
  · rw [create_key_of_mem hmem]
    obtain ⟨t, ht⟩ := create_key_state (create_keys fk ops) fk id name
    have hidx : (names (create_key (create_keys fk ops) fk id name).2 fk id).indexOf name
        = (create_key (create_keys fk ops) fk id name).1 := indexOf_of_getElem? hnd h1
    rw [hidx, ht]
    exact Prod.ext rfl ht.symm
  · intro hne heq
    obtain ⟨k1, k2, _⟩ := create_key_spec (create_key (create_keys fk ops) fk id name).2 fk id name1
    rw [heq] at k1
    have hpre : (names (create_key (create_key (create_keys fk ops) fk id name).2 fk id name1).2
        fk id)[(create_key (create_keys fk ops) fk id name).1]? = some name := by
      rcases k2 with ⟨_, h⟩ | ⟨_, h, _⟩
      · rw [h]; exact h1
      · rw [h, List.getElem?_append_left hlt]; exact h1
    rw [hpre] at k1
    exact hne (Option.some.inj k1).symm
  · rw [names_none, if_pos rfl]
  · intro id1 hid
    rw [names_none, if_neg hid]

end internal

end Imp

namespace Imp

namespace CHARMMParameters

theorem map_find_some {K V : Type} (lt : K → K → Bool) (m : List (K × V)) (k : K)
    (e : K × V) (h : map_find lt m k = some e) :
    e ∈ m ∧ lt e.1 k = false ∧ lt k e.1 = false := by
  unfold map_find at h
  have h1 := List.mem_of_find?_eq_some h
  have h2 := List.find?_some h
  rw [Bool.and_eq_true, Bool.not_eq_true', Bool.not_eq_true'] at h2
  exact ⟨h1, h2.1, h2.2⟩

theorem map_find_none {K V : Type} (lt : K → K → Bool) (m : List (K × V)) (k : K) :
    map_find lt m k = none ↔ ¬ ∃ e ∈ m, lt e.1 k = false ∧ lt k e.1 = false := by
  unfold map_find
  rw [List.find?_eq_none]
  simp only [Bool.and_eq_true, Bool.not_eq_true', not_exists, not_and]

/-- Claim C11. `get_bond_parameters(type1, type2)` returns the parameters stored in the
bond table under the key of the two atom types when the table has an entry for it, and
throws `IndexException` exactly when the table has none; `get_angle_parameters` does the
same on the angle table with the key of the three atom types; both calls leave the
tables as they were. -/
theorem get_bond_and_angle_parameters_lookup {B A : Type}
    (ltB : B → B → Bool) (bond_names : String → String → B)
    (ltA : A → A → Bool) (angle_names : String → String → String → A)
    (s : State B A) (type1 type2 type3 : String) :
    (((∃ e ∈ s.bond_parameters_, ltB e.1 (bond_names type1 type2) = false ∧
          ltB (bond_names type1 type2) e.1 = false) →
        ∃ e ∈ s.bond_parameters_, ltB e.1 (bond_names type1 type2) = false ∧
          ltB (bond_names type1 type2) e.1 = false ∧
          (get_bond_parameters ltB bond_names s type1 type2).1 = .ok e.2) ∧
      ((get_bond_parameters ltB bond_names s type1 type2).1 = .error .IndexException ↔
        ¬ ∃ e ∈ s.bond_parameters_, ltB e.1 (bond_names type1 type2) = false ∧
          ltB (bond_names type1 type2) e.1 = false) ∧
      (get_bond_parameters ltB bond_names s type1 type2).2 = s) ∧
    (((∃ e ∈ s.angle_parameters_, ltA e.1 (angle_names type1 type2 type3) = false ∧
          ltA (angle_names type1 type2 type3) e.1 = false) →
        ∃ e ∈ s.angle_parameters_, ltA e.1 (angle_names type1 type2 type3) = false ∧
          ltA (angle_names type1 type2 type3) e.1 = false ∧
          (get_angle_parameters ltA angle_names s type1 type2 type3).1 = .ok e.2) ∧
      ((get_angle_parameters ltA angle_names s type1 type2 type3).1 =
          .error .IndexException ↔
        ¬ ∃ e ∈ s.angle_parameters_, ltA e.1 (angle_names type1 type2 type3) = false ∧
          ltA (angle_names type1 type2 type3) e.1 = false) ∧
      (get_angle_parameters ltA angle_names s type1 type2 type3).2 = s) := by
  refine ⟨?_, ?_⟩
  · simp only [get_bond_parameters]
    cases hf : map_find ltB s.bond_parameters_ (bond_names type1 type2) with
    | none =>
      have hn := (map_find_none ltB _ _).1 hf
      exact ⟨fun h => absurd h hn, ⟨fun _ => hn, fun _ => rfl⟩, rfl⟩
    | some e =>
      obtain ⟨h1, h2, h3⟩ := map_find_some ltB _ _ e hf
      refine ⟨fun _ => ⟨e, h1, h2, h3, rfl⟩, ⟨fun h => ?_, fun h => ?_⟩, rfl⟩
      · exact absurd h (by simp)
      · exact absurd ⟨e, h1, h2, h3⟩ h
  · simp only [get_angle_parameters]
    cases hf : map_find ltA s.angle_parameters_ (angle_names type1 type2 type3) with
    | none =>
      have hn := (map_find_none ltA _ _).1 hf
      exact ⟨fun h => absurd h hn, ⟨fun _ => hn, fun _ => rfl⟩, rfl⟩
    | some e =>
      obtain ⟨h1, h2, h3⟩ := map_find_some ltA _ _ e hf
      refine ⟨fun _ => ⟨e, h1, h2, h3, rfl⟩, ⟨fun h => ?_, fun h => ?_⟩, rfl⟩
      · exact absurd h (by simp)
      · exact absurd ⟨e, h1, h2, h3⟩ h

end CHARMMParameters

end Imp

namespace Imp

namespace CHARMMParameters

theorem match_type_false (lib q : String) :
    match_type false lib q = if lib = q then some 0 else none := by
  unfold match_type
  by_cases h : lib = q <;> simp [h]

theorem match_in_order_false (lib : CHARMMDihedralNames) (a b c d : String) :
    match_in_order false lib a b c d =
      if lib = ⟨a, b, c, d⟩ then some 0 else none := by
  unfold match_in_order
  simp only [match_type_false]
  cases lib with
  | mk la lb lc ld =>
    simp only [CHARMMDihedralNames.mk.injEq]
    by_cases h1 : la = a <;> by_cases h2 : lb = b <;> by_cases h3 : lc = c <;>
      by_cases h4 : ld = d <;> simp [h1, h2, h3, h4]

theorem matches_false (lib q : CHARMMDihedralNames) :
    lib.matches q false = if same_names lib q then some 0 else none := by
  unfold CHARMMDihedralNames.matches same_names
  simp only [match_in_order_false]
  by_cases h1 : lib = q
  · have h1' : lib = ⟨q.a, q.b, q.c, q.d⟩ := h1
    rw [if_pos h1', if_pos (Or.inl h1)]
  · have h1' : ¬ lib = ⟨q.a, q.b, q.c, q.d⟩ := h1
    rw [if_neg h1']
    by_cases h2 : lib = ⟨q.d, q.c, q.b, q.a⟩
    · have h3 : lib = q ∨ lib = ⟨q.d, q.c, q.b, q.a⟩ := Or.inr h2
      simp only [if_pos h2, if_pos h3]
    · have h3 : ¬ (lib = q ∨ lib = ⟨q.d, q.c, q.b, q.a⟩) := fun h => h.elim h1 h2
      simp only [if_neg h2, if_neg h3]

theorem same_names_trans {x e e' : CHARMMDihedralNames} (h : same_names e' e) :
    same_names x e' ↔ same_names x e := by
  unfold same_names at *
  rcases h with h | h
  · rw [h]
  · rw [h]
    simp only
    exact or_comm

theorem match_type_le (w : Bool) (lib q : String) (n : Nat)
    (h : match_type w lib q = some n) : n ≤ 1 := by
  unfold match_type at h
  split_ifs at h <;> simp at h <;> omega

theorem match_in_order_le (w : Bool) (lib : CHARMMDihedralNames) (a b c d : String) (n : Nat)
    (h : match_in_order w lib a b c d = some n) : n < 5 := by
  unfold match_in_order at h
  split at h
  · rename_i n1 n2 n3 n4 h1 h2 h3 h4
    have := match_type_le _ _ _ _ h1
    have := match_type_le _ _ _ _ h2
    have := match_type_le _ _ _ _ h3
    have := match_type_le _ _ _ _ h4
    simp only [Option.some.injEq] at h
    omega
  · exact absurd h (by simp)

theorem matches_le (w : Bool) (lib q : CHARMMDihedralNames) (n : Nat)
    (h : lib.matches q w = some n) : n < 5 := by
  unfold CHARMMDihedralNames.matches at h
  split at h
  · rename_i m hm
    simp only [Option.some.injEq] at h
    subst h
    exact match_in_order_le _ _ _ _ _ _ _ hm
  · exact match_in_order_le _ _ _ _ _ _ _ h

end CHARMMParameters

end Imp

namespace Imp

namespace CHARMMParameters

theorem filter_of_first {α : Type} (p : α → Bool) :
    ∀ (l : List α) (i : Nat) (h : i < l.length), p (l.get ⟨i, h⟩) = true →
      (∀ j (hj : j < i), ¬ p (l.get ⟨j, by omega⟩) = true) →
      l.filter p = l.get ⟨i, h⟩ :: (l.drop (i + 1)).filter p
  | [], i, h, _, _ => absurd h (by simp)
  | x :: xs, 0, _, hp, _ => by
    simp only [List.get_eq_getElem, List.getElem_cons_zero] at hp
    simp [List.filter_cons, hp]
  | x :: xs, i + 1, h, hp, hn => by
    have h0 := hn 0 (by omega)
    simp only [List.get_eq_getElem, List.getElem_cons_zero] at h0
    rw [List.filter_cons, if_neg h0]
    simp only [List.get_eq_getElem, List.getElem_cons_succ, List.drop_succ_cons]
    have hi : i < xs.length := by simpa using h
    have := filter_of_first p xs i hi (by simpa using hp)
      (fun j hj => by simpa using hn (j + 1) (by omega))
    simpa using this

theorem find_dihedral_false (range : List (CHARMMDihedralNames × CHARMMDihedralParameters))
    (q : CHARMMDihedralNames) :
    find_dihedral range q false = range.findIdx? fun e => decide (same_names e.1 q) := by
  have h0 : (fun e : CHARMMDihedralNames × CHARMMDihedralParameters =>
      e.1.matches q false == some 0) = fun e => decide (same_names e.1 q) := by
    funext e
    rw [matches_false]
    by_cases h : same_names e.1 q <;> simp [h]
  have hn : ∀ n, 0 < n → range.findIdx? (fun e => e.1.matches q false == some n) = none := by
    intro n hn
    rw [List.findIdx?_eq_none_iff]
    intro e _
    rw [matches_false]
    by_cases h : same_names e.1 q
    · rw [if_pos h]
      simp only [beq_eq_false_iff_ne, ne_eq, Option.some.injEq]
      omega
    · rw [if_neg h]
      rfl
  unfold find_dihedral
  have hr : List.range 5 = [0, 1, 2, 3, 4] := rfl
  rw [hr]
  simp only [List.findSome?_cons, h0, hn 1 (by omega), hn 2 (by omega), hn 3 (by omega),
    hn 4 (by omega), List.findSome?_nil]
  cases List.findIdx? (fun e => decide (same_names e.1 q)) range <;> rfl

theorem isSome_matches_false (q : CHARMMDihedralNames) :
    (fun e : CHARMMDihedralNames × CHARMMDihedralParameters =>
      (e.1.matches q false).isSome) = fun e => decide (same_names e.1 q) := by
  funext e
  rw [matches_false]
  by_cases h : same_names e.1 q <;> simp [h]

theorem duplicates_spec (lib : List (CHARMMDihedralNames × CHARMMDihedralParameters)) :
    ∀ (fuel pos : Nat) (param : List CHARMMDihedralParameters)
      (e : CHARMMDihedralNames × CHARMMDihedralParameters),
      lib[pos]? = some e → lib.length ≤ pos + fuel →
      duplicates lib fuel pos param =
        some (param ++ ((lib.drop (pos + 1)).filter
          fun x => decide (same_names x.1 e.1)).map Prod.snd)
  | 0, pos, param, e, he, hf => by
    have := (List.getElem?_eq_some_iff.1 he).1
    omega
  | fuel + 1, pos, param, e, he, hf => by
    unfold duplicates
    simp only [he, find_dihedral_false]
    cases hfind : List.findIdx? (fun x => decide (same_names x.1 e.1)) (lib.drop (pos + 1)) with
    | none =>
      have hnil : (lib.drop (pos + 1)).filter (fun x => decide (same_names x.1 e.1)) = [] :=
        List.filter_eq_nil_iff.2 (fun a ha => by
          have := List.findIdx?_eq_none_iff.1 hfind a ha
          simp only [this]
          exact Bool.false_ne_true)
      simp only [hnil, List.map_nil, List.append_nil]
    | some off =>
      obtain ⟨hlt, hp, hfirst⟩ := List.findIdx?_eq_some_iff_getElem.1 hfind
      have hlen : pos + 1 + off < lib.length := by
        simp only [List.length_drop] at hlt
        omega
      have hget : (lib.drop (pos + 1))[off] = lib[pos + 1 + off] := by
        simp only [List.getElem_drop]
      have he' : lib[pos + 1 + off]? = some lib[pos + 1 + off] :=
        List.getElem?_eq_getElem hlen
      simp only [he']
      rw [duplicates_spec lib fuel (pos + 1 + off) _ _ he' (by omega)]
      have hsplit := filter_of_first (fun x => decide (same_names x.1 e.1))
        (lib.drop (pos + 1)) off hlt (by simpa using hp)
        (fun j hj => by simpa using hfirst j hj)
      rw [hsplit]
      simp only [List.get_eq_getElem, hget, List.drop_drop, List.map_cons,
        List.append_assoc, List.singleton_append]
      have hsame : same_names (lib[pos + 1 + off]).1 e.1 := by
        rw [hget] at hp
        simpa using hp
      have hfun : (fun x : CHARMMDihedralNames × CHARMMDihedralParameters =>
          decide (same_names x.1 (lib[pos + 1 + off]).1)) =
          fun x => decide (same_names x.1 e.1) := by
        funext x
        simp only [same_names_trans hsame]
      rw [hfun]
      rfl

end CHARMMParameters

end Imp

namespace Imp

namespace CHARMMParameters

theorem find_dihedral_none (range : List (CHARMMDihedralNames × CHARMMDihedralParameters))
    (q : CHARMMDihedralNames) (w : Bool) :
    find_dihedral range q w = none ↔ ∀ e ∈ range, e.1.matches q w = none := by
  unfold find_dihedral
  rw [List.findSome?_eq_none_iff]
  constructor
  · intro h e he
    cases hm : e.1.matches q w with
    | none => rfl
    | some n =>
      have hn := matches_le w e.1 q n hm
      have := List.findIdx?_eq_none_iff.1 (h n (List.mem_range.2 hn)) e he
      simp [hm] at this
  · intro h n _
    rw [List.findIdx?_eq_none_iff]
    intro e he
    simp [h e he]

theorem find_dihedral_some_elim
    (range : List (CHARMMDihedralNames × CHARMMDihedralParameters))
    (q : CHARMMDihedralNames) (w : Bool) (i : Nat) (h : find_dihedral range q w = some i) :
    ∃ e n, range[i]? = some e ∧ e.1.matches q w = some n := by
  unfold find_dihedral at h
  obtain ⟨n, _, hn⟩ := List.exists_of_findSome?_eq_some h
  obtain ⟨hlt, hp, _⟩ := List.findIdx?_eq_some_iff_getElem.1 hn
  exact ⟨range[i], n, List.getElem?_eq_getElem hlt, by simpa using hp⟩

theorem find_dihedral_most_specific
    (range : List (CHARMMDihedralNames × CHARMMDihedralParameters))
    (q : CHARMMDihedralNames) (w : Bool) (i : Nat)
    (e : CHARMMDihedralNames × CHARMMDihedralParameters) (n : Nat)
    (hi : range[i]? = some e) (hm : e.1.matches q w = some n)
    (hmin : ∀ e' ∈ range, ∀ m, e'.1.matches q w = some m → n ≤ m)
    (hfirst : ∀ j e', j < i → range[j]? = some e' → e'.1.matches q w ≠ some n) :
    find_dihedral range q w = some i := by
  have hn5 := matches_le w e.1 q n hm
  obtain ⟨hlt, hget⟩ := List.getElem?_eq_some_iff.1 hi
  have hidx : range.findIdx? (fun x => x.1.matches q w == some n) = some i := by
    rw [List.findIdx?_eq_some_iff_getElem]
    refine ⟨hlt, by simp [hget, hm], fun j hj => ?_⟩
    have := hfirst j range[j] hj (List.getElem?_eq_getElem (by omega))
    simpa using this
  have hless : ∀ m, m < n → range.findIdx? (fun x => x.1.matches q w == some m) = none := by
    intro m hmn
    rw [List.findIdx?_eq_none_iff]
    intro x hx
    simp only [beq_eq_false_iff_ne, ne_eq]
    intro hxm
    have := hmin x hx m hxm
    omega
  unfold find_dihedral
  have hr : List.range 5 = [0, 1, 2, 3, 4] := rfl
  rw [hr]
  interval_cases n
  · simp only [List.findSome?_cons, hidx]
  · simp only [List.findSome?_cons, hless 0 (by omega), hidx]
  · simp only [List.findSome?_cons, hless 0 (by omega), hless 1 (by omega), hidx]
  · simp only [List.findSome?_cons, hless 0 (by omega), hless 1 (by omega),
      hless 2 (by omega), hidx]
  · simp only [List.findSome?_cons, hless 0 (by omega), hless 1 (by omega),
      hless 2 (by omega), hless 3 (by omega), hidx]

theorem get_dihedral_parameters_of_find
    (lib : List (CHARMMDihedralNames × CHARMMDihedralParameters))
    (type1 type2 type3 type4 : String) (i : Nat)
    (e : CHARMMDihedralNames × CHARMMDihedralParameters)
    (hfind : find_dihedral lib ⟨type1, type2, type3, type4⟩ true = some i)
    (hi : lib[i]? = some e) :
    get_dihedral_parameters lib type1 type2 type3 type4 =
      some (.ok (e.2 :: ((lib.drop (i + 1)).filter
        fun x => (x.1.matches e.1 false).isSome).map Prod.snd)) := by
  unfold get_dihedral_parameters
  simp only [hfind, hi]
  rw [duplicates_spec lib _ i [e.2] e hi (by omega), isSome_matches_false]
  simp

theorem get_dihedral_parameters_of_none
    (lib : List (CHARMMDihedralNames × CHARMMDihedralParameters))
    (type1 type2 type3 type4 : String)
    (hfind : find_dihedral lib ⟨type1, type2, type3, type4⟩ true = none) :
    get_dihedral_parameters lib type1 type2 type3 type4 =
      some (.error .IndexException) := by
  unfold get_dihedral_parameters
  simp only [hfind]
  rfl

end CHARMMParameters

end Imp

namespace Imp

namespace CHARMMParameters

/-- Claim C12, as the code has it. For every library and every four atom types
`get_dihedral_parameters` ends, and (1) it throws `IndexException` exactly when no
library entry matches the four types with wildcards; (2) otherwise it returns a list that
is not empty; (3) the list starts with the parameters of the most specific match, the
entry `e` at position `i` that matches with `n` wildcards where no entry matches with
fewer and no earlier entry matches with `n`, followed by the parameters of every later
entry whose names are exactly those of `e`, forwards or backwards, in library order. -/
theorem get_dihedral_parameters_most_specific_then_duplicates
    (lib : List (CHARMMDihedralNames × CHARMMDihedralParameters))
    (type1 type2 type3 type4 : String) :
    (get_dihedral_parameters lib type1 type2 type3 type4 = some (.error .IndexException) ↔
      ∀ e ∈ lib, e.1.matches ⟨type1, type2, type3, type4⟩ true = none) ∧
    ((∃ e ∈ lib, e.1.matches ⟨type1, type2, type3, type4⟩ true ≠ none) →
      ∃ p ps, get_dihedral_parameters lib type1 type2 type3 type4 = some (.ok (p :: ps))) ∧
    (∀ i e n, lib[i]? = some e →
      e.1.matches ⟨type1, type2, type3, type4⟩ true = some n →
      (∀ e' ∈ lib, ∀ m, e'.1.matches ⟨type1, type2, type3, type4⟩ true = some m → n ≤ m) →
      (∀ j e', j < i → lib[j]? = some e' →
        e'.1.matches ⟨type1, type2, type3, type4⟩ true ≠ some n) →
      get_dihedral_parameters lib type1 type2 type3 type4 =
        some (.ok (e.2 :: ((lib.drop (i + 1)).filter
          fun x => (x.1.matches e.1 false).isSome).map Prod.snd))) := by
  have hcases : ∀ r, find_dihedral lib ⟨type1, type2, type3, type4⟩ true = r →
      (get_dihedral_parameters lib type1 type2 type3 type4 = some (.error .IndexException) ↔
        ∀ e ∈ lib, e.1.matches ⟨type1, type2, type3, type4⟩ true = none) ∧
      ((∃ e ∈ lib, e.1.matches ⟨type1, type2, type3, type4⟩ true ≠ none) →
        ∃ p ps, get_dihedral_parameters lib type1 type2 type3 type4 =
          some (.ok (p :: ps))) := by
    intro r hr
    cases r with
    | none =>
      have hall := (find_dihedral_none lib _ true).1 hr
      refine ⟨⟨fun _ => hall, fun _ => get_dihedral_parameters_of_none lib _ _ _ _ hr⟩, ?_⟩
      rintro ⟨e, he, hne⟩
      exact absurd (hall e he) hne
    | some i =>
      obtain ⟨e, n, hi, hm⟩ := find_dihedral_some_elim lib _ true i hr
      have hget := get_dihedral_parameters_of_find lib type1 type2 type3 type4 i e hr hi
      refine ⟨⟨fun h => ?_, fun h => ?_⟩, fun _ => ⟨_, _, hget⟩⟩
      · rw [hget] at h
        exact absurd h (by simp)
      · have := h e (by
          obtain ⟨hlt, hget⟩ := List.getElem?_eq_some_iff.1 hi
          exact hget ▸ List.getElem_mem hlt)
        rw [hm] at this
        exact absurd this (by simp)
  refine ⟨(hcases _ rfl).1, (hcases _ rfl).2, ?_⟩
  intro i e n hi hm hmin hfirst
  exact get_dihedral_parameters_of_find lib type1 type2 type3 type4 i e
    (find_dihedral_most_specific lib _ true i e n hi hm hmin hfirst) hi

/-- Claim C12 fails as stated. In the library `X-A-B-X`, `C-A-B-D` both entries match the
atom types `C`, `A`, `B`, `D` with wildcards, the first with two wildcards and the second
with none; `get_dihedral_parameters` returns the parameters of the second entry only,
not those of the first entry that matches. -/
theorem first_wildcard_match_counterexample :
    get_dihedral_parameters
        [(⟨"X", "A", "B", "X"⟩, ⟨1, 1, 0⟩), (⟨"C", "A", "B", "D"⟩, ⟨2, 2, 180⟩)]
        "C" "A" "B" "D" = some (.ok [⟨2, 2, 180⟩]) ∧
      CHARMMDihedralNames.matches ⟨"X", "A", "B", "X"⟩ ⟨"C", "A", "B", "D"⟩ true = some 2 ∧
      CHARMMDihedralNames.matches ⟨"C", "A", "B", "D"⟩ ⟨"C", "A", "B", "D"⟩ true = some 0 :=
  ⟨rfl, rfl, rfl⟩

end CHARMMParameters

end Imp

namespace Imp

namespace PredicateRestraint

theorem map_get_mem (m : List (Nat × Nat)) (k c : Nat) (h : map_get m k = some c) :
    (k, c) ∈ m := by
  unfold map_get at h
  cases hf : m.find? (fun e => e.1 == k) with
  | none => rw [hf] at h; exact absurd h (by simp)
  | some e =>
    rw [hf] at h
    have h1 := List.mem_of_find?_eq_some hf
    have h2 := List.find?_some hf
    simp only [beq_iff_eq] at h2
    simp only [Option.map_some', Option.some.injEq] at h
    have : e = (k, c) := Prod.ext h2 h
    exact this ▸ h1

theorem map_get_of_mem (m : List (Nat × Nat)) (k c : Nat)
    (hk : (m.map Prod.fst).Nodup) (h : (k, c) ∈ m) : map_get m k = some c := by
  induction m with
  | nil => exact absurd h (by simp)
  | cons x xs ih =>
    unfold map_get
    rw [List.find?_cons]
    simp only [List.map_cons, List.nodup_cons] at hk
    rcases List.mem_cons.1 h with hx | hx
    · rw [← hx]
      simp
    · have hne : (x.1 == k) = false := by
        apply beq_false_of_ne
        intro hxk
        apply hk.1
        rw [hxk]
        exact List.mem_map_of_mem Prod.fst hx
      rw [hne]
      exact ih hk.2 hx

theorem snd_injective (m : List (Nat × Nat)) (hc : (m.map Prod.snd).Nodup)
    (k k' c : Nat) (h : (k, c) ∈ m) (h' : (k', c) ∈ m) : k = k' := by
  have := List.inj_on_of_nodup_map hc h h' rfl
  exact congrArg Prod.fst this

theorem getElem?_add {T : Type} (lists : List (List T)) (c : Nat) (index : T) (j : Nat)
    (hj : j < lists.length) :
    ((add lists c index)[j]?).getD [] =
      (lists[j]?).getD [] ++ if c = j then [index] else [] := by
  unfold add
  rw [List.getElem?_set]
  by_cases h : c = j
  · subst h
    simp [hj]
  · simp [h]

theorem length_add {T : Type} (lists : List (List T)) (c : Nat) (index : T) :
    (add lists c index).length = lists.length := by
  unfold add
  rw [List.length_set]

theorem assign_pair_slot {T Score : Type} (s : State T Score) (lists : List (List T))
    (index : T) :
    assign_pair s lists index =
      match slot s index with
      | some c => .ok (add lists c index, true)
      | none =>
        if s.error_on_unknown_ = true then .error .ValueException else .ok (lists, false) := by
  simp only [assign_pair, slot]
  cases map_get s.containers_ (to_unsigned (s.predicate_ index)) with
  | some c => rfl
  | none =>
    cases s.unknown_container_ with
    | some u => rfl
    | none => rfl

theorem assign_all_ok {T Score : Type} (s : State T Score) :
    ∀ (l : List T) (lists : List (List T)),
      (s.error_on_unknown_ = false ∨ ∀ t ∈ l, slot s t ≠ none) →
      ∃ lists', assign_all s l lists = .ok lists' ∧ lists'.length = lists.length ∧
        ∀ c, c < lists.length →
          (lists'[c]?).getD [] =
            (lists[c]?).getD [] ++ l.filter fun t => slot s t == some c
  | [], lists, _ => ⟨lists, rfl, rfl, fun c _ => by simp⟩
  | t :: rest, lists, h => by
    have hrest : s.error_on_unknown_ = false ∨ ∀ t ∈ rest, slot s t ≠ none :=
      h.imp id (fun h' t ht => h' t (List.mem_cons_of_mem _ ht))
    unfold assign_all
    rw [assign_pair_slot]
    cases hs : slot s t with
    | some c0 =>
      obtain ⟨lists', h1, h2, h3⟩ := assign_all_ok s rest (add lists c0 t) hrest
      refine ⟨lists', h1, by rw [h2, length_add], fun c hc => ?_⟩
      rw [h3 c (by rw [length_add]; exact hc), getElem?_add lists c0 t c hc,
        List.filter_cons, hs]
      by_cases hcc : c0 = c
      · subst hcc
        simp
      · have : ¬ (some c0 == some c) = true := by simpa using hcc
        simp [hcc]
    | none =>
      have hf : s.error_on_unknown_ = false := by
        rcases h with h | h
        · exact h
        · exact absurd hs (h t (List.mem_cons_self _ _))
      obtain ⟨lists', h1, h2, h3⟩ := assign_all_ok s rest lists hrest
      refine ⟨lists', ?_, h2, fun c hc => ?_⟩
      · simp only [hf, Bool.false_eq_true, if_false]
        exact h1
      · rw [h3 c hc, List.filter_cons, hs]
        simp

theorem assign_all_error {T Score : Type} (s : State T Score)
    (herr : s.error_on_unknown_ = true) :
    ∀ (l : List T) (lists : List (List T)), (∃ t ∈ l, slot s t = none) →
      assign_all s l lists = .error .ValueException
  | [], _, h => by
    obtain ⟨t, ht, _⟩ := h
    exact absurd ht (by simp)
  | t :: rest, lists, h => by
    unfold assign_all
    rw [assign_pair_slot]
    cases hs : slot s t with
    | some c0 =>
      obtain ⟨t', ht', hn⟩ := h
      rcases List.mem_cons.1 ht' with heq | hmem
      · rw [heq, hs] at hn
        exact absurd hn (by simp)
      · exact assign_all_error s herr rest _ ⟨t', hmem, hn⟩
    | none =>
      simp only [herr, if_true]

end PredicateRestraint

end Imp

namespace Imp

namespace PredicateRestraint

theorem length_clear_all {T : Type} (m : List (Nat × Nat)) :
    ∀ ls : List (List T), (m.foldl (fun ls e => clear ls e.2) ls).length = ls.length := by
  induction m with
  | nil => intro ls; rfl
  | cons e rest ih =>
    intro ls
    rw [List.foldl_cons, ih]
    unfold clear
    rw [List.length_set]

theorem getElem?_clear_all {T : Type} (m : List (Nat × Nat)) :
    ∀ (ls : List (List T)) (c : Nat), c < ls.length →
      ((m.foldl (fun ls e => clear ls e.2) ls)[c]?).getD [] =
        if c ∈ m.map Prod.snd then [] else (ls[c]?).getD [] := by
  induction m with
  | nil => intro ls c _; simp
  | cons e rest ih =>
    intro ls c hc
    rw [List.foldl_cons, ih (clear ls e.2) c (by unfold clear; rw [List.length_set]; exact hc)]
    unfold clear
    rw [List.getElem?_set]
    by_cases h1 : c ∈ rest.map Prod.snd
    · have : c ∈ (e :: rest).map Prod.snd := by
        rw [List.map_cons]
        exact List.mem_cons_of_mem _ h1
      rw [if_pos h1, if_pos this]
    · rw [if_neg h1]
      by_cases h2 : e.2 = c
      · have : c ∈ (e :: rest).map Prod.snd := by
          rw [List.map_cons, ← h2]
          exact List.mem_cons_self _ _
        rw [if_pos this, if_pos h2, if_pos (h2 ▸ hc)]
        rfl
      · have : ¬ c ∈ (e :: rest).map Prod.snd := by
          rw [List.map_cons, List.mem_cons]
          rintro (h | h)
          · exact h2 h.symm
          · exact h1 h
        rw [if_neg this, if_neg h2]

theorem getElem?_of_getD {T : Type} (l : List (List T)) (c : Nat) (x : List T)
    (hc : c < l.length) (h : (l[c]?).getD [] = x) : l[c]? = some x := by
  rw [List.getElem?_eq_getElem hc] at h ⊢
  simpa using h

theorem slot_eq_none {T Score : Type} (s : State T Score) (t : T) :
    slot s t = none ↔
      s.unknown_container_ = none ∧
        map_get s.containers_ (to_unsigned (s.predicate_ t)) = none := by
  unfold slot
  cases map_get s.containers_ (to_unsigned (s.predicate_ t)) with
  | some c => simp
  | none => simp

theorem slot_lt {T Score : Type} (s : State T Score) (hwf : WellFormed s) (t : T) (c : Nat)
    (h : slot s t = some c) : c < s.lists.length := by
  unfold slot at h
  cases hm : map_get s.containers_ (to_unsigned (s.predicate_ t)) with
  | some c' =>
    rw [hm] at h
    simp only [Option.some.injEq] at h
    subst h
    exact hwf.1 _ (map_get_mem _ _ _ hm)
  | none =>
    rw [hm] at h
    exact (hwf.2.2.2 c h).1

theorem slot_registered {T Score : Type} (s : State T Score) (hwf : WellFormed s)
    (k c : Nat) (hk : map_get s.containers_ k = some c) (t : T) :
    slot s t = some c ↔ to_unsigned (s.predicate_ t) = k := by
  have hmem := map_get_mem _ _ _ hk
  constructor
  · intro h
    unfold slot at h
    cases hm : map_get s.containers_ (to_unsigned (s.predicate_ t)) with
    | some c' =>
      rw [hm] at h
      simp only [Option.some.injEq] at h
      subst h
      exact snd_injective _ hwf.2.2.1 _ _ _ (map_get_mem _ _ _ hm) hmem
    | none =>
      rw [hm] at h
      exact absurd (List.mem_map_of_mem Prod.snd hmem) (hwf.2.2.2 c h).2
  · intro h
    unfold slot
    rw [h, hk]

theorem slot_unknown {T Score : Type} (s : State T Score) (hwf : WellFormed s)
    (u : Nat) (hu : s.unknown_container_ = some u) (t : T) :
    slot s t = some u ↔ map_get s.containers_ (to_unsigned (s.predicate_ t)) = none := by
  unfold slot
  cases hm : map_get s.containers_ (to_unsigned (s.predicate_ t)) with
  | some c' =>
    simp only [Option.some.injEq, reduceCtorEq, iff_false]
    intro h
    subst h
    exact (hwf.2.2.2 c' hu).2 (List.mem_map_of_mem Prod.snd (map_get_mem _ _ _ hm))
  | none =>
    simp only [hu]

end PredicateRestraint

end Imp

namespace Imp

namespace PredicateRestraint

theorem update_lists_ok {T Score : Type} (s : State T Score)
    (h : s.error_on_unknown_ = false ∨ ∀ t ∈ s.input_, slot s t ≠ none) :
    ∃ s', update_lists_if_necessary s = .ok s' ∧
      s'.containers_ = s.containers_ ∧ s'.unknown_container_ = s.unknown_container_ ∧
      s'.input_ = s.input_ ∧ s'.lists.length = s.lists.length ∧
      ∀ c, c < s.lists.length → (c ∈ s.containers_.map Prod.snd ∨ s.unknown_container_ = some c) →
        s'.lists[c]? = some (s.input_.filter fun t => slot s t == some c) := by
  unfold update_lists_if_necessary
  generalize hl0 : (match s.unknown_container_ with
    | some u => clear s.lists u
    | none => s.lists) = l0
  have hlen0 : l0.length = s.lists.length := by
    rw [← hl0]
    cases s.unknown_container_ with
    | none => rfl
    | some u => simp only [clear, List.length_set]
  have hu0 : ∀ u, s.unknown_container_ = some u → (l0[u]?).getD [] = [] := by
    intro u hu
    rw [← hl0, hu]
    simp only [clear, List.getElem?_set, if_true]
    split_ifs <;> rfl
  obtain ⟨lists', h1, h2, h3⟩ := assign_all_ok s s.input_
    (s.containers_.foldl (fun ls e => clear ls e.2) l0) h
  simp only [h1]
  rw [length_clear_all] at h2
  refine ⟨_, rfl, rfl, rfl, rfl, by simp only [h2, hlen0], fun c hc hcase => ?_⟩
  apply getElem?_of_getD _ _ _ (by simp only [h2, hlen0]; exact hc)
  rw [h3 c (by rw [length_clear_all, hlen0]; exact hc),
    getElem?_clear_all _ _ _ (by rw [hlen0]; exact hc)]
  by_cases hmem : c ∈ s.containers_.map Prod.snd
  · rw [if_pos hmem]
    rfl
  · rw [if_neg hmem]
    rcases hcase with hcase | hcase
    · exact absurd hcase hmem
    · rw [hu0 c hcase]
      rfl

theorem slot_mem {T Score : Type} (s : State T Score) (t : T) (c : Nat)
    (h : slot s t = some c) :
    c ∈ s.containers_.map Prod.snd ∨ s.unknown_container_ = some c := by
  unfold slot at h
  cases hm : map_get s.containers_ (to_unsigned (s.predicate_ t)) with
  | some c' =>
    rw [hm] at h
    simp only [Option.some.injEq] at h
    subst h
    exact Or.inl (List.mem_map_of_mem Prod.snd (map_get_mem _ _ _ hm))
  | none =>
    rw [hm] at h
    exact Or.inr h

/-- What `update_lists_if_necessary` does to every list container, also to one that is
no longer named by `containers_` or `unknown_container_`. -/
theorem update_lists_all {T Score : Type} (s : State T Score)
    (h : s.error_on_unknown_ = false ∨ ∀ t ∈ s.input_, slot s t ≠ none) :
    ∃ s', update_lists_if_necessary s = .ok s' ∧
      s'.containers_ = s.containers_ ∧ s'.unknown_container_ = s.unknown_container_ ∧
      s'.input_ = s.input_ ∧ s'.restraints_ = s.restraints_ ∧
      s'.lists.length = s.lists.length ∧
      (∀ c, c < s.lists.length →
        (c ∈ s.containers_.map Prod.snd ∨ s.unknown_container_ = some c) →
        s'.lists[c]? = some (s.input_.filter fun t => slot s t == some c)) ∧
      ∀ c, c ∉ s.containers_.map Prod.snd → s.unknown_container_ ≠ some c →
        s'.lists[c]? = s.lists[c]? := by
  unfold update_lists_if_necessary
  generalize hl0 : (match s.unknown_container_ with
    | some u => clear s.lists u
    | none => s.lists) = l0
  have hlen0 : l0.length = s.lists.length := by
    rw [← hl0]
    cases s.unknown_container_ with
    | none => rfl
    | some u => simp only [clear, List.length_set]
  have hu0 : ∀ u, s.unknown_container_ = some u → (l0[u]?).getD [] = [] := by
    intro u hu
    rw [← hl0, hu]
    simp only [clear, List.getElem?_set, if_true]
    split_ifs <;> rfl
  have hother : ∀ c, s.unknown_container_ ≠ some c → l0[c]? = s.lists[c]? := by
    intro c hc
    rw [← hl0]
    cases hu : s.unknown_container_ with
    | none => rfl
    | some u =>
      have hne : u ≠ c := fun h' => hc (by rw [hu, h'])
      simp only [clear]
      rw [List.getElem?_set_ne hne]
  obtain ⟨lists', h1, h2, h3⟩ := assign_all_ok s s.input_
    (s.containers_.foldl (fun ls e => clear ls e.2) l0) h
  simp only [h1]
  rw [length_clear_all] at h2
  refine ⟨_, rfl, rfl, rfl, rfl, rfl, by simp only [h2, hlen0], fun c hc hcase => ?_,
    fun c hc1 hc2 => ?_⟩
  · apply getElem?_of_getD _ _ _ (by simp only [h2, hlen0]; exact hc)
    rw [h3 c (by rw [length_clear_all, hlen0]; exact hc),
      getElem?_clear_all _ _ _ (by rw [hlen0]; exact hc)]
    by_cases hmem : c ∈ s.containers_.map Prod.snd
    · rw [if_pos hmem]
      rfl
    · rw [if_neg hmem]
      rcases hcase with hcase | hcase
      · exact absurd hcase hmem
      · rw [hu0 c hcase]
        rfl
  · show lists'[c]? = s.lists[c]?
    by_cases hc : c < s.lists.length
    · have hempty : (s.input_.filter fun t => slot s t == some c) = [] := by
        rw [List.filter_eq_nil_iff]
        intro t _ ht
        simp only [beq_iff_eq] at ht
        rcases slot_mem s t c ht with h' | h'
        · exact hc1 h'
        · exact hc2 h'
      have h4 := h3 c (by rw [length_clear_all, hlen0]; exact hc)
      rw [getElem?_clear_all _ _ _ (by rw [hlen0]; exact hc), if_neg hc1, hempty,
        List.append_nil, hother c hc2] at h4
      rw [List.getElem?_eq_getElem hc] at h4 ⊢
      rw [List.getElem?_eq_getElem (by rw [h2, hlen0]; exact hc)] at h4 ⊢
      simpa using h4
    · rw [List.getElem?_eq_none (by rw [h2, hlen0]; omega), List.getElem?_eq_none (by omega)]

/-- Claim C13, as the model of section 4.8 has it. In a restraint whose container map
is well formed, `update_lists_if_necessary` raises a fatal error exactly when
`is_complete` is true, no unknown sub-container is registered and some input tuple has a
predicate value with no registered score. Otherwise it returns, and then the
sub-container registered for a predicate value holds exactly the input tuples with that
value, in input order, and the unknown sub-container, when one is registered, holds
exactly the input tuples whose value has no registered score: of the sub-containers
that are registered, a tuple is in the one that `slot` names and in no other, and in
none when its value has no registered score and no unknown sub-container is registered.
The sub-restraints stay as they were, and a list container that is not registered, as
is one that a later `set_score` for the same value or a later `set_unknown_score` has
replaced, is neither emptied nor filled: it holds what it held before. -/
theorem update_lists_dispatches_each_tuple {T Score : Type} (s : State T Score)
    (hwf : WellFormed s) :
    (update_lists_if_necessary s = .error .ValueException ↔
      s.error_on_unknown_ = true ∧ s.unknown_container_ = none ∧
        ∃ t ∈ s.input_, map_get s.containers_ (to_unsigned (s.predicate_ t)) = none) ∧
    (¬ (s.error_on_unknown_ = true ∧ s.unknown_container_ = none ∧
        ∃ t ∈ s.input_, map_get s.containers_ (to_unsigned (s.predicate_ t)) = none) →
      ∃ s', update_lists_if_necessary s = .ok s' ∧
        s'.containers_ = s.containers_ ∧ s'.unknown_container_ = s.unknown_container_ ∧
        s'.input_ = s.input_ ∧ s'.restraints_ = s.restraints_ ∧
        (∀ k c, map_get s.containers_ k = some c →
          s'.lists[c]? = some (s.input_.filter fun t =>
            decide (to_unsigned (s.predicate_ t) = k))) ∧
        (∀ u, s.unknown_container_ = some u →
          s'.lists[u]? = some (s.input_.filter fun t =>
            (map_get s.containers_ (to_unsigned (s.predicate_ t))).isNone)) ∧
        (∀ t ∈ s.input_, ∀ c,
          (c ∈ s.containers_.map Prod.snd ∨ s.unknown_container_ = some c) →
          ((∃ l, s'.lists[c]? = some l ∧ t ∈ l) ↔ slot s t = some c)) ∧
        (∀ c, c ∉ s.containers_.map Prod.snd → s.unknown_container_ ≠ some c →
          s'.lists[c]? = s.lists[c]?)) := by
  have hiff : (s.error_on_unknown_ = true ∧ s.unknown_container_ = none ∧
      ∃ t ∈ s.input_, map_get s.containers_ (to_unsigned (s.predicate_ t)) = none) ↔
      (s.error_on_unknown_ = true ∧ ∃ t ∈ s.input_, slot s t = none) := by
    constructor
    · rintro ⟨h1, h2, t, ht, h3⟩
      exact ⟨h1, t, ht, (slot_eq_none s t).2 ⟨h2, h3⟩⟩
    · rintro ⟨h1, t, ht, h3⟩
      have := (slot_eq_none s t).1 h3
      exact ⟨h1, this.1, t, ht, this.2⟩
  have hok : ¬ (s.error_on_unknown_ = true ∧ ∃ t ∈ s.input_, slot s t = none) →
      (s.error_on_unknown_ = false ∨ ∀ t ∈ s.input_, slot s t ≠ none) := by
    intro hn
    by_cases he : s.error_on_unknown_ = true
    · right
      intro t ht hs
      exact hn ⟨he, t, ht, hs⟩
    · left
      simpa using he
  rw [hiff]
  constructor
  · constructor
    · intro herr
      by_contra hn
      obtain ⟨s', hs', _⟩ := update_lists_all s (hok hn)
      rw [hs'] at herr
      exact absurd herr (by simp)
    · rintro ⟨he, hex⟩
      unfold update_lists_if_necessary
      simp only [assign_all_error s he s.input_ _ hex]
  · intro hn
    obtain ⟨s', hs', h1, h2, h3, hr, _, h5, h6⟩ := update_lists_all s (hok hn)
    refine ⟨s', hs', h1, h2, h3, hr, fun k c hk => ?_, fun u hu => ?_,
      fun t ht c hc => ?_, h6⟩
    · have hmem := map_get_mem _ _ _ hk
      rw [h5 c (hwf.1 _ hmem) (Or.inl (List.mem_map_of_mem Prod.snd hmem))]
      congr 1
      apply List.filter_congr
      intro t _
      have := slot_registered s hwf k c hk t
      by_cases hq : to_unsigned (s.predicate_ t) = k
      · simp [hq, this.2 hq]
      · have hne : slot s t ≠ some c := fun h' => hq (this.1 h')
        simp [hq, hne]
    · rw [h5 u (hwf.2.2.2 u hu).1 (Or.inr hu)]
      congr 1
      apply List.filter_congr
      intro t _
      have := slot_unknown s hwf u hu t
      by_cases hq : map_get s.containers_ (to_unsigned (s.predicate_ t)) = none
      · simp [hq, this.2 hq]
      · have hne : slot s t ≠ some u := fun h' => hq (this.1 h')
        have hq' : (map_get s.containers_ (to_unsigned (s.predicate_ t))).isNone = false := by
          cases hm : map_get s.containers_ (to_unsigned (s.predicate_ t)) with
          | none => exact absurd hm hq
          | some _ => rfl
        simp [hq', hne]
    · have hlt : c < s.lists.length := by
        rcases hc with hc | hc
        · obtain ⟨e, he, hec⟩ := List.mem_map.1 hc
          exact hec ▸ hwf.1 e he
        · exact (hwf.2.2.2 c hc).1
      rw [h5 c hlt hc]
      constructor
      · rintro ⟨l, hl, htl⟩
        simp only [Option.some.injEq] at hl
        rw [← hl, List.mem_filter] at htl
        simpa using htl.2
      · intro hs
        exact ⟨_, rfl, List.mem_filter.2 ⟨ht, by simp [hs]⟩⟩

end PredicateRestraint

end Imp

namespace Imp

namespace PredicateRestraint

theorem sample_wellFormed (unknown is_complete : Bool) (input : List (Nat × Nat)) :
    WellFormed (sample true unknown is_complete input) := by
  cases unknown
  · refine ⟨by simp [sample], by simp [sample], by simp [sample], ?_⟩
    intro u hu
    simp [sample] at hu
  · refine ⟨by simp [sample], by simp [sample], by simp [sample], ?_⟩
    intro u hu
    simp only [sample, Bool.and_self, if_true, Option.some.injEq] at hu
    subst hu
    simp [sample]

theorem update_lists_dispatches_each_tuple_witness :
    WellFormed sample_three ∧
    ((update_lists_if_necessary sample_three = .error .ValueException ↔
      sample_three.error_on_unknown_ = true ∧ sample_three.unknown_container_ = none ∧
        ∃ t ∈ sample_three.input_,
          map_get sample_three.containers_ (to_unsigned (sample_three.predicate_ t)) = none) ∧
    (¬ (sample_three.error_on_unknown_ = true ∧ sample_three.unknown_container_ = none ∧
        ∃ t ∈ sample_three.input_,
          map_get sample_three.containers_ (to_unsigned (sample_three.predicate_ t)) = none) →
      ∃ s', update_lists_if_necessary sample_three = .ok s' ∧
        s'.containers_ = sample_three.containers_ ∧
        s'.unknown_container_ = sample_three.unknown_container_ ∧
        s'.input_ = sample_three.input_ ∧ s'.restraints_ = sample_three.restraints_ ∧
        (∀ k c, map_get sample_three.containers_ k = some c →
          s'.lists[c]? = some (sample_three.input_.filter fun t =>
            decide (to_unsigned (sample_three.predicate_ t) = k))) ∧
        (∀ u, sample_three.unknown_container_ = some u →
          s'.lists[u]? = some (sample_three.input_.filter fun t =>
            (map_get sample_three.containers_
              (to_unsigned (sample_three.predicate_ t))).isNone)) ∧
        (∀ t ∈ sample_three.input_, ∀ c,
          (c ∈ sample_three.containers_.map Prod.snd ∨
            sample_three.unknown_container_ = some c) →
          ((∃ l, s'.lists[c]? = some l ∧ t ∈ l) ↔ slot sample_three t = some c)) ∧
        (∀ c, c ∉ sample_three.containers_.map Prod.snd →
          sample_three.unknown_container_ ≠ some c →
          s'.lists[c]? = sample_three.lists[c]?))) :=
  ⟨sample_wellFormed true false [(1, 5), (2, 6), (1, 7)],
    update_lists_dispatches_each_tuple sample_three
      (sample_wellFormed true false [(1, 5), (2, 6), (1, 7)])⟩

/-- Claim C13 fails as stated. With a score set for the predicate value 1 only, no
unknown score and `is_complete` false, the input pair `(2, 3)`, whose predicate value is
2, is in no sub-container after `update_lists_if_necessary`; with an unknown score set
and `is_complete` true, the same pair raises no error and goes to the unknown
sub-container. And when, after an update, a second score is set for the predicate value
1, the next update leaves the input pair `(1, 5)` in two sub-containers, each the
container of a sub-restraint: the one that the first score was given, which is no longer
emptied, and the one now registered for the value 1. -/
theorem dropped_and_doubled_tuple_counterexample :
    (∃ s', update_lists_if_necessary (sample true false false [(2, 3)]) = .ok s' ∧
      s'.lists = [[]]) ∧
    (∃ s', update_lists_if_necessary (sample true true true [(2, 3)]) = .ok s' ∧
      s'.lists = [[], [(2, 3)]]) ∧
    (∃ s1 s2 s3, update_lists_if_necessary (sample true false false [(1, 5)]) = .ok s1 ∧
      set_score s1 1 "again" = .ok s2 ∧ WellFormed s2 ∧
      update_lists_if_necessary s2 = .ok s3 ∧
      s3.containers_ = [(1, 1)] ∧ s3.lists = [[(1, 5)], [(1, 5)]] ∧
      s3.restraints_.map (fun r => r.container) = [0, 1]) := by
  refine ⟨⟨_, rfl, rfl⟩, ⟨_, rfl, rfl⟩, ⟨_, _, _, rfl, rfl, ?_, rfl, rfl, rfl, rfl⟩⟩
  refine ⟨?_, ?_, ?_, ?_⟩
  · intro e he
    simp only [map_set, to_unsigned, sample] at he
    simp at he
    subst he
    decide
  · decide
  · decide
  · intro u hu
    exact absurd hu (by simp [sample])

theorem set_score_wellFormed {T Score : Type} (s s' : State T Score) (v : Int)
    (score : Score) (hwf : WellFormed s) (h : set_score s v score = .ok s') :
    WellFormed s' := by
  unfold set_score at h
  cases hm : s.model with
  | none => rw [hm] at h; exact absurd h (by simp)
  | some m =>
    rw [hm] at h
    simp only [Except.ok.injEq] at h
    subst h
    obtain ⟨h1, h2, h3, h4⟩ := hwf
    have hsub : (s.containers_.filter fun e => e.1 != to_unsigned v).Sublist s.containers_ :=
      List.filter_sublist _
    refine ⟨?_, ?_, ?_, ?_⟩
    · intro e he
      simp only [map_set, List.mem_cons] at he
      simp only [List.length_append, List.length_singleton]
      rcases he with he | he
      · rw [he]
        exact Nat.lt_succ_self _
      · exact Nat.lt_succ_of_lt (h1 e (hsub.subset he))
    · simp only [map_set, List.map_cons, List.nodup_cons]
      refine ⟨?_, (hsub.map Prod.fst).nodup h2⟩
      intro hmem
      obtain ⟨e, he, hek⟩ := List.mem_map.1 hmem
      have := (List.mem_filter.1 he).2
      simp [hek] at this
    · simp only [map_set, List.map_cons, List.nodup_cons]
      refine ⟨?_, (hsub.map Prod.snd).nodup h3⟩
      intro hmem
      obtain ⟨e, he, hek⟩ := List.mem_map.1 hmem
      have := h1 e (hsub.subset he)
      omega
    · intro u hu
      obtain ⟨hu1, hu2⟩ := h4 u hu
      simp only [List.length_append, List.length_singleton, map_set, List.map_cons,
        List.mem_cons, not_or]
      refine ⟨Nat.lt_succ_of_lt hu1, by omega, ?_⟩
      intro hmem
      exact hu2 ((hsub.map Prod.snd).subset hmem)

end PredicateRestraint

end Imp

namespace Imp

namespace PredicateRestraint

theorem map_get_set_same (m : List (Nat × Nat)) (k c : Nat) :
    map_get (map_set m k c) k = some c := by
  simp [map_get, map_set]

theorem find?_filter_ne (m : List (Nat × Nat)) (k k' : Nat) (h : k' ≠ k) :
    (m.filter fun e => e.1 != k).find? (fun e => e.1 == k') = m.find? fun e => e.1 == k' := by
  induction m with
  | nil => rfl
  | cons x xs ih =>
    rw [List.filter_cons]
    by_cases hx : x.1 = k
    · have h1 : (x.1 != k) = false := by simp [hx]
      have h2 : (x.1 == k') = false := by
        rw [hx]
        exact beq_false_of_ne (fun h' => h h'.symm)
      rw [h1, List.find?_cons, h2]
      exact ih
    · have h1 : (x.1 != k) = true := by simp [hx]
      rw [h1]
      simp only [if_true, List.find?_cons]
      rw [ih]

theorem map_get_set_other (m : List (Nat × Nat)) (k c k' : Nat) (h : k' ≠ k) :
    map_get (map_set m k c) k' = map_get m k' := by
  unfold map_get map_set
  have hk : (k == k') = false := beq_false_of_ne (fun h' => h h'.symm)
  rw [List.find?_cons]
  simp only [hk]
  rw [find?_filter_ne m k k' h]

theorem to_unsigned_injective (v v' : Int)
    (hv : -2147483648 ≤ v ∧ v < 2147483648) (hv' : -2147483648 ≤ v' ∧ v' < 2147483648)
    (h : to_unsigned v = to_unsigned v') : v = v' := by
  unfold to_unsigned at h
  have h1 : 0 ≤ v % 4294967296 := Int.emod_nonneg _ (by norm_num)
  have h2 : 0 ≤ v' % 4294967296 := Int.emod_nonneg _ (by norm_num)
  have h3 : v % 4294967296 = v' % 4294967296 := by
    have := congrArg (fun n : Nat => (n : Int)) h
    simpa [Int.toNat_of_nonneg h1, Int.toNat_of_nonneg h2] using this
  omega

/-- Claim C14. `set_score` and `set_unknown_score` of the three predicate restraints fail
with a usage error when the restraint is not part of a model. When it is part of the
model `m`, `set_score(v, score)` makes a new, empty list container, appends exactly one
sub-restraint, which applies `score` to that container and is attached to `m`, and makes
the container map hold the new container for the predicate value `v`; the entries for
all other keys of the map, and so for all other predicate values of type `int`, are
unchanged. -/
theorem set_score_needs_model_and_adds_one_restraint {T Score : Type}
    (s : State T Score) (v : Int) (score : Score) :
    (s.model = none →
      set_score s v score = .error .UsageException ∧
      set_unknown_score s score = .error .UsageException) ∧
    (∀ m, s.model = some m →
      ∃ s' r, set_score s v score = .ok s' ∧
        s'.restraints_ = s.restraints_ ++ [r] ∧
        r.score = score ∧ r.model = some m ∧ r.container = s.lists.length ∧
        s'.lists = s.lists ++ [[]] ∧
        map_get s'.containers_ (to_unsigned v) = some s.lists.length ∧
        (∀ k, k ≠ to_unsigned v → map_get s'.containers_ k = map_get s.containers_ k) ∧
        (-2147483648 ≤ v ∧ v < 2147483648 →
          ∀ v', -2147483648 ≤ v' ∧ v' < 2147483648 → v' ≠ v →
            map_get s'.containers_ (to_unsigned v') =
              map_get s.containers_ (to_unsigned v')) ∧
        s'.unknown_container_ = s.unknown_container_ ∧ s'.input_ = s.input_ ∧
        s'.model = s.model) := by
  constructor
  · intro h
    simp only [set_score, set_unknown_score, h, and_self]
  · intro m h
    simp only [set_score, h]
    refine ⟨_, _, rfl, rfl, ?_, ?_, ?_, rfl, map_get_set_same _ _ _,
      fun k hk => map_get_set_other _ _ _ _ hk,
      fun hv v' hv' hne => map_get_set_other _ _ _ _
        (fun h' => hne (to_unsigned_injective v' v hv' hv h')), rfl, rfl, rfl⟩
    · split_ifs <;> rfl
    · split_ifs <;> rfl
    · split_ifs <;> rfl

theorem set_score_needs_model_and_adds_one_restraint_witness :
    (set_score (sample false false false []) 3 "three" = .error .UsageException ∧
      set_unknown_score (sample false false false []) "three" = .error .UsageException) ∧
    ∃ s' r, set_score (sample true false false []) 3 "three" = .ok s' ∧
      s'.restraints_ = (sample true false false []).restraints_ ++ [r] ∧
      r.score = "three" ∧ r.model = some 0 ∧
      r.container = (sample true false false []).lists.length ∧
      s'.lists = (sample true false false []).lists ++ [[]] ∧
      map_get s'.containers_ (to_unsigned 3) = some (sample true false false []).lists.length ∧
      (∀ k, k ≠ to_unsigned 3 →
        map_get s'.containers_ k = map_get (sample true false false []).containers_ k) ∧
      (-2147483648 ≤ (3 : Int) ∧ (3 : Int) < 2147483648 →
        ∀ v', -2147483648 ≤ v' ∧ v' < 2147483648 → v' ≠ 3 →
          map_get s'.containers_ (to_unsigned v') =
            map_get (sample true false false []).containers_ (to_unsigned v')) ∧
      s'.unknown_container_ = (sample true false false []).unknown_container_ ∧
      s'.input_ = (sample true false false []).input_ ∧
      s'.model = (sample true false false []).model :=
  ⟨(set_score_needs_model_and_adds_one_restraint (sample false false false []) 3 "three").1
      rfl,
    (set_score_needs_model_and_adds_one_restraint (sample true false false []) 3 "three").2
      0 rfl⟩

end PredicateRestraint

end Imp

namespace Imp

namespace RSR_Proximity

theorem num_restraints_toNat (n : Nat) :
    (set_up n).num_restraints_.toNat = (index_pairs n).length := by
  have h1 := RSR_Connectivity.length_index_pairs n
  simp only [set_up]
  have h3 : (n : Int) * ((n : Int) - 1) = ((index_pairs n).length : Int) * 2 := by
    generalize (index_pairs n).length = k at h1
    cases n with
    | zero => simp at h1; subst h1; simp
    | succ m =>
      simp only [Nat.add_sub_cancel] at h1
      have := congrArg (fun x : Nat => (x : Int)) h1
      push_cast at this
      push_cast
      linarith
  rw [h3, Int.mul_tdiv_cancel _ (by decide)]
  simp

theorem build_spec : ∀ (l pre : List (Nat × Nat)) (extra : Nat),
    l.foldl build_step
        (some (pre.length, pre.map some ++ List.replicate (l.length + extra) none)) =
      some (pre.length + l.length, (pre ++ l).map some ++ List.replicate extra none)
  | [], pre, extra => by simp
  | p :: rest, pre, extra => by
    rw [List.foldl_cons]
    have hlt : pre.length <
        (pre.map some ++ List.replicate ((p :: rest).length + extra) none).length := by
      simp only [List.length_append, List.length_map, List.length_replicate, List.length_cons]
      omega
    have hset : (pre.map some ++ List.replicate ((p :: rest).length + extra) none).set
        pre.length (some p) =
        (pre ++ [p]).map some ++ List.replicate (rest.length + extra) none := by
      have hl : (pre.map some).length ≤ pre.length := by simp
      rw [List.set_append_right _ _ hl]
      have : (p :: rest).length + extra = (rest.length + extra) + 1 := by
        simp only [List.length_cons]; omega
      rw [this, List.replicate_succ]
      simp
    simp only [build_step, hlt, if_true, hset]
    have := build_spec rest (pre ++ [p]) extra
    simp only [List.length_append, List.length_singleton, List.append_assoc,
      List.singleton_append] at this
    rw [this]
    simp only [List.length_cons]
    congr 2
    omega

theorem proximity_new_eq (n : Nat) :
    new n = some { set_up n with dist_rsrs_ := (index_pairs n).map some } := by
  unfold new
  have hn : (set_up n).num_particles_.toNat = n := by simp [set_up]
  have hd : (set_up n).dist_rsrs_ = List.replicate ((index_pairs n).length + 0) none := by
    rw [← num_restraints_toNat]
    rfl
  have := build_spec (index_pairs n) [] 0
  simp only [List.length_nil, List.map_nil, List.nil_append, List.replicate_zero,
    List.append_nil, Nat.zero_add] at this
  simp only [hn, hd, this, Option.map_some']

theorem evaluate_fold (sc : Nat × Nat → Int) (rs : List (Nat × Nat)) :
    ∀ k, k ≤ rs.length →
      (List.range k).foldl
        (fun score i =>
          match score, (rs.map some)[i]? with
          | some score, some (some r) => some (score + sc r)
          | _, _ => none)
        (some 0) = some ((rs.take k).map sc).sum := by
  intro k
  induction k with
  | zero => intro _; rfl
  | succ k ih =>
    intro hk
    rw [List.range_succ, List.foldl_append, ih (by omega)]
    have hlt : k < rs.length := by omega
    simp only [List.foldl_cons, List.foldl_nil, List.getElem?_map,
      List.getElem?_eq_getElem hlt, Option.map_some']
    rw [List.take_succ, List.getElem?_eq_getElem hlt]
    simp only [Option.toList_some, List.map_append, List.map_cons, List.map_nil,
      List.sum_append, List.sum_cons, List.sum_nil, add_zero]

/-- Claim C17, as the code has it. For `n` particles the constructor of `RSR_Proximity`
builds the distance restraints of all the `n (n - 1) / 2` pairs of particles, and
`evaluate` applies every one of them: it returns the sum of the scores of all the
pairs. -/
theorem proximity_evaluate_returns_sum_of_all_pairs (n : Nat) (sc : Nat × Nat → Int) :
    ∃ st, new n = some st ∧
      st.dist_rsrs_ = (index_pairs n).map some ∧
      st.dist_rsrs_.length = n * (n - 1) / 2 ∧
      (∀ i j, some (i, j) ∈ st.dist_rsrs_ ↔ i < j ∧ j < n) ∧
      evaluate st sc = some ((index_pairs n).map sc).sum := by
  refine ⟨_, proximity_new_eq n, rfl, ?_, ?_, ?_⟩
  · have := RSR_Connectivity.length_index_pairs n
    simp only [List.length_map]
    omega
  · intro i j
    simp only [List.mem_map, Option.some.injEq, exists_eq_right]
    exact RSR_Connectivity.mem_index_pairs n i j
  · unfold evaluate
    simp only [num_restraints_toNat]
    have h := evaluate_fold sc (index_pairs n) _ (le_refl _)
    rw [List.take_length] at h
    exact h

/-- Claim C17 fails as stated. With three particles whose pairs `(0, 1)`, `(0, 2)` and
`(1, 2)` score 1, 2 and 3, `evaluate` returns 6, the sum of the three scores, not 3, the
greatest of them. -/
theorem proximity_greatest_score_counterexample :
    ∃ st, new 3 = some st ∧
      evaluate st (fun p => (p.1 : Int) + p.2) = some 6 ∧
      (st.dist_rsrs_.map fun r => r.map fun p => (p.1 : Int) + p.2) =
        [some 1, some 2, some 3] :=
  ⟨_, rfl, rfl, rfl⟩

end RSR_Proximity

namespace RSR_EM_Coarse

/-- Claim C16, the code at any input. Whatever score `emscore` computes, `evaluate`
returns 0; the gradients that `emscore` leaves are added to the derivative accumulators
of the particles of the restraint exactly when `calc_deriv` is true. -/
theorem em_coarse_evaluate_returns_zero
    (emscore : (Nat → ℚ × ℚ × ℚ) → Nat → List ℚ → List ℚ → Int → ℚ × (Nat → ℚ × ℚ × ℚ))
    (st : State) (coords derivs : Nat → ℚ × ℚ × ℚ) :
    (∀ calc_deriv, (evaluate emscore st coords derivs calc_deriv).1 = 0) ∧
    (evaluate emscore st coords derivs false).2 = derivs ∧
    (∀ i, i < st.num_particles_ →
      (evaluate emscore st coords derivs true).2 i =
        ((derivs i).1 +
            ((emscore (fun i => if i < st.num_particles_ then coords i else (0, 0, 0))
              st.num_particles_ st.radius_ st.weight_ 1).2 i).1,
          (derivs i).2.1 +
            ((emscore (fun i => if i < st.num_particles_ then coords i else (0, 0, 0))
              st.num_particles_ st.radius_ st.weight_ 1).2 i).2.1,
          (derivs i).2.2 +
            ((emscore (fun i => if i < st.num_particles_ then coords i else (0, 0, 0))
              st.num_particles_ st.radius_ st.weight_ 1).2 i).2.2)) ∧
    (evaluate (fun _ _ _ _ _ => (5, fun _ => (0, 0, 0))) st coords derivs false).1 = 0 := by
  refine ⟨fun _ => rfl, rfl, fun i hi => ?_, rfl⟩
  simp only [evaluate, if_true, hi]

end RSR_EM_Coarse

end Imp

namespace Imp

theorem fdiv_zero (a : ℚ) : fdiv a 0 = none := by
  simp [fdiv]

theorem fdiv_of_ne (a b : ℚ) (h : b ≠ 0) : fdiv a b = some (a / b) := by
  simp [fdiv, h]

theorem rat_sqrt_zero : Rat.sqrt 0 = 0 := by decide

theorem rat_sqrt_one : Rat.sqrt 1 = 1 := by decide

namespace RSR_Coordinate

/-- Claim C15, the code at the origin. In each of the four radial modes, for a particle at
`x = y = z = 0` the radial distance is 0, no other value is put in its place, and
`RSR_Coordinate::evaluate` divides the coordinates by it, whatever the score function and
whether derivatives are asked for or not. -/
theorem coordinate_evaluate_divides_by_zero_at_origin (score_func_ : ℚ → ℚ × ℚ)
    (derivs : ℚ × ℚ × ℚ) (calc_deriv : Bool) :
    evaluate Rat.sqrt score_func_ "XY_RADIAL" 0 0 0 derivs calc_deriv = none ∧
    evaluate Rat.sqrt score_func_ "XZ_RADIAL" 0 0 0 derivs calc_deriv = none ∧
    evaluate Rat.sqrt score_func_ "YZ_RADIAL" 0 0 0 derivs calc_deriv = none ∧
    evaluate Rat.sqrt score_func_ "XYZ_SPHERE" 0 0 0 derivs calc_deriv = none := by
  have h2 : Rat.sqrt (0 * 0 + 0 * 0) = 0 := by
    norm_num
  have h3 : Rat.sqrt (0 * 0 + 0 * 0 + 0 * 0) = 0 := by
    norm_num
  refine ⟨?_, ?_, ?_, ?_⟩ <;>
    simp [evaluate, h2, h3, fdiv_zero]

end RSR_Coordinate

end Imp

namespace Imp

namespace RSR_Torus

theorem torus_guard (sqrt : ℚ → ℚ) (x y : ℚ) :
    (if sqrt (x * x + y * y) = 0 then ((1 : ℚ) / 1000, (1 : ℚ) / 1000)
      else (sqrt (x * x + y * y), x)).1 ≠ 0 := by
  split_ifs with h
  · norm_num
  · exact h

theorem torus_evaluate_without_derivatives (sqrt : ℚ → ℚ) (score_func_ : ℚ → ℚ × ℚ)
    (main_radius_ tube_radius_ x y z : ℚ) (derivs : ℚ × ℚ × ℚ) :
    ∃ score, evaluate sqrt score_func_ main_radius_ tube_radius_ x y z derivs false =
      some (score, derivs) := by
  simp only [evaluate, fdiv_of_ne _ _ (torus_guard sqrt x y), Option.some_bind,
    Bool.false_eq_true, if_false]
  exact ⟨_, rfl⟩

theorem torus_on_centre_line (score_func_ : ℚ → ℚ × ℚ) (main_radius_ tube_radius_ : ℚ)
    (derivs : ℚ × ℚ × ℚ) (hm : 0 < main_radius_) :
    evaluate Rat.sqrt score_func_ main_radius_ tube_radius_ main_radius_ 0 0 derivs true =
      none := by
  have h1 : Rat.sqrt (main_radius_ * main_radius_) = main_radius_ := by
    rw [Rat.sqrt_eq, abs_of_pos hm]
  have hne : main_radius_ ≠ 0 := ne_of_gt hm
  have h2 : main_radius_ - main_radius_ * main_radius_ / main_radius_ = 0 := by
    field_simp
  simp only [evaluate, mul_zero, zero_mul, add_zero, h1, if_neg hne, fdiv_of_ne _ _ hne,
    Option.some_bind, h2, zero_div, sub_zero, rat_sqrt_zero, fdiv_zero, Option.none_bind,
    if_true]

/-- Claim C19, the code on the tube centre line. With main radius 1 and tube radius 1 the
particle at `(1, 0, 0)` is within the torus, at distance 0 from the centre of the tube;
asked for derivatives, `RSR_Torus::evaluate` divides by that distance, so that what it
adds to the derivative accumulators is not zero but the result of a division by zero.
Without derivatives it returns the score 0. -/
theorem torus_evaluate_inside_divides_by_zero (score_func_ : ℚ → ℚ × ℚ)
    (derivs : ℚ × ℚ × ℚ) :
    evaluate Rat.sqrt score_func_ 1 1 1 0 0 derivs true = none ∧
    evaluate Rat.sqrt score_func_ 1 1 1 0 0 derivs false = some (0, derivs) := by
  constructor
  · exact torus_on_centre_line score_func_ 1 1 derivs (by norm_num)
  · have h1 : Rat.sqrt (1 * 1 + 0 * 0) = 1 := by
      norm_num
    simp [evaluate, h1, fdiv, rat_sqrt_zero]

/-- Claim C20, the code on the tube centre line. For every main radius greater than 0
and every tube radius, the particle at `(main_radius_, 0, 0)` is at distance 0 from the
centre of the tube, and `RSR_Torus::evaluate`, asked for derivatives, divides by that
distance. -/
theorem torus_evaluate_divides_by_zero_on_centre_line (score_func_ : ℚ → ℚ × ℚ)
    (main_radius_ tube_radius_ : ℚ) (derivs : ℚ × ℚ × ℚ) (hm : 0 < main_radius_) :
    evaluate Rat.sqrt score_func_ main_radius_ tube_radius_ main_radius_ 0 0 derivs true =
      none :=
  torus_on_centre_line score_func_ main_radius_ tube_radius_ derivs hm

theorem torus_evaluate_divides_by_zero_on_centre_line_witness :
    (0 : ℚ) < 2 ∧
      evaluate Rat.sqrt (fun f => (f * f, 2 * f)) 2 (1 / 2) 2 0 0 (0, 0, 0) true = none :=
  ⟨by norm_num,
    torus_evaluate_divides_by_zero_on_centre_line (fun f => (f * f, 2 * f)) 2 (1 / 2)
      (0, 0, 0) (by norm_num)⟩

end RSR_Torus

end Imp

namespace Imp

namespace Representation

theorem scan_nonneg (resolution : ℚ) (type : RepresentationType) :
    ∀ (l : List (RepresentationType × ℚ)) (k : Nat) (c : Int × ℚ), -1 ≤ c.1 →
      (0 ≤ c.1 ∨ ∃ e ∈ l, e.1 = type) →
      0 ≤ ((l.enumFrom k).foldl (scan_step resolution type) c).1
  | [], _, c, _, h => by
    rcases h with h | ⟨e, he, _⟩
    · exact h
    · exact absurd he (by simp)
  | e :: rest, k, c, hc, h => by
    rw [List.enumFrom_cons, List.foldl_cons]
    by_cases ht : e.1 = type
    · have h0 : 0 ≤ (scan_step resolution type c (k, e)).1 := by
        simp only [scan_step, ht, if_true]
        split_ifs with hcond
        · exact Int.natCast_nonneg k
        · have : ¬ c.1 = -1 := fun h' => hcond (Or.inl h')
          omega
      exact scan_nonneg resolution type rest (k + 1) _ (by omega) (Or.inl h0)
    · have hstep : scan_step resolution type c (k, e) = c := by
        simp only [scan_step, ht, if_false]
      rw [hstep]
      refine scan_nonneg resolution type rest (k + 1) c hc ?_
      rcases h with h | ⟨e', he', het⟩
      · exact Or.inl h
      · rcases List.mem_cons.1 he' with heq | hmem
        · exact absurd (heq ▸ het) ht
        · exact Or.inr ⟨e', hmem, het⟩

theorem get_representation_returns_added (base_resolution resolution : ℚ)
    (type : RepresentationType) (l : List (RepresentationType × ℚ))
    (hzero : ¬ (type = .BALLS ∧ resolution = 0 ∧ base_resolution = 0))
    (hadded : ∃ e ∈ l, e.1 = type) :
    ∃ i, get_representation base_resolution (some l) resolution type = .representation i := by
  have h := scan_nonneg resolution type l 0 (-1, base_resolution) (le_refl _) (Or.inr hadded)
  simp only [get_representation, if_neg hzero, List.enum]
  rw [if_neg (by omega)]
  exact ⟨_, rfl⟩

/-- Claim C18, the code at an input where the base resolution is the closest. For a
particle with base resolution 1 and one added `BALLS` representation of resolution 10,
`get_representation(1, BALLS)` returns the added representation, at distance 9 from the
resolution asked for, and not the particle itself, at distance 0: the first added
representation of the type asked for is taken without being compared with the base
resolution. -/
theorem get_representation_takes_first_added_without_comparing :
    get_representation 1 (some [(.BALLS, 10)]) 1 .BALLS = .representation 0 ∧
      get_resolution_distance 1 1 = .num 0 ∧
      get_resolution_distance 1 10 = .num 9 ∧
      Double.lt (.num 0) (.num 9) = true := by
  refine ⟨?_, ?_, ?_, ?_⟩
  · simp [get_representation, scan_step, List.enum, List.enumFrom]
  · simp [get_resolution_distance]
  · norm_num [get_resolution_distance]
  · simp [Double.lt]

end Representation

end Imp

namespace Imp

namespace PredicateRestraint

theorem set_unknown_score_wellFormed {T Score : Type} (s s' : State T Score)
    (score : Score) (hwf : WellFormed s) (h : set_unknown_score s score = .ok s') :
    WellFormed s' := by
  unfold set_unknown_score at h
  cases hm : s.model with
  | none => rw [hm] at h; exact absurd h (by simp)
  | some m =>
    rw [hm] at h
    simp only [Except.ok.injEq] at h
    subst h
    obtain ⟨h1, h2, h3, _⟩ := hwf
    refine ⟨?_, h2, h3, ?_⟩
    · intro e he
      simp only [List.length_append, List.length_singleton]
      exact Nat.lt_succ_of_lt (h1 e he)
    · intro u hu
      simp only [Option.some.injEq] at hu
      subst hu
      simp only [List.length_append, List.length_singleton]
      refine ⟨Nat.lt_succ_self _, ?_⟩
      intro hmem
      obtain ⟨e, he, hek⟩ := List.mem_map.1 hmem
      have := h1 e he
      omega

end PredicateRestraint

end Imp

namespace Imp

namespace domino2

theorem filter_ok_eq_all {U : Type} (filters : List (U → Bool)) (ss : U) :
    filter_ok filters ss = filters.all fun f => f ss := by
  induction filters with
  | nil => rfl
  | cons f rest ih =>
    simp only [filter_ok, List.all_cons, ih]
    cases f ss <;> simp

theorem supported_eq_any {S U : Type} (are_equal : S → S → Bool) (merged : S → S → U)
    (filters : List (U → Bool)) (s0 : S) (nd1 : List S) :
    supported are_equal merged filters s0 nd1 =
      nd1.any fun s1 => are_equal s0 s1 && filters.all fun f => f (merged s0 s1) := by
  induction nd1 with
  | nil => rfl
  | cons s1 rest ih =>
    simp only [supported, List.any_cons, ih, filter_ok_eq_all]
    cases are_equal s0 s1 <;> cases (filters.all fun f => f (merged s0 s1)) <;> simp

theorem find_to_erase_foldl {S : Type} (ok : S → Bool) :
    ∀ (l : List S) (k : Nat) (acc : List Nat),
      (l.enumFrom k).foldl (fun to_erase e => if ok e.2 then to_erase else to_erase ++ [e.1])
        acc = acc ++ ((l.enumFrom k).filter fun e => !ok e.2).map Prod.fst
  | [], _, acc => by simp
  | a :: rest, k, acc => by
    rw [List.enumFrom_cons, List.foldl_cons, find_to_erase_foldl ok rest (k + 1),
      List.filter_cons]
    cases ok a <;> simp

theorem to_erase_snoc {S : Type} (ok : S → Bool) (l : List S) (a : S) :
    (((l ++ [a]).enum.filter fun e => !ok e.2).map Prod.fst) =
      ((l.enum.filter fun e => !ok e.2).map Prod.fst) ++ if ok a then [] else [l.length] := by
  simp only [List.enum, List.enumFrom_append, List.enumFrom_cons, List.enumFrom_nil,
    List.filter_append, List.map_append, Nat.zero_add]
  cases h : ok a <;> simp [List.filter_cons, h]

theorem erase_all_filter {S : Type} (ok : S → Bool) (l : List S) :
    ∀ s : List S,
      (((l.enum.filter fun e => !ok e.2).map Prod.fst).reverse).foldl
        (fun l i => l.eraseIdx i) (l ++ s) = l.filter ok ++ s := by
  induction l using List.reverseRecOn with
  | nil => intro s; rfl
  | append_singleton l a ih =>
    intro s
    rw [to_erase_snoc, List.reverse_append, List.foldl_append]
    cases h : ok a
    · have herase : (l ++ [a] ++ s).eraseIdx l.length = l ++ s := by
        rw [List.append_assoc, List.eraseIdx_append_of_length_le (le_refl _)]
        simp
      simp only [Bool.false_eq_true, if_false, List.reverse_singleton, List.foldl_cons,
        List.foldl_nil, herase, ih s, List.filter_append, List.filter_cons, h,
        List.filter_nil, List.append_nil]
    · simp only [if_true, List.reverse_nil, List.foldl_nil, List.append_assoc, ih ([a] ++ s),
        List.filter_append, List.filter_cons, h, List.filter_nil]

end domino2

end Imp

namespace Imp

namespace domino2

theorem find_to_erase_eq {S U : Type} (are_equal : S → S → Bool) (merged : S → S → U)
    (filters : List (U → Bool)) (nd0 nd1 : List S) :
    find_to_erase are_equal merged filters nd0 nd1 =
      (nd0.enum.filter fun e => !supported are_equal merged filters e.2 nd1).map Prod.fst := by
  unfold find_to_erase
  have := find_to_erase_foldl (fun s => supported are_equal merged filters s nd1) nd0 0 []
  simpa [List.enum] using this

theorem find_to_erase_isEmpty {S U : Type} (are_equal : S → S → Bool) (merged : S → S → U)
    (filters : List (U → Bool)) (nd0 nd1 : List S) :
    (find_to_erase are_equal merged filters nd0 nd1).isEmpty = false ↔
      ∃ s0 ∈ nd0, supported are_equal merged filters s0 nd1 = false := by
  rw [find_to_erase_eq]
  constructor
  · intro h
    cases hl : (nd0.enum.filter fun e => !supported are_equal merged filters e.2 nd1) with
    | nil => rw [hl] at h; simp at h
    | cons e rest =>
      have he : e ∈ nd0.enum.filter fun e => !supported are_equal merged filters e.2 nd1 := by
        rw [hl]; exact List.mem_cons_self _ _
      obtain ⟨h1, h2⟩ := List.mem_filter.1 he
      refine ⟨e.2, ?_, by simpa using h2⟩
      obtain ⟨hlt, hget⟩ := List.mem_enum h1
      exact hget ▸ List.getElem_mem hlt
  · rintro ⟨s0, hs, hf⟩
    obtain ⟨i, hi, hget⟩ := List.getElem_of_mem hs
    have hmem : (i, s0) ∈ nd0.enum.filter
        fun e => !supported are_equal merged filters e.2 nd1 := by
      rw [List.mem_filter]
      refine ⟨?_, by simp [hf]⟩
      rw [List.mk_mem_enum_iff_getElem?, List.getElem?_eq_getElem hi, hget]
    cases hl : (nd0.enum.filter fun e => !supported are_equal merged filters e.2 nd1) with
    | nil => rw [hl] at hmem; simp at hmem
    | cons e rest => simp

/-- Claim C25. `loopy_filter_edge` leaves in `nd0` exactly those of its states, in their
order, for which some state of `nd1` agrees with it on the intersection subset and gives
a merged state that every filter of the edge accepts; it leaves `nd1` as it was; and it
returns true exactly when at least one state was removed from `nd0`. -/
theorem loopy_filter_edge_keeps_supported_states {S U : Type} (are_equal : S → S → Bool)
    (merged : S → S → U) (filters : List (U → Bool)) (nd0 nd1 : List S) :
    (loopy_filter_edge are_equal merged filters nd0 nd1).nd0 =
        nd0.filter (fun s0 =>
          nd1.any fun s1 => are_equal s0 s1 && filters.all fun f => f (merged s0 s1)) ∧
      (∀ s0, (nd1.any fun s1 => are_equal s0 s1 && filters.all fun f => f (merged s0 s1)) =
          true ↔
        ∃ s1 ∈ nd1, are_equal s0 s1 = true ∧ ∀ f ∈ filters, f (merged s0 s1) = true) ∧
      (loopy_filter_edge are_equal merged filters nd0 nd1).nd1 = nd1 ∧
      ((loopy_filter_edge are_equal merged filters nd0 nd1).changed = true ↔
        (loopy_filter_edge are_equal merged filters nd0 nd1).nd0.length < nd0.length) ∧
      ((loopy_filter_edge are_equal merged filters nd0 nd1).changed = true ↔
        ∃ s0 ∈ nd0, ¬ ∃ s1 ∈ nd1, are_equal s0 s1 = true ∧
          ∀ f ∈ filters, f (merged s0 s1) = true) := by
  have hprop : ∀ s0,
      (nd1.any fun s1 => are_equal s0 s1 && filters.all fun f => f (merged s0 s1)) = true ↔
        ∃ s1 ∈ nd1, are_equal s0 s1 = true ∧ ∀ f ∈ filters, f (merged s0 s1) = true := by
    intro s0
    simp only [List.any_eq_true, Bool.and_eq_true, List.all_eq_true]
  have hfun : (fun s0 => supported are_equal merged filters s0 nd1) = fun s0 =>
      nd1.any fun s1 => are_equal s0 s1 && filters.all fun f => f (merged s0 s1) := by
    funext s0
    exact supported_eq_any are_equal merged filters s0 nd1
  have hnd0 : (loopy_filter_edge are_equal merged filters nd0 nd1).nd0 =
      nd0.filter fun s0 => supported are_equal merged filters s0 nd1 := by
    simp only [loopy_filter_edge, erase_all, find_to_erase_eq]
    have := erase_all_filter (fun s0 => supported are_equal merged filters s0 nd1) nd0 []
    simpa using this
  have hchanged : (loopy_filter_edge are_equal merged filters nd0 nd1).changed = true ↔
      ∃ s0 ∈ nd0, supported are_equal merged filters s0 nd1 = false := by
    rw [← find_to_erase_isEmpty]
    simp only [loopy_filter_edge, Bool.not_eq_true', Bool.not_eq_false']
  refine ⟨?_, hprop, rfl, ?_, ?_⟩
  · rw [hnd0, hfun]
  · rw [hchanged, hnd0, List.length_filter_lt_length_iff_exists]
    simp only [Bool.not_eq_true]
  · rw [hchanged]
    constructor
    · rintro ⟨s0, hs, hf⟩
      refine ⟨s0, hs, fun hex => ?_⟩
      have := (hprop s0).2 hex
      rw [← supported_eq_any, hf] at this
      exact absurd this (by simp)
    · rintro ⟨s0, hs, hn⟩
      refine ⟨s0, hs, ?_⟩
      cases hsup : supported are_equal merged filters s0 nd1 with
      | false => rfl
      | true =>
        rw [supported_eq_any] at hsup
        exact absurd ((hprop s0).1 hsup) hn

end domino2

end Imp

namespace Imp

namespace DerivativesFromRefined

theorem keys_loop {P K : Type} [DecidableEq P] [DecidableEq K] (p q : P) (hq : q ≠ p)
    (da : ℚ → ℚ) :
    ∀ (ks : List K) (st : State P K),
      (ks.foldl (fun st ksj => add_to_derivative st p ksj (get_derivative st q ksj) da)
          st).value = st.value ∧
        ∀ r k,
          (ks.foldl (fun st ksj => add_to_derivative st p ksj (get_derivative st q ksj) da)
              st).derivative r k =
            if r = p then st.derivative r k + ks.count k * da (st.derivative q k)
            else st.derivative r k
  | [], st => by
    refine ⟨rfl, fun r k => ?_⟩
    simp
  | ksj :: rest, st => by
    rw [List.foldl_cons]
    obtain ⟨hv, hd⟩ := keys_loop p q hq da rest
      (add_to_derivative st p ksj (get_derivative st q ksj) da)
    refine ⟨by rw [hv]; rfl, fun r k => ?_⟩
    rw [hd r k]
    have hqd : ∀ k', (add_to_derivative st p ksj (get_derivative st q ksj) da).derivative q k' =
        st.derivative q k' := by
      intro k'
      simp only [add_to_derivative, hq, false_and, if_false]
    by_cases hr : r = p
    · subst hr
      rw [if_pos rfl, if_pos rfl, hqd k]
      simp only [add_to_derivative, get_derivative, true_and, List.count_cons]
      by_cases hk : k = ksj
      · subst hk
        simp only [if_true, beq_self_eq_true]
        push_cast
        ring
      · have hk' : ¬ ksj = k := fun h => hk h.symm
        simp only [hk, if_false, beq_iff_eq, hk']
        push_cast
        ring
    · rw [if_neg hr, if_neg hr]
      simp only [add_to_derivative, hr, false_and, if_false]

theorem particles_loop {P K : Type} [DecidableEq P] [DecidableEq K] (p : P) (ks : List K)
    (da : ℚ → ℚ) :
    ∀ (ps : List P) (st : State P K), p ∉ ps →
      (ps.foldl
          (fun st psi =>
            ks.foldl
              (fun st ksj => add_to_derivative st p ksj (get_derivative st psi ksj) da) st)
          st).value = st.value ∧
        ∀ r k,
          (ps.foldl
              (fun st psi =>
                ks.foldl
                  (fun st ksj => add_to_derivative st p ksj (get_derivative st psi ksj) da)
                  st)
              st).derivative r k =
            if r = p then
              st.derivative r k + ks.count k * (ps.map fun q => da (st.derivative q k)).sum
            else st.derivative r k
  | [], st, _ => by
    refine ⟨rfl, fun r k => ?_⟩
    simp
  | q :: rest, st, hp => by
    have hq : q ≠ p := fun h => hp (h ▸ List.mem_cons_self _ _)
    have hrest : p ∉ rest := fun h => hp (List.mem_cons_of_mem _ h)
    rw [List.foldl_cons]
    obtain ⟨hv1, hd1⟩ := keys_loop p q hq da ks st
    obtain ⟨hv, hd⟩ := particles_loop p ks da rest
      (ks.foldl (fun st ksj => add_to_derivative st p ksj (get_derivative st q ksj) da) st)
      hrest
    refine ⟨by rw [hv, hv1], fun r k => ?_⟩
    rw [hd r k]
    have hmap : (rest.map fun q' =>
        da ((ks.foldl (fun st ksj => add_to_derivative st p ksj (get_derivative st q ksj) da)
          st).derivative q' k)) = rest.map fun q' => da (st.derivative q' k) := by
      apply List.map_congr_left
      intro q' hq'
      have hne : q' ≠ p := fun h => hrest (h ▸ hq')
      rw [hd1 q' k, if_neg hne]
    rw [hmap, hd1 r k]
    by_cases hr : r = p
    · simp only [hr, if_true, List.map_cons, List.sum_cons]
      ring
    · simp only [hr, if_false]

end DerivativesFromRefined

end Imp

namespace Imp

namespace DerivativesFromRefined

/-- Claim C21, as the code has it. For a particle `p` that is not one of its refined
particles `ps`, `apply` adds to the derivative of `p` for the key `k`, once for every
occurrence of `k` in `ks_`, the sum over `ps` of their derivatives for `k`, each scaled
by the accumulator; it leaves the derivatives of all other particles, the refined ones
among them, and all attribute values as they were. When no key occurs twice in `ks_`, the
derivative of `p` for each key of `ks_` grows by exactly that sum. -/
theorem apply_adds_refined_derivatives_per_key_occurrence {P K : Type} [DecidableEq P]
    [DecidableEq K] (get_refined : P → List P) (ks_ : List K) (st : State P K) (p : P)
    (da : ℚ → ℚ) (hp : p ∉ get_refined p) :
    (∀ k, (apply get_refined ks_ st p da).derivative p k =
      st.derivative p k +
        ks_.count k * ((get_refined p).map fun q => da (st.derivative q k)).sum) ∧
    (∀ q, q ≠ p → ∀ k, (apply get_refined ks_ st p da).derivative q k = st.derivative q k) ∧
    (∀ q ∈ get_refined p, ∀ k,
      (apply get_refined ks_ st p da).derivative q k = st.derivative q k) ∧
    (apply get_refined ks_ st p da).value = st.value ∧
    (ks_.Nodup → ∀ k ∈ ks_, (apply get_refined ks_ st p da).derivative p k =
      st.derivative p k + ((get_refined p).map fun q => da (st.derivative q k)).sum) := by
  obtain ⟨hv, hd⟩ := particles_loop p ks_ da (get_refined p) st hp
  have h1 : ∀ k, (apply get_refined ks_ st p da).derivative p k =
      st.derivative p k +
        ks_.count k * ((get_refined p).map fun q => da (st.derivative q k)).sum := by
    intro k
    have := hd p k
    rw [if_pos rfl] at this
    exact this
  have h2 : ∀ q, q ≠ p → ∀ k,
      (apply get_refined ks_ st p da).derivative q k = st.derivative q k := by
    intro q hq k
    have := hd q k
    rw [if_neg hq] at this
    exact this
  refine ⟨h1, h2, fun q hq k => h2 q (fun h => hp (h ▸ hq)) k, hv, fun hnd k hk => ?_⟩
  rw [h1 k, List.count_eq_one_of_mem hnd hk]
  simp

theorem apply_adds_refined_derivatives_per_key_occurrence_witness :
    (0 : Nat) ∉ (fun _ : Nat => [1, 2]) 0 ∧
    (∀ k, (apply (fun _ => [1, 2]) [0, 1] sample_state 0 (fun v => 2 * v)).derivative 0 k =
      sample_state.derivative 0 k +
        [0, 1].count k *
          (((fun _ : Nat => [1, 2]) 0).map fun q =>
            (fun v => 2 * v) (sample_state.derivative q k)).sum) ∧
    (∀ q, q ≠ 0 → ∀ k,
      (apply (fun _ => [1, 2]) [0, 1] sample_state 0 (fun v => 2 * v)).derivative q k =
        sample_state.derivative q k) ∧
    (∀ q ∈ (fun _ : Nat => [1, 2]) 0, ∀ k,
      (apply (fun _ => [1, 2]) [0, 1] sample_state 0 (fun v => 2 * v)).derivative q k =
        sample_state.derivative q k) ∧
    (apply (fun _ => [1, 2]) [0, 1] sample_state 0 (fun v => 2 * v)).value =
      sample_state.value ∧
    (([0, 1] : List Nat).Nodup → ∀ k ∈ ([0, 1] : List Nat),
      (apply (fun _ => [1, 2]) [0, 1] sample_state 0 (fun v => 2 * v)).derivative 0 k =
        sample_state.derivative 0 k +
          (((fun _ : Nat => [1, 2]) 0).map fun q =>
            (fun v => 2 * v) (sample_state.derivative q k)).sum) :=
  ⟨by decide,
    apply_adds_refined_derivatives_per_key_occurrence (fun _ => [1, 2]) [0, 1] sample_state 0
      (fun v => 2 * v) (by decide)⟩

/-- Claim C21 fails as stated. With the keys `[0, 0]`, one refined particle 1 whose
derivative for the key 0 is 1, and an accumulator that leaves values as they are,
`apply` takes the derivative of the particle 0 for the key 0 from 0 to 2, while the sum
over the refined particles of their derivative for that key is 1. -/
theorem repeated_key_counterexample :
    (apply (fun _ => [1]) [0, 0] sample_state 0 id).derivative 0 0 = 2 ∧
      sample_state.derivative 0 0 = 0 ∧
      (((fun _ : Nat => [1]) 0).map fun q => id (sample_state.derivative q 0)).sum = 1 ∧
      (0 : Nat) ∉ (fun _ : Nat => [1]) 0 := by
  refine ⟨?_, ?_, ?_, by decide⟩
  · norm_num [apply, add_to_derivative, get_derivative, sample_state]
  · norm_num [sample_state]
  · norm_num [sample_state]

end DerivativesFromRefined

end Imp

namespace Imp

namespace RestraintData

theorem find_assign_same (m : List (Assignment × ℚ)) (ss : Assignment) (s : ℚ) :
    find (assign m ss s) ss = some s := by
  simp [find, assign]

theorem find_assign_other (m : List (Assignment × ℚ)) (ss ss' : Assignment) (s : ℚ)
    (h : ss' ≠ ss) : find (assign m ss s) ss' = find m ss' := by
  unfold find assign
  have hk : (ss == ss') = false := beq_false_of_ne (fun h' => h h'.symm)
  rw [List.find?_cons]
  simp only [hk]
  congr 1
  induction m with
  | nil => rfl
  | cons x xs ih =>
    rw [List.filter_cons]
    by_cases hx : x.1 = ss
    · have h1 : (x.1 != ss) = false := by simp [hx]
      have h2 : (x.1 == ss') = false := by
        rw [hx]
        exact hk
      rw [h1, List.find?_cons, h2]
      exact ih
    · have h1 : (x.1 != ss) = true := by simp [hx]
      rw [h1]
      simp only [if_true, List.find?_cons]
      rw [ih]

theorem get_score_keeps {P : Type} (env : Env P) (Filter : Bool) (rd : State)
    (ps : List P) (state ss : Assignment) (s : ℚ)
    (hc : rd.cache_ = true) (hs : find rd.scores_ ss = some s) (r : ℚ × State)
    (h : get_score env Filter rd ps state = .ok r) :
    r.2.cache_ = true ∧ find r.2.scores_ ss = some s := by
  unfold get_score at h
  rw [hc] at h
  simp only [if_true] at h
  cases hf : find rd.scores_ state with
  | some score =>
    rw [hf] at h
    simp only at h
    have hr : r.2 = rd := by
      split_ifs at h
      · split at h
        · exact absurd h (by simp)
        · split_ifs at h
          simp only [Except.ok.injEq] at h
          rw [← h]
      · simp only [Except.ok.injEq] at h
        rw [← h]
    rw [hr]
    exact ⟨hc, hs⟩
  | none =>
    rw [hf] at h
    simp only at h
    have hne : ss ≠ state := by
      intro heq
      rw [heq, hf] at hs
      exact absurd hs (by simp)
    split at h
    · exact absurd h (by simp)
    · rename_i score _
      simp only [Except.ok.injEq] at h
      rw [← h]
      cases Filter
      · simp only [Bool.false_eq_true, if_false, hc, if_true]
        exact ⟨trivial, by rw [find_assign_other _ _ _ _ hne]; exact hs⟩
      · simp only [if_true, hc]
        exact ⟨trivial, by rw [find_assign_other _ _ _ _ hne]; exact hs⟩

end RestraintData

end Imp

namespace Imp

namespace RestraintData

theorem set_score_error_iff (rd : State) (ss : Assignment) (s : ℚ) :
    set_score rd ss s = .error .UsageException ↔ ∃ s0, find rd.scores_ ss = some s0 := by
  unfold set_score
  cases find rd.scores_ ss with
  | none => simp
  | some s0 => simp

theorem after_keeps {P : Type} (env : Env P) (rd : State) (ss : Assignment) (s : ℚ)
    (c : Call P) (hne : c ≠ .set_use_caching false)
    (hc : rd.cache_ = true) (hs : find rd.scores_ ss = some s) :
    (after env rd c).cache_ = true ∧ find (after env rd c).scores_ ss = some s := by
  cases c with
  | set_score ss' s' =>
    simp only [after, set_score]
    cases hf : find rd.scores_ ss' with
    | some _ => exact ⟨hc, hs⟩
    | none =>
      have hne' : ss ≠ ss' := by
        intro heq
        rw [heq, hf] at hs
        exact absurd hs (by simp)
      exact ⟨hc, by rw [find_assign_other _ _ _ _ hne']; exact hs⟩
  | set_max max => exact ⟨hc, hs⟩
  | get_score Filter ps state =>
    simp only [after]
    cases hg : get_score env Filter rd ps state with
    | error e => exact ⟨hc, hs⟩
    | ok r => exact get_score_keeps env Filter rd ps state ss s hc hs r hg
  | set_use_caching tf =>
    cases tf with
    | false => exact absurd rfl hne
    | true => exact ⟨rfl, hs⟩

theorem calls_keep {P : Type} (env : Env P) (ss : Assignment) (s : ℚ) :
    ∀ (calls : List (Call P)) (rd : State), (∀ c ∈ calls, c ≠ .set_use_caching false) →
      rd.cache_ = true → find rd.scores_ ss = some s →
      (calls.foldl (after env) rd).cache_ = true ∧
        find (calls.foldl (after env) rd).scores_ ss = some s
  | [], _, _, hc, hs => ⟨hc, hs⟩
  | c :: rest, rd, hne, hc, hs => by
    rw [List.foldl_cons]
    obtain ⟨hc1, hs1⟩ := after_keeps env rd ss s c (hne c (List.mem_cons_self _ _)) hc hs
    exact calls_keep env ss s rest _ (fun c' hc' => hne c' (List.mem_cons_of_mem _ hc')) hc1 hs1

theorem get_score_cached {P : Type} (env : Env P) (Filter : Bool) (rd : State)
    (ps : List P) (ss : Assignment) (s : ℚ)
    (hc : rd.cache_ = true) (hs : find rd.scores_ ss = some s) :
    (env.internal_checks = false → get_score env Filter rd ps ss = .ok (s, rd)) ∧
    (∀ r, get_score env Filter rd ps ss = .ok r → r = (s, rd)) ∧
    (∀ e, get_score env Filter rd ps ss = .error e →
      env.internal_checks = true ∧ (e = .InternalException ∨ e = .UsageException)) := by
  unfold get_score
  rw [hc]
  simp only [if_true, hs]
  cases hi : env.internal_checks with
  | false => simp
  | true =>
    simp only [if_true, Bool.true_eq_false, false_implies, true_and]
    unfold compute_score
    by_cases hlen : ps.length = ss.length
    · simp only [hlen, if_true]
      constructor
      · intro r h
        split at h
        · exact absurd h (by simp)
        · split_ifs at h
          simp only [Except.ok.injEq] at h
          exact h.symm
      · intro e h
        split at h
        · rename_i e' heq
          split_ifs at heq
        · split_ifs at h <;> simp only [Except.error.injEq, reduceCtorEq] at h
          · exact Or.inl h.symm
          · exact Or.inl h.symm
    · simp only [hlen, if_false]
      constructor
      · intro r h
        exact absurd h (by simp)
      · intro e h
        simp only [Except.error.injEq] at h
        exact Or.inr h.symm

end RestraintData

end Imp

namespace Imp

namespace RestraintData

theorem get_score_stores {P : Type} (env : Env P) (Filter : Bool) (rd : State)
    (ps : List P) (state : Assignment) (hc : rd.cache_ = true) (r : ℚ × State)
    (h : get_score env Filter rd ps state = .ok r) :
    ∃ s0, find r.2.scores_ state = some s0 := by
  cases hf : find rd.scores_ state with
  | some s0 => exact ⟨s0, (get_score_keeps env Filter rd ps state state s0 hc hf r h).2⟩
  | none =>
    unfold get_score at h
    rw [hc] at h
    simp only [if_true, hf] at h
    split at h
    · exact absurd h (by simp)
    · rename_i score _
      simp only [Except.ok.injEq] at h
      rw [← h]
      cases Filter
      · simp only [Bool.false_eq_true, if_false, hc, if_true]
        exact ⟨score, find_assign_same _ _ _⟩
      · simp only [if_true, hc]
        exact ⟨score, find_assign_same _ _ _⟩

/-- Claim C22, as the code has it. `set_score(state, s)` fails with a usage error exactly
when a score is already stored for the state, preloaded or cached by `get_score`, and
then leaves the members as they were. Otherwise it stores `s` and leaves the scores of
all other states as they were; and, caching being enabled and staying so, after any
later calls `get_score` for the state returns `s` when internal checks are off, and when
they are on returns `s` or fails: no other value is returned, and a failure is that of
an internal check of `s` against the score computed again, or of the usage check of
`load_particle_states`. -/
theorem set_score_once_then_get_score_returns_it {P : Type} (env : Env P) (rd : State)
    (ss : Assignment) (s : ℚ) :
    (set_score rd ss s = .error .UsageException ↔ ∃ s0, find rd.scores_ ss = some s0) ∧
    ((∃ s0, find rd.scores_ ss = some s0) → after env rd (.set_score ss s) = rd) ∧
    (∀ Filter ps r, rd.cache_ = true → get_score env Filter rd ps ss = .ok r →
      set_score r.2 ss s = .error .UsageException) ∧
    (find rd.scores_ ss = none →
      ∃ rd1, set_score rd ss s = .ok rd1 ∧ find rd1.scores_ ss = some s ∧
        (∀ ss', ss' ≠ ss → find rd1.scores_ ss' = find rd.scores_ ss') ∧
        rd1.cache_ = rd.cache_ ∧ rd1.max_ = rd.max_ ∧
        (rd.cache_ = true → ∀ calls : List (Call P),
          (∀ c ∈ calls, c ≠ .set_use_caching false) → ∀ Filter ps,
            (env.internal_checks = false →
              get_score env Filter (calls.foldl (after env) rd1) ps ss =
                .ok (s, calls.foldl (after env) rd1)) ∧
            (∀ r, get_score env Filter (calls.foldl (after env) rd1) ps ss = .ok r →
              r = (s, calls.foldl (after env) rd1)) ∧
            (∀ e, get_score env Filter (calls.foldl (after env) rd1) ps ss = .error e →
              env.internal_checks = true ∧
                (e = .InternalException ∨ e = .UsageException)))) := by
  refine ⟨set_score_error_iff rd ss s, ?_, ?_, ?_⟩
  · rintro ⟨s0, hs0⟩
    simp only [after, set_score, hs0]
  · intro Filter ps r hc h
    exact (set_score_error_iff _ _ _).2 (get_score_stores env Filter rd ps ss hc r h)
  · intro hnone
    refine ⟨{ rd with scores_ := assign rd.scores_ ss s }, ?_, find_assign_same _ _ _,
      fun ss' hne => find_assign_other _ _ _ _ hne, rfl, rfl, ?_⟩
    · simp only [set_score, hnone]
    · intro hc calls hcalls Filter ps
      obtain ⟨hc2, hs2⟩ := calls_keep env ss s calls
        { rd with scores_ := assign rd.scores_ ss s } hcalls hc (find_assign_same _ _ _)
      exact get_score_cached env Filter _ ps ss s hc2 hs2

theorem set_score_once_then_get_score_returns_it_witness :
    ∃ rd1, set_score (new 1000) [0] 5 = .ok rd1 ∧
      get_score (sample_env false) false
          ([Call.get_score true [()] [1], Call.set_max 7, Call.set_score [0] 9].foldl
            (after (sample_env false)) rd1) [()] [0] =
        .ok (5, [Call.get_score true [()] [1], Call.set_max 7, Call.set_score [0] 9].foldl
          (after (sample_env false)) rd1) := by
  obtain ⟨rd1, h1, _, _, _, _, h6⟩ :=
    (set_score_once_then_get_score_returns_it (sample_env false) (new 1000) [0] 5).2.2.2 rfl
  refine ⟨rd1, h1, (h6 rfl _ ?_ false [()]).1 rfl⟩
  intro c hc
  simp only [List.mem_cons, List.mem_singleton, List.not_mem_nil, or_false] at hc
  rcases hc with rfl | rfl | rfl <;> simp

/-- Claim C22 fails as stated. With caching enabled and internal checks on, after
`set_score(state, 100)` for a state whose computed score is 0, `get_score` for that state
does not return 100: the internal check of the stored score against the computed one
fails. -/
theorem preloaded_score_internal_check_counterexample :
    ∃ rd1, set_score (new 1000) [0] 100 = .ok rd1 ∧ rd1.cache_ = true ∧
      get_score (sample_env true) false rd1 [()] [0] = .error .InternalException := by
  refine ⟨_, rfl, rfl, ?_⟩
  simp only [get_score, compute_score, sample_env, new, assign, find]
  norm_num

end RestraintData

end Imp

namespace Imp

namespace RSR_Pair_Connectivity

theorem count_true_set (l : List Bool) (i : Nat) (h : l[i]? = some false) :
    (l.set i true).count true = l.count true + 1 := by
  obtain ⟨hlt, hget⟩ := List.getElem?_eq_some_iff.1 h
  rw [List.count_set true true l i hlt, hget]
  simp

theorem used_at_natCast (used_ : List Bool) (i : Nat) : used_at used_ (i : Int) = used_[i]? := by
  unfold used_at
  rw [if_pos (Int.natCast_nonneg i), Int.toNat_ofNat]

theorem exists_unused (l : List Bool) (h : l.count true < l.length) :
    ∃ i : Nat, l[i]? = some false := by
  by_contra hn
  have hall : ∀ b ∈ l, true = b := by
    intro b hb
    obtain ⟨i, hi, hget⟩ := List.getElem_of_mem hb
    cases b with
    | true => rfl
    | false =>
      exact absurd (⟨i, by rw [List.getElem?_eq_getElem hi, hget]⟩ :
        ∃ i : Nat, l[i]? = some false) hn
  have := List.count_eq_length.2 hall
  omega

/-- One step of the selection loop without reuse, for an entry between the two groups. -/
theorem select_step_match {n1 n2 : Nat} {sc : Nat × Nat → Int} {s : Selection} {i j : Nat}
    (hInv : MatchInv n1 n2 s) (hi : i < n1) (hj1 : n1 ≤ j) (hj2 : j < n1 + n2) :
    ∃ s1,
      select_step sc false s
          { part1_idx_ := i, part2_idx_ := j, rsr_ := some (i, j), score_ := sc (i, j) } =
        some s1 ∧
      MatchInv n1 n2 s1 ∧
      Covered s1.used_
        { part1_idx_ := i, part2_idx_ := j, rsr_ := some (i, j), score_ := sc (i, j) } ∧
      (∀ x, used_at s.used_ x = some true → used_at s1.used_ x = some true) ∧
      s.num_applied ≤ s1.num_applied ∧ s1.num_applied ≤ s.num_applied + 1 := by
  obtain ⟨hlen, hc1, hc2, happ⟩ := hInv
  have hilt : i < s.used_.length := by omega
  have hjlt : j < s.used_.length := by omega
  have hui : used_at s.used_ (i : Int) = some s.used_[i] := by
    rw [used_at_natCast, List.getElem?_eq_getElem hilt]
  have huj : used_at s.used_ (j : Int) = some s.used_[j] := by
    rw [used_at_natCast, List.getElem?_eq_getElem hjlt]
  cases h1 : s.used_[i] with
  | true =>
    rw [h1] at hui
    refine ⟨s, ?_, ⟨hlen, hc1, hc2, happ⟩, Or.inl hui, fun _ h => h, le_refl _, by omega⟩
    simp [select_step, may_apply, hui]
  | false =>
    rw [h1] at hui
    cases h2 : s.used_[j] with
    | true =>
      rw [h2] at huj
      refine ⟨s, ?_, ⟨hlen, hc1, hc2, happ⟩, Or.inr huj, fun _ h => h, le_refl _, by omega⟩
      simp [select_step, may_apply, hui, huj]
    | false =>
      rw [h2] at huj
      have hlen1 : (s.used_.set i true).length = s.used_.length := List.length_set _ _ _
      have hm1 : mark_used s.used_ (i : Int) = some (s.used_.set i true) := by
        have := mark_used_eq (Int.natCast_nonneg i)
          (show (i : Int).toNat < s.used_.length by rw [Int.toNat_ofNat]; exact hilt)
        rwa [Int.toNat_ofNat] at this
      have hm2 : mark_used (s.used_.set i true) (j : Int) =
          some ((s.used_.set i true).set j true) := by
        have := mark_used_eq (Int.natCast_nonneg j)
          (show (j : Int).toNat < (s.used_.set i true).length by
            rw [Int.toNat_ofNat, hlen1]; exact hjlt)
        rwa [Int.toNat_ofNat] at this
      have htake : ((s.used_.set i true).set j true).take n1 = (s.used_.take n1).set i true := by
        rw [List.set_take, List.set_take,
          List.set_eq_of_length_le (l := (s.used_.take n1).set i true)]
        rw [List.length_set, List.length_take]
        omega
      have hdrop : ((s.used_.set i true).set j true).drop n1 =
          (s.used_.drop n1).set (j - n1) true := by
        rw [List.drop_set, if_neg (by omega), List.drop_set_of_lt true s.used_ hi]
      have hti : (s.used_.take n1)[i]? = some false := by
        rw [List.getElem?_take, if_pos hi, List.getElem?_eq_getElem hilt, h1]
      have hdj : (s.used_.drop n1)[j - n1]? = some false := by
        rw [List.getElem?_drop, show n1 + (j - n1) = j by omega,
          List.getElem?_eq_getElem hjlt, h2]
      refine ⟨{ used_ := (s.used_.set i true).set j true
                score := s.score + sc (i, j)
                num_applied := s.num_applied + 1
                applied := s.applied ++
                  [{ part1_idx_ := i, part2_idx_ := j, rsr_ := some (i, j),
                     score_ := sc (i, j) }] }, ?_, ⟨?_, ?_, ?_, ?_⟩, ?_, ?_, by simp, by simp⟩
      · simp [select_step, may_apply, hui, huj, hm1, hm2]
      · simp [hlen]
      · show ((((s.used_.set i true).set j true).take n1).count true : Int) = s.num_applied + 1
        rw [htake, count_true_set _ _ hti]
        push_cast
        omega
      · show ((((s.used_.set i true).set j true).drop n1).count true : Int) = s.num_applied + 1
        rw [hdrop, count_true_set _ _ hdj]
        push_cast
        omega
      · show (((s.applied ++ [_]).length : Nat) : Int) = s.num_applied + 1
        rw [List.length_append, List.length_singleton]
        push_cast
        omega
      · right
        show used_at ((s.used_.set i true).set j true) (j : Int) = some true
        rw [used_at_natCast, List.getElem?_set_self (by rw [hlen1]; exact hjlt)]
      · intro x hx
        show used_at ((s.used_.set i true).set j true) x = some true
        unfold used_at at hx ⊢
        by_cases h0 : 0 ≤ x
        · rw [if_pos h0] at hx ⊢
          rw [List.getElem?_set, List.getElem?_set]
          split_ifs <;> first | rfl | exact hx | omega
        · rw [if_neg h0] at hx
          exact absurd hx (by simp)

end RSR_Pair_Connectivity

end Imp

namespace Imp

namespace RSR_Pair_Connectivity

/-- The selection loop without reuse on entries between the two groups: it ends, never
applies more than `k` entries, and, when it has applied fewer, every entry of the list
has a position marked used. -/
theorem select_loop_match {n1 n2 : Nat} {sc : Nat × Nat → Int} (k : Int) :
    ∀ (L : List Restraint_Score) (s : Selection), MatchInv n1 n2 s →
      (∀ e ∈ L, e ∈ candidate_edges n1 n2 sc) → s.num_applied ≤ k →
      ∃ s1, select_loop sc false k L s = some s1 ∧ MatchInv n1 n2 s1 ∧
        s1.num_applied ≤ k ∧ (s1.num_applied < k → ∀ e ∈ L, Covered s1.used_ e) ∧
        ∀ x, used_at s.used_ x = some true → used_at s1.used_ x = some true := by
  intro L
  induction L with
  | nil => intro s h _ hk; exact ⟨s, rfl, h, hk, fun _ e he => absurd he (by simp), fun _ h => h⟩
  | cons e L ih =>
    intro s hInv hL hk
    by_cases hgo : s.num_applied < k
    · obtain ⟨i, j, hi, hj1, hj2, rfl⟩ := pair_mem_candidate_edges (hL e (List.mem_cons_self _ _))
      obtain ⟨s0, h0, hInv0, hcov0, hmono0, _, hle0⟩ :=
        @select_step_match _ _ sc _ _ _ hInv hi hj1 hj2
      obtain ⟨s1, h1, hInv1, hk1, hcov1, hmono1⟩ :=
        ih s0 hInv0 (fun f hf => hL f (List.mem_cons_of_mem _ hf)) (by omega)
      refine ⟨s1, by simp only [select_loop, hgo, if_true, h0, h1], hInv1, hk1, ?_,
        fun x hx => hmono1 x (hmono0 x hx)⟩
      intro hlt f hf
      rcases List.mem_cons.1 hf with rfl | hf'
      · rcases hcov0 with h | h
        · exact Or.inl (hmono1 _ h)
        · exact Or.inr (hmono1 _ h)
      · exact hcov1 hlt f hf'
    · refine ⟨s, by simp only [select_loop, hgo, if_false], hInv, hk, fun h => absurd h hgo,
        fun _ h => h⟩

theorem count_true_map_false (l : List Bool) : (l.map fun _ => false).count true = 0 := by
  rw [List.count_eq_zero]
  intro h
  obtain ⟨_, _, hb⟩ := List.mem_map.1 h
  exact absurd hb (by simp)

theorem matchInv_init (n1 n2 : Nat) (used_ : List Bool) (hlen : used_.length = n1 + n2) :
    MatchInv n1 n2 { used_ := used_.map fun _ => false, score := 0, num_applied := 0,
                     applied := [] } := by
  refine ⟨by simp [hlen], ?_, ?_, rfl⟩
  · show (((used_.map fun _ => false).take n1).count true : Int) = 0
    rw [← List.map_take, count_true_map_false]
    rfl
  · show (((used_.map fun _ => false).drop n1).count true : Int) = 0
    rw [← List.map_drop, count_true_map_false]
    rfl

/-- A selection that keeps `MatchInv`, has applied at most `k` entries and covers every
candidate entry when it has applied fewer, has applied `min(k, n1, n2)` entries. -/
theorem matchInv_num_applied {n1 n2 : Nat} {sc : Nat × Nat → Int} {k : Int} {s : Selection}
    (hInv : MatchInv n1 n2 s) (hk : s.num_applied ≤ k)
    (hcov : s.num_applied < k → ∀ e ∈ candidate_edges n1 n2 sc, Covered s.used_ e) :
    s.num_applied = min k (min (n1 : Int) n2) := by
  obtain ⟨hlen, hc1, hc2, _⟩ := hInv
  have hl1 : (s.used_.take n1).length = n1 := by rw [List.length_take]; omega
  have hl2 : (s.used_.drop n1).length = n2 := by rw [List.length_drop]; omega
  have hle1 := List.count_le_length true (s.used_.take n1)
  have hle2 := List.count_le_length true (s.used_.drop n1)
  have hfull : s.num_applied < k → ¬ (s.num_applied < n1 ∧ s.num_applied < n2) := by
    rintro hlt ⟨h1, h2⟩
    obtain ⟨i, hi⟩ := exists_unused (s.used_.take n1) (by omega)
    obtain ⟨j, hj⟩ := exists_unused (s.used_.drop n1) (by omega)
    have hi1 : i < n1 := by
      have := (List.getElem?_eq_some_iff.1 hi).1
      omega
    have hj1 : j < n2 := by
      have := (List.getElem?_eq_some_iff.1 hj).1
      omega
    rw [List.getElem?_take, if_pos hi1] at hi
    rw [List.getElem?_drop] at hj
    have hcross : (i, n1 + j) ∈ cross_pairs n1 n2 :=
      (mem_cross_pairs n1 n2 i (n1 + j)).2 ⟨hi1, by omega, by omega⟩
    have hmem : _ ∈ candidate_edges n1 n2 sc := List.mem_map_of_mem _ hcross
    have hc := hcov hlt _ hmem
    simp only [Covered] at hc
    rcases hc with h | h
    · rw [used_at_natCast, hi] at h
      exact absurd h (by simp)
    · rw [used_at_natCast, hj] at h
      exact absurd h (by simp)
  rw [hl1] at hle1
  rw [hl2] at hle2
  have hn1 : s.num_applied ≤ n1 := by omega
  have hn2 : s.num_applied ≤ n2 := by omega
  by_cases hlt : s.num_applied < k
  · have := hfull hlt
    simp only [min_def]
    split_ifs <;> omega
  · simp only [min_def]
    split_ifs <;> omega

end RSR_Pair_Connectivity

end Imp

namespace Imp

namespace RSR_Pair_Connectivity

/-- A call to `evaluate` without reuse on a well-formed restraint applies
`min(k, n1, n2)` entries. -/
theorem pair_evaluate_run_match {n1 n2 : Nat} {st : State} (hWF : WellFormed n1 n2 st)
    (hre : st.particle_reuse_ = false) (sc : Nat × Nat → Int) (hk : 0 ≤ st.num_to_apply_) :
    ∃ r, evaluate_run st sc = some r ∧
      r.1.num_applied = min st.num_to_apply_ (min (n1 : Int) n2) ∧
      (r.1.applied.length : Int) = min st.num_to_apply_ (min (n1 : Int) n2) := by
  obtain ⟨hlen, sc0, hperm⟩ := hWF
  have hnonnull : ∀ rs ∈ st.rsr_scores_, ∃ p, rs.rsr_ = some p := by
    intro rs hrs
    obtain ⟨i, j, _, _, _, rfl⟩ := pair_mem_candidate_edges (hperm.subset hrs)
    exact ⟨(i, j), rfl⟩
  have hscore := pair_score_all_eq sc st.rsr_scores_ hnonnull
  have hperm2 : (sort (st.rsr_scores_.map (rescore sc))).Perm (candidate_edges n1 n2 sc) := by
    refine (pair_sort_perm _).trans ?_
    rw [← pair_rescore_candidate_edges n1 n2 sc0 sc]
    exact hperm.map _
  obtain ⟨s1, hloop, hInv, hle, hcov, _⟩ := @select_loop_match _ _ sc st.num_to_apply_
    (sort (st.rsr_scores_.map (rescore sc))) _ (matchInv_init n1 n2 st.used_ hlen)
    (fun e he => hperm2.subset he) hk
  have hnum := @matchInv_num_applied _ _ sc _ _ hInv hle
    (fun hlt e he => hcov hlt e (hperm2.symm.subset he))
  refine ⟨(s1, { st with used_ := s1.used_,
                          rsr_scores_ := sort (st.rsr_scores_.map (rescore sc)) }),
    ?_, hnum, ?_⟩
  · simp only [evaluate_run, hscore, hre, hloop]
  · show (s1.applied.length : Int) = _
    rw [hInv.2.2.2, hnum]

/-- Claim C23. For all group sizes `n1` and `n2`, all score assignments and every
`k ≥ 0`, also after any number of earlier calls, `evaluate` with `particle_reuse = false`
returns and applies exactly `min(k, n1, n2)` entries: the size of a largest matching
between the two groups, unless `k` is smaller. -/
theorem pair_evaluate_applies_min_of_k_and_group_sizes (n1 n2 : Nat) (k : Int)
    (prev : List (Nat × Nat → Int)) (sc : Nat × Nat → Int) (hk : 0 ≤ k) :
    ∃ st0 st r, new n1 n2 k false = .ok st0 ∧ evaluate_passes st0 prev = some st ∧
      evaluate_run st sc = some r ∧
      r.1.num_applied = min k (min (n1 : Int) n2) ∧
      (r.1.applied.length : Int) = min k (min (n1 : Int) n2) := by
  obtain ⟨st0, h0, hWF0, hf0, hk0⟩ := pair_new_wellFormed n1 n2 k false
  obtain ⟨st, h1, hWF, hf, hk1⟩ := pair_evaluate_passes_wellFormed prev st0 hWF0
  have hkst : st.num_to_apply_ = k := hk1.trans hk0
  obtain ⟨r, hr, hn, ha⟩ := pair_evaluate_run_match hWF (hf.trans hf0) sc (by rw [hkst]; exact hk)
  rw [hkst] at hn ha
  exact ⟨st0, st, r, h0, h1, hr, hn, ha⟩

theorem pair_evaluate_applies_min_of_k_and_group_sizes_witness :
    (0 : Int) ≤ 5 ∧
      ∃ st0 st r, new 2 3 5 false = .ok st0 ∧
        evaluate_passes st0 [fun p => (p.1 : Int) + p.2] = some st ∧
        evaluate_run st (fun p => (p.1 : Int) * p.2) = some r ∧
        r.1.num_applied = min 5 (min ((2 : Nat) : Int) (3 : Nat)) ∧
        (r.1.applied.length : Int) = min 5 (min ((2 : Nat) : Int) (3 : Nat)) :=
  ⟨by decide,
    pair_evaluate_applies_min_of_k_and_group_sizes 2 3 5 [fun p => (p.1 : Int) + p.2]
      (fun p => (p.1 : Int) * p.2) (by decide)⟩

end RSR_Pair_Connectivity

end Imp

namespace Imp

theorem int32_of_range (x : Int) (h0 : 0 ≤ x) (h1 : x < 2147483648) : int32 x = x := by
  unfold int32
  omega

theorem foldl_build_step_none (l : List (Nat × Nat)) :
    l.foldl RSR_Proximity.build_step none = none := by
  induction l with
  | nil => rfl
  | cons p rest ih => rw [List.foldl_cons]; exact ih

/-- The restraint-creating loop of `RSR_Proximity` stores outside of the vector when the
pairs outnumber its entries. -/
theorem build_overrun :
    ∀ (l : List (Nat × Nat)) (idx : Nat) (rs : List (Option (Nat × Nat))),
      idx ≤ rs.length → rs.length < idx + l.length →
      l.foldl RSR_Proximity.build_step (some (idx, rs)) = none
  | [], idx, rs, h1, h2 => by
    simp only [List.length_nil, Nat.add_zero] at h2
    omega
  | p :: rest, idx, rs, h1, h2 => by
    rw [List.foldl_cons]
    by_cases hlt : idx < rs.length
    · simp only [RSR_Proximity.build_step, hlt, if_true]
      apply build_overrun rest (idx + 1)
      · rw [List.length_set]; omega
      · rw [List.length_set]
        simp only [List.length_cons] at h2
        omega
    · simp only [RSR_Proximity.build_step, hlt, if_false]
      exact foldl_build_step_none rest

theorem count_restraints32_of_no_same (pt : List Int) :
    ∀ (pairs : List (Nat × Nat)) (start : Int),
      (∀ p ∈ pairs, pt.getD p.2 0 ≠ pt.getD p.1 0) →
      RSR_Connectivity.count_restraints32 pt pairs start = start := by
  intro pairs
  induction pairs with
  | nil => intro start _; rfl
  | cons p rest ih =>
    intro start h
    have hp := h p (List.mem_cons_self _ _)
    simp only [RSR_Connectivity.count_restraints32, List.foldl_cons, hp, if_false]
    exact ih start fun q hq => h q (List.mem_cons_of_mem _ hq)

theorem getD_range_cast (n i : Nat) (h : i < n) :
    ((List.range n).map Int.ofNat).getD i 0 = (i : Int) := by
  rw [List.getD_eq_getElem _ _ (by simpa using h)]
  simp

theorem range_types_differ (n : Nat) :
    ∀ p ∈ index_pairs n,
      ((List.range n).map Int.ofNat).getD p.2 0 ≠ ((List.range n).map Int.ofNat).getD p.1 0 := by
  intro p hp
  obtain ⟨h1, h2⟩ := (RSR_Connectivity.mem_index_pairs n p.1 p.2).1 hp
  rw [getD_range_cast n p.2 h2, getD_range_cast n p.1 (by omega)]
  omega

end Imp

namespace Imp

theorem pair_new32_overrun (k : Int) (reuse : Bool) :
    RSR_Pair_Connectivity.new32 65536 65536 k reuse =
      some (.error (.out_of_range "Reached end of rsr_scores too early")) := by
  have hc : int32 (((65536 : Nat) : Int) * ((65536 : Nat) : Int)) = 0 := by
    unfold int32
    norm_num
  have hlen := RSR_Pair_Connectivity.length_cross_pairs 65536 65536
  have hn : (((65536 : Nat) : Int)).toNat = 65536 := Int.toNat_ofNat _
  simp only [RSR_Pair_Connectivity.new32, RSR_Pair_Connectivity.set_up, hc, hn,
    RSR_Pair_Connectivity.pair_fill_spec, hlen, Int.toNat_zero, List.replicate_zero,
    List.length_nil, le_refl, if_true]
  rw [if_pos (by norm_num), if_neg (by norm_num)]
  rfl

theorem proximity_new32_overrun : RSR_Proximity.new32 65537 = some none := by
  have hc : Int.tdiv (int32 (((65537 : Nat) : Int) * (((65537 : Nat) : Int) - 1))) 2 = 32768 := by
    have h : int32 (((65537 : Nat) : Int) * (((65537 : Nat) : Int) - 1)) = 65536 := by
      unfold int32
      norm_num
    rw [h]
    rfl
  have hlen := RSR_Connectivity.length_index_pairs 65537
  have hn : (((65537 : Nat) : Int)).toNat = 65537 := Int.toNat_ofNat _
  have hover := build_overrun (index_pairs 65537) 0 (List.replicate 32768 none)
    (Nat.zero_le _) (by rw [List.length_replicate]; omega)
  simp only [RSR_Proximity.new32, RSR_Proximity.set_up, hc, hn]
  rw [if_pos (by norm_num), if_pos (by norm_num)]
  have h32 : (32768 : Int).toNat = 32768 := rfl
  rw [h32, hover]
  rfl

theorem connectivity_new32_overrun_of (types : List Int) (hl : types.length = 65537)
    (hdiff : ∀ p ∈ index_pairs 65537, types.getD p.2 0 ≠ types.getD p.1 0) :
    RSR_Connectivity.new32 types =
      some (.error (.out_of_range "Over ran the calculated number of restraints")) := by
  have hpt : (RSR_Connectivity.set_up types).particle_type_ = types :=
    (RSR_Connectivity.scan_spec types).1
  have hnp : (RSR_Connectivity.set_up types).num_particles_ = ((65537 : Nat) : Int) := by
    show ((types.length : Nat) : Int) = _
    rw [hl]
  have hc : Int.tdiv (int32 (((65537 : Nat) : Int) * (((65537 : Nat) : Int) - 1))) 2 = 32768 := by
    have h : int32 (((65537 : Nat) : Int) * (((65537 : Nat) : Int) - 1)) = 65536 := by
      unfold int32
      norm_num
    rw [h]
    rfl
  have hn : (((65537 : Nat) : Int)).toNat = 65537 := Int.toNat_ofNat _
  have hcount := count_restraints32_of_no_same types (index_pairs 65537) 32768 hdiff
  have hfilter : (index_pairs 65537).filter (fun p =>
      types.getD p.2 0 ≠ types.getD p.1 0) = index_pairs 65537 := by
    rw [List.filter_eq_self]
    intro p hp
    simpa using hdiff p hp
  have hlen := RSR_Connectivity.length_index_pairs 65537
  unfold RSR_Connectivity.new32
  rw [if_pos (by rw [hl]; norm_num)]
  simp only [hpt, hnp, hl, hc, hcount, hn, RSR_Connectivity.fill_spec, hfilter,
    List.length_replicate]
  rw [if_pos (by norm_num), if_neg (by
    have h32 : (32768 : Int).toNat = 32768 := rfl
    rw [h32]
    omega)]
  rfl

end Imp

namespace Imp

/-- While the count fits in 32 bits, the constructor of `RSR_Proximity` is the one with
unbounded integers. -/
theorem proximity_new32_eq_new (n : Nat) (hn : n < 2147483648)
    (hprod : n * (n - 1) < 2147483648) :
    RSR_Proximity.new32 n = some (RSR_Proximity.new n) := by
  have hcast : (n : Int) * ((n : Int) - 1) = ((n * (n - 1) : Nat) : Int) := by
    cases n with
    | zero => simp
    | succ m => push_cast; simp
  have hc : int32 ((n : Int) * ((n : Int) - 1)) = (n : Int) * ((n : Int) - 1) := by
    rw [hcast]
    apply int32_of_range
    · exact Int.natCast_nonneg _
    · exact_mod_cast hprod
  have h0 : (0 : Int) ≤ Int.tdiv ((n : Int) * ((n : Int) - 1)) 2 := by
    rw [hcast]
    exact Int.tdiv_nonneg (Int.natCast_nonneg _) (by norm_num)
  simp only [RSR_Proximity.new32, RSR_Proximity.new, RSR_Proximity.set_up, hn, if_true, hc, h0]

theorem count_restraints_cons (pt : List Int) (p : Nat × Nat) (rest : List (Nat × Nat))
    (start : Int) :
    RSR_Connectivity.count_restraints pt (p :: rest) start =
      RSR_Connectivity.count_restraints pt rest
        (if pt.getD p.2 0 = pt.getD p.1 0 then start - 1 else start) := by
  simp only [RSR_Connectivity.count_restraints, List.foldl_cons]

theorem count_restraints32_cons (pt : List Int) (p : Nat × Nat) (rest : List (Nat × Nat))
    (start : Int) :
    RSR_Connectivity.count_restraints32 pt (p :: rest) start =
      RSR_Connectivity.count_restraints32 pt rest
        (if pt.getD p.2 0 = pt.getD p.1 0 then int32 (start - 1) else start) := by
  simp only [RSR_Connectivity.count_restraints32, List.foldl_cons]

theorem count_restraints_le (pt : List Int) (pairs : List (Nat × Nat)) (start : Int) :
    RSR_Connectivity.count_restraints pt pairs start ≤ start := by
  rw [RSR_Connectivity.count_restraints_eq]
  have : (0 : Int) ≤ ((pairs.filter fun q => pt.getD q.2 0 = pt.getD q.1 0).length : Int) :=
    Int.natCast_nonneg _
  omega

theorem count_restraints32_eq (pt : List Int) :
    ∀ (pairs : List (Nat × Nat)) (start : Int),
      0 ≤ RSR_Connectivity.count_restraints pt pairs start → start < 2147483648 →
      RSR_Connectivity.count_restraints32 pt pairs start =
        RSR_Connectivity.count_restraints pt pairs start := by
  intro pairs
  induction pairs with
  | nil =>
    intro start _ _
    simp only [RSR_Connectivity.count_restraints32, RSR_Connectivity.count_restraints,
      List.foldl_nil]
  | cons p rest ih =>
    intro start h0 h1
    rw [count_restraints_cons] at h0 ⊢
    rw [count_restraints32_cons]
    by_cases hp : pt.getD p.2 0 = pt.getD p.1 0
    · rw [if_pos hp] at h0 ⊢
      rw [if_pos hp]
      have hle := count_restraints_le pt rest (start - 1)
      have hs : (0 : Int) ≤ start - 1 := le_trans h0 hle
      rw [int32_of_range (start - 1) hs (by omega)]
      exact ih (start - 1) h0 (by omega)
    · rw [if_neg hp] at h0 ⊢
      rw [if_neg hp]
      exact ih start h0 h1

/-- While the count fits in 32 bits, the constructor of `RSR_Connectivity` is the one with
unbounded integers. -/
theorem connectivity_new32_eq_new (types : List Int) (hn : types.length < 2147483648)
    (hprod : types.length * (types.length - 1) < 2147483648) :
    RSR_Connectivity.new32 types = some (RSR_Connectivity.new types) := by
  have hcast : (types.length : Int) * ((types.length : Int) - 1)
      = ((types.length * (types.length - 1) : Nat) : Int) := by
    cases types.length with
    | zero => simp
    | succ m => push_cast; simp
  have hc : int32 ((types.length : Int) * ((types.length : Int) - 1))
      = (types.length : Int) * ((types.length : Int) - 1) := by
    rw [hcast]
    apply int32_of_range
    · exact Int.natCast_nonneg _
    · exact_mod_cast hprod
  have hnum := RSR_Connectivity.num_restraints_eq types
  have hstart : Int.tdiv ((types.length : Int) * ((types.length : Int) - 1)) 2 < 2147483648 := by
    rw [hcast]
    have h1 : Int.tdiv ((types.length * (types.length - 1) : Nat) : Int) 2
        ≤ ((types.length * (types.length - 1) : Nat) : Int) := by
      rw [Int.tdiv_eq_ediv (Int.natCast_nonneg _) (by norm_num)]
      exact Int.ediv_le_self _ (Int.natCast_nonneg _)
    have h2 : ((types.length * (types.length - 1) : Nat) : Int) < 2147483648 := by
      exact_mod_cast hprod
    exact lt_of_le_of_lt h1 h2
  have hcount : RSR_Connectivity.count_restraints32 (RSR_Connectivity.set_up types).particle_type_
        (index_pairs types.length)
        (Int.tdiv ((types.length : Int) * ((types.length : Int) - 1)) 2)
      = (RSR_Connectivity.set_up types).num_restraints_ := by
    rw [count_restraints32_eq _ _ _ _ hstart]
    · rfl
    · have h0 : (0 : Int) ≤ (RSR_Connectivity.set_up types).num_restraints_ := by
        rw [hnum]; exact Int.natCast_nonneg _
      exact h0
  have h0 : (0 : Int) ≤ (RSR_Connectivity.set_up types).num_restraints_ := by
    rw [hnum]; exact Int.natCast_nonneg _
  have hnp : (RSR_Connectivity.set_up types).num_particles_ = (types.length : Int) := rfl
  have hrs : (RSR_Connectivity.set_up types).rsr_scores_
      = List.replicate (RSR_Connectivity.set_up types).num_restraints_.toNat
          RSR_Connectivity.Restraint_Score.empty := rfl
  unfold RSR_Connectivity.new32 RSR_Connectivity.new
  simp only [hn, if_true, hnp, hc, hcount, h0, hrs]

end Imp

namespace Imp

theorem int32_lt (x : Int) : int32 x < 2147483648 := by
  unfold int32
  omega

theorem int32_congr (x : Int) : ∃ t : Int, int32 x = x - 4294967296 * t := by
  refine ⟨(x + 2147483648) / 4294967296, ?_⟩
  unfold int32
  omega

theorem count_restraints32_lt (pt : List Int) :
    ∀ (pairs : List (Nat × Nat)) (start : Int), start < 2147483648 →
      RSR_Connectivity.count_restraints32 pt pairs start < 2147483648 := by
  intro pairs
  induction pairs with
  | nil =>
    intro start h
    simpa only [RSR_Connectivity.count_restraints32, List.foldl_nil] using h
  | cons p rest ih =>
    intro start h
    rw [count_restraints32_cons]
    by_cases hp : pt.getD p.2 0 = pt.getD p.1 0
    · rw [if_pos hp]
      exact ih _ (int32_lt _)
    · rw [if_neg hp]
      exact ih _ h

/-- The count kept in 32 bits differs from the exact count by a multiple of `2^32`. -/
theorem count_restraints32_congr (pt : List Int) :
    ∀ (pairs : List (Nat × Nat)) (s s' t : Int), s = s' - 4294967296 * t →
      ∃ u : Int, RSR_Connectivity.count_restraints32 pt pairs s =
        RSR_Connectivity.count_restraints pt pairs s' - 4294967296 * u := by
  intro pairs
  induction pairs with
  | nil =>
    intro s s' t h
    refine ⟨t, ?_⟩
    simpa only [RSR_Connectivity.count_restraints32, RSR_Connectivity.count_restraints,
      List.foldl_nil] using h
  | cons p rest ih =>
    intro s s' t h
    rw [count_restraints32_cons, count_restraints_cons]
    by_cases hp : pt.getD p.2 0 = pt.getD p.1 0
    · rw [if_pos hp, if_pos hp]
      obtain ⟨t1, ht1⟩ := int32_congr (s - 1)
      exact ih _ _ (t + t1) (by rw [ht1, h]; ring)
    · rw [if_neg hp, if_neg hp]
      exact ih _ _ t h

theorem tdiv_two_lt (x : Int) (h : x < 2147483648) : Int.tdiv x 2 < 1073741824 := by
  by_cases h0 : 0 ≤ x
  · rw [Int.tdiv_eq_ediv h0 (by norm_num)]
    omega
  · have h1 : (0 : Int) ≤ -x := by omega
    have h2 : Int.tdiv x 2 = -Int.tdiv (-x) 2 := by
      rw [Int.neg_tdiv, neg_neg]
    rw [h2, Int.tdiv_eq_ediv h1 (by norm_num)]
    omega

/-- A restraint that the constructor of `RSR_Proximity` returns in 32 bits is the one that
the constructor with unbounded integers returns: when the count does not fit, the
constructor stores outside of `dist_rsrs_`. -/
theorem proximity_new32_ok (n : Nat) (st : RSR_Proximity.State)
    (h : RSR_Proximity.new32 n = some (some st)) :
    n * (n - 1) < 2147483648 ∧ RSR_Proximity.new n = some st := by
  have hn : n < 2147483648 := by
    by_contra hs
    simp only [RSR_Proximity.new32, hs, if_false] at h
    exact Option.noConfusion h
  have hprod : n * (n - 1) < 2147483648 := by
    by_contra hp
    have hlt := int32_lt ((n : Int) * ((n : Int) - 1))
    have hlen := RSR_Connectivity.length_index_pairs n
    simp only [RSR_Proximity.new32, RSR_Proximity.set_up, hn, if_true, Int.toNat_ofNat] at h
    by_cases h0 : 0 ≤ Int.tdiv (int32 ((n : Int) * ((n : Int) - 1))) 2
    · rw [if_pos h0] at h
      have hc := tdiv_two_lt _ hlt
      have hover := build_overrun (index_pairs n) 0
        (List.replicate (Int.tdiv (int32 ((n : Int) * ((n : Int) - 1))) 2).toNat none)
        (Nat.zero_le _) (by rw [List.length_replicate]; omega)
      rw [hover] at h
      exact Option.noConfusion (Option.some.inj h)
    · rw [if_neg h0] at h
      exact Option.noConfusion h
  refine ⟨hprod, ?_⟩
  rw [proximity_new32_eq_new n hn hprod] at h
  exact Option.some.inj h

/-- When the count kept in 32 bits is the exact count, the constructor of
`RSR_Connectivity` is the one with unbounded integers. -/
theorem connectivity_new32_of_count (types : List Int) (hn : types.length < 2147483648)
    (hcount : RSR_Connectivity.count_restraints32 (RSR_Connectivity.set_up types).particle_type_
        (index_pairs types.length)
        (Int.tdiv (int32 ((types.length : Int) * ((types.length : Int) - 1))) 2)
      = (RSR_Connectivity.set_up types).num_restraints_) :
    RSR_Connectivity.new32 types = some (RSR_Connectivity.new types) := by
  have h0 : (0 : Int) ≤ (RSR_Connectivity.set_up types).num_restraints_ := by
    rw [RSR_Connectivity.num_restraints_eq]; exact Int.natCast_nonneg _
  have hnp : (RSR_Connectivity.set_up types).num_particles_ = (types.length : Int) := rfl
  have hrs : (RSR_Connectivity.set_up types).rsr_scores_
      = List.replicate (RSR_Connectivity.set_up types).num_restraints_.toNat
          RSR_Connectivity.Restraint_Score.empty := rfl
  unfold RSR_Connectivity.new32 RSR_Connectivity.new
  simp only [hn, if_true, hnp, hcount, h0, hrs]

/-- A restraint that the constructor of `RSR_Connectivity` returns in 32 bits is the one
that the constructor with unbounded integers returns: the count kept in 32 bits differs
from the number of pairs of different type by a multiple of `2^31`, and the constructor
fails when it is the smaller of the two. -/
theorem connectivity_new32_ok (types : List Int) (st : RSR_Connectivity.State)
    (h : RSR_Connectivity.new32 types = some (.ok st)) :
    RSR_Connectivity.new types = .ok st := by
  have hn : types.length < 2147483648 := by
    by_contra hs
    simp only [RSR_Connectivity.new32, hs, if_false] at h
    exact Option.noConfusion h
  have hpt : (RSR_Connectivity.set_up types).particle_type_ = types :=
    (RSR_Connectivity.scan_spec types).1
  have hnp : (RSR_Connectivity.set_up types).num_particles_ = (types.length : Int) := rfl
  have hnum := RSR_Connectivity.num_restraints_eq types
  have hsplit := RSR_Connectivity.length_filter_split types (index_pairs types.length)
  have hlen := RSR_Connectivity.length_index_pairs types.length
  have h3 : (types.length : Int) * ((types.length : Int) - 1)
      = ((index_pairs types.length).length : Int) * 2 := by
    have hcast : (types.length : Int) * ((types.length : Int) - 1)
        = ((types.length * (types.length - 1) : Nat) : Int) := by
      cases types.length with
      | zero => simp
      | succ m => push_cast; simp
    rw [hcast, ← hlen]
    push_cast
    rfl
  obtain ⟨t, ht⟩ := int32_congr ((types.length : Int) * ((types.length : Int) - 1))
  have hstart : Int.tdiv (int32 ((types.length : Int) * ((types.length : Int) - 1))) 2
      = ((index_pairs types.length).length : Int) - 2147483648 * t := by
    have he : ((index_pairs types.length).length : Int) * 2 - 4294967296 * t
        = (((index_pairs types.length).length : Int) - 2147483648 * t) * 2 := by ring
    rw [ht, h3, he, Int.mul_tdiv_cancel _ (by decide)]
  obtain ⟨u, hu⟩ := count_restraints32_congr types (index_pairs types.length)
    (Int.tdiv (int32 ((types.length : Int) * ((types.length : Int) - 1))) 2)
    (Int.tdiv (int32 ((types.length : Int) * ((types.length : Int) - 1))) 2) 0 (by ring)
  rw [RSR_Connectivity.count_restraints_eq] at hu
  have hlt := count_restraints32_lt types (index_pairs types.length)
    (Int.tdiv (int32 ((types.length : Int) * ((types.length : Int) - 1))) 2)
    (lt_trans (tdiv_two_lt _ (int32_lt _)) (by norm_num))
  have hcount : RSR_Connectivity.count_restraints32 types (index_pairs types.length)
        (Int.tdiv (int32 ((types.length : Int) * ((types.length : Int) - 1))) 2)
      = (RSR_Connectivity.set_up types).num_restraints_ := by
    rw [hnum]
    simp only [RSR_Connectivity.new32, hn, if_true, hnp, hpt, Int.toNat_ofNat,
      RSR_Connectivity.fill_spec, List.length_replicate] at h
    by_cases h0 : 0 ≤ RSR_Connectivity.count_restraints32 types (index_pairs types.length)
        (Int.tdiv (int32 ((types.length : Int) * ((types.length : Int) - 1))) 2)
    · rw [if_pos h0] at h
      by_cases hle : ((index_pairs types.length).filter fun p =>
          types.getD p.2 0 ≠ types.getD p.1 0).length ≤
          (RSR_Connectivity.count_restraints32 types (index_pairs types.length)
            (Int.tdiv (int32 ((types.length : Int) * ((types.length : Int) - 1))) 2)).toNat
      · simp only [RSR_Connectivity.candidate_pairs]
        rw [hstart] at hu hle ⊢
        rw [hstart] at hlt h0
        omega
      · rw [if_neg hle] at h
        exact Except.noConfusion (Option.some.inj h)
    · rw [if_neg h0] at h
      exact Option.noConfusion h
  rw [connectivity_new32_of_count types hn (by rw [hpt]; exact hcount)] at h
  exact Option.some.inj h

end Imp

namespace Imp

/-- Claim C24, on a machine whose `int` has 32 bits: the count of slots computed before the
loops of the constructors wraps around, and the loops enumerate more pairs than there are
slots. For two groups of 65536 particles `num_particles1_ * num_particles2_` is 0 and the
constructor of `RSR_Pair_Connectivity` fails with "Reached end of rsr_scores too early";
for 65537 particles `num_particles_ * (num_particles_ - 1)` is 65536, so that there are
32768 slots for 2147516416 pairs: the constructor of `RSR_Proximity` stores a restraint
outside of `dist_rsrs_`, and the constructor of `RSR_Connectivity`, when the types of the
particles are all different, fails with "Over ran the calculated number of restraints". -/
theorem constructors_overrun_when_count_overflows (k : Int) (reuse : Bool) :
    RSR_Pair_Connectivity.new32 65536 65536 k reuse =
        some (.error (.out_of_range "Reached end of rsr_scores too early")) ∧
      RSR_Proximity.new32 65537 = some none ∧
      RSR_Connectivity.new32 ((List.range 65537).map Int.ofNat) =
        some (.error (.out_of_range "Over ran the calculated number of restraints")) :=
  ⟨pair_new32_overrun k reuse, proximity_new32_overrun,
    connectivity_new32_overrun_of _ (by rw [List.length_map, List.length_range])
      (range_types_differ 65537)⟩

end Imp

namespace Imp

/-! ### The constructors in 32 bits: the count and the pairs -/

/-- A restraint that the constructor of `RSR_Connectivity` returns in 32 bits has the
candidate restraints that the constructor with unbounded integers builds: exactly the
pairs `(i, j)` with `i < j` of particles whose types differ, each once, tagged with the
two types, in row-major order. -/
theorem connectivity_new32_builds_different_type_pairs (types : List Int)
    (st : RSR_Connectivity.State) (h : RSR_Connectivity.new32 types = some (.ok st)) :
    (∀ i j, (∃ rs ∈ st.rsr_scores_, rs.rsr_ = some (i, j)) ↔
      (i < j ∧ j < types.length ∧ types.getD i 0 ≠ types.getD j 0)) ∧
    (∀ rs ∈ st.rsr_scores_, ∃ i j, rs.rsr_ = some (i, j) ∧
      rs.part1_type_ = types.getD i 0 ∧ rs.part2_type_ = types.getD j 0 ∧
      rs.part1_type_ ≠ rs.part2_type_) ∧
    (st.rsr_scores_.map fun rs => rs.rsr_).Nodup ∧
    st.rsr_scores_.Pairwise RSR_Connectivity.created_before ∧
    st.rsr_scores_.length = (RSR_Connectivity.candidate_pairs types).length := by
  have hnew := connectivity_new32_ok types st h
  obtain ⟨st', hst', hrest⟩ := RSR_Connectivity.constructor_builds_different_type_pairs types
  rw [hnew] at hst'
  have hst := Except.ok.inj hst'
  subst hst
  exact hrest

/-- When the types of the particles are all different, every pair of particles is a
candidate pair. -/
theorem candidate_pairs_of_distinct (types : List Int)
    (hdiff : ∀ p ∈ index_pairs types.length, types.getD p.2 0 ≠ types.getD p.1 0) :
    RSR_Connectivity.candidate_pairs types = index_pairs types.length := by
  unfold RSR_Connectivity.candidate_pairs
  rw [List.filter_eq_self]
  intro p hp
  simpa using hdiff p hp

/-- Claim C5, on a machine whose `int` has 32 bits. For 65537 particles whose types are
all different, the pairs `(i, j)` with `i < j` of particles whose types differ are
2147516416, and the constructor fails with "Over ran the calculated number of
restraints": it returns no restraint, so the candidate restraints of these pairs are not
built. -/
theorem connectivity_constructor_overruns_for_65537_types :
    (RSR_Connectivity.candidate_pairs ((List.range 65537).map Int.ofNat)).length =
        2147516416 ∧
      RSR_Connectivity.new32 ((List.range 65537).map Int.ofNat) =
        some (.error (.out_of_range "Over ran the calculated number of restraints")) ∧
      ∀ st, RSR_Connectivity.new32 ((List.range 65537).map Int.ofNat) ≠ some (.ok st) := by
  have hl : ((List.range 65537).map Int.ofNat).length = 65537 := by
    rw [List.length_map, List.length_range]
  have herr := connectivity_new32_overrun_of _ hl (range_types_differ 65537)
  refine ⟨?_, herr, ?_⟩
  · rw [candidate_pairs_of_distinct _ (by rw [hl]; exact range_types_differ 65537), hl]
    have h := RSR_Connectivity.length_index_pairs 65537
    omega
  · intro st hst
    rw [herr] at hst
    exact Except.noConfusion (Option.some.inj hst)

end Imp
